import Mathlib

/-!
# Merkle DAG builder and retrieval (`dag.go`, `dag2file.go`)

A shallow embedding of the two Go source files.

* Byte slices are lists of `UInt8`; a slice is identified with its contents, so the
  capacity of a slice is its length and a `nil` slice is the empty list.  Where the
  source uses `nil` as a "nothing found" result (`Hash2File`, `getFileByDir`,
  `store.Get` on a miss) the embedding uses `Option`, `none` standing for `nil`.
* `sha256` and `encoding/json` are library code: they are the three fields of `Codec`.
* The `KVStore` interface is a write log, newest entry first; `Get` returns the newest
  value put under a key.  The source ignores every error the store reports.
* The `Node` / `File` / `Dir` interfaces are a tree of files and directories; the `Size`
  of a node is the value `int(node.Size())` the source puts into a link.
* A Go run that does not return a value ends in one of two ways that matter here: a
  slice expression out of range (`Fault.outOfRange`) or recursion that never comes back
  (`Fault.noReturn`).  Functions that can end so return `Except Fault _`.
* Lengths and offsets are natural numbers: the source computes with `int`, and no value
  it computes from a slice that fits in memory leaves the `int` range.
-/

namespace MerkleDag

deriving instance DecidableEq for Except

abbrev Bytes := List UInt8

/-- The conversion `[]byte(s)` of a Go string constant. -/
def goBytes (s : String) : Bytes := s.toUTF8.data.toList

def LIST_LIMIT : Nat := 2048
def BLOCK_LIMIT : Nat := 256 * 1024

def BLOB : String := "blob"
def LIST : String := "list"
def TREE : String := "tree"

/-- The constant `STEP` of `dag2file.go`: the width of one tag in `Data`. -/
def STEP : Nat := 4

structure Link where
  Name : String
  Hash : Bytes
  Size : Int
deriving DecidableEq

/-- The type `Object` of the source.  `Data` is the list of the bytes of the slice: a nil
`Data` and an empty non-nil `Data` are the same list here.  `RawObject` below keeps the
two apart, for the one place of the builder where both can reach `json.Marshal`: the leaf
`StoreFile` makes of a file without bytes. -/
structure Object where
  Links : List Link
  Data : Bytes
deriving DecidableEq

/-- The library functions and the runtime facts the source relies on: the SHA-256 digest
behind `calculateHash`, `json.Marshal` on an `Object`, `json.Unmarshal` into an `Object`
(the value left in the target when the error is dropped, as `binaryToObj` does), and
`slack`: the bytes the backing array of a `Data` slice holds past `len(Data)`, so that
`cap(Data) = len(Data) + len(slack Data)`.  Go checks a slice expression on a slice
against the capacity, not the length; `slack` is empty for a nil `Data` and for every
slice whose capacity is its length. -/
structure Codec where
  sha256 : Bytes → Bytes
  jsonMarshal : Object → Bytes
  jsonUnmarshal : Bytes → Object
  slack : Bytes → Bytes := fun _ => []

/-- The `hash.Hash` argument threaded through the builder. -/
structure HashHandle where
  state : Bytes

/-- The `HashPool` argument of `Hash2File`. -/
structure HashPool where
  slots : Nat

/-- How a call can fail to return: `outOfRange` is the run-time panic of a slice
expression that reaches past the capacity of the slice, `noReturn` a recursion that does
not come back. -/
inductive Fault where
  | outOfRange
  | noReturn
deriving DecidableEq

/-- The store behind the `KVStore` interface: the log of `Put` calls, newest first. -/
abbrev KVStore := List (Bytes × Bytes)

def KVStore.Put (store : KVStore) (key value : Bytes) : KVStore := (key, value) :: store

def KVStore.Get : KVStore → Bytes → Option Bytes
  | [], _ => none
  | (k, v) :: rest, key => if k = key then some v else KVStore.Get rest key

def KVStore.Has (store : KVStore) (key : Bytes) : Bool := (store.Get key).isSome

structure File where
  Name : String
  Size : Int
  Bytes : Bytes

inductive Node where
  | FILE (file : File)
  | DIR (Name : String) (Size : Int) (It : List Node)

def Node.Name : Node → String
  | .FILE file => file.Name
  | .DIR name _ _ => name

def calculateHash (E : Codec) (data : Bytes) : Bytes := E.sha256 data

/-- The slice expression `b[lo:hi]` on indices that are in range. -/
def slice (b : Bytes) (lo hi : Nat) : Bytes := (b.take hi).drop lo

/-- The loop of `dfsForStoreFile` at `hight == 1` (lines 93-113), entered with
`seedId < len(bytes)`: `n` iterations are left, `links` and `lenData` are the loop's
variables.  Inside the loop `seedId < len(bytes)` holds at every slice expression. -/
def blobLoop (E : Codec) (bytes : Bytes) :
    Nat → Object → Nat → KVStore → Nat → Object × Nat × KVStore
  | 0, links, lenData, store, _ => (links, lenData, store)
  | n + 1, links, lenData, store, seedId =>
    let end_ := if bytes.length < seedId + 256 * 1024 then bytes.length else seedId + 256 * 1024
    let data := slice bytes seedId end_
    let blob : Object := { Data := data, Links := [] }
    let lenData := lenData + data.length
    let hash := calculateHash E (E.jsonMarshal blob)
    let store := store.Put hash data
    let links : Object :=
      { Links := links.Links ++ [{ Name := "", Hash := hash, Size := data.length }],
        Data := links.Data ++ goBytes "blob" }
    let seedId := seedId + 256 * 1024
    if seedId ≥ bytes.length then (links, lenData, store)
    else blobLoop E bytes n links lenData store seedId

/-- The loop of `dfsForStoreFile` at `hight != 1` (lines 121-138); `child store seedId`
is the recursive call `dfsForStoreFile(hight-1, file, store, seedId, h)`.  The loop
never assigns `seedId`. -/
def linkLoop (E : Codec) (child : KVStore → Nat → Except Fault (Object × Nat × KVStore))
    (len seedId : Nat) : Nat → Object → Nat → KVStore → Except Fault (Object × Nat × KVStore)
  | 0, links, lenData, store => .ok (links, lenData, store)
  | n + 1, links, lenData, store =>
    if seedId ≥ len then .ok (links, lenData, store)
    else
      match child store seedId with
      | .error e => .error e
      | .ok (tmp, lens, store) =>
        let lenData := lenData + lens
        let hash := calculateHash E (E.jsonMarshal tmp)
        let typeName := if tmp.Links.isEmpty then "blob" else "link"
        let links : Object :=
          { Links := links.Links ++ [{ Name := "", Hash := hash, Size := lens }],
            Data := links.Data ++ goBytes typeName }
        linkLoop E child len seedId n links lenData store

/-- Lines 139-142 and 114-117: persist the composite under its digest and return it. -/
def putLinks (E : Codec) (r : Object × Nat × KVStore) : Object × Nat × KVStore :=
  let jsonMarshal := E.jsonMarshal r.1
  (r.1, r.2.1, r.2.2.Put (calculateHash E jsonMarshal) jsonMarshal)

/-- `dfsForStoreFile(hight, file, store, seedId, h)`, returning the object, the byte
count and the store after the call.  At `hight < 1` the source takes the `else` branch
and calls itself with `hight-1` for ever unless `seedId >= len`; at `hight == 1` with
`seedId > len` the slice `file.Bytes()[seedId:]` is out of range. -/
def dfsForStoreFile (E : Codec) :
    Nat → File → KVStore → Nat → HashHandle → Except Fault (Object × Nat × KVStore)
  | 0, file, store, seedId, _ =>
    (linkLoop E (fun _ _ => .error .noReturn) file.Bytes.length seedId 4096
      { Links := [], Data := [] } 0 store).map (putLinks E)
  | 1, file, store, seedId, _ =>
    if file.Bytes.length ≤ seedId + 256 * 1024 then
      if seedId ≤ file.Bytes.length then
        let data := slice file.Bytes seedId file.Bytes.length
        let blob : Object := { Data := data, Links := [] }
        let hash := calculateHash E (E.jsonMarshal blob)
        .ok (blob, data.length, store.Put hash data)
      else .error .outOfRange
    else
      .ok (putLinks E (blobLoop E file.Bytes 4096 { Links := [], Data := [] } 0 store seedId))
  | hight + 2, file, store, seedId, h =>
    (linkLoop E (fun store seedId => dfsForStoreFile E (hight + 1) file store seedId h)
      file.Bytes.length seedId 4096 { Links := [], Data := [] } 0 store).map (putLinks E)

/-- The loop of `StoreFile` (lines 69-75) from the state `(hight, tmp)`. -/
def heightLoop (hight tmp : Nat) : Nat :=
  if _h : tmp / 4096 = 0 then hight + 1 else heightLoop (hight + 1) (tmp / 4096)
termination_by tmp
decreasing_by omega

def StoreFile (E : Codec) (store : KVStore) (file : File) (h : HashHandle) :
    Except Fault (Object × KVStore) :=
  if file.Bytes.length ≤ 256 * 1024 then
    let data := file.Bytes
    let blob : Object := { Data := data, Links := [] }
    let hash := calculateHash E (E.jsonMarshal blob)
    .ok (blob, store.Put hash data)
  else
    let linkLen := (file.Bytes.length + (256 * 1024 - 1)) / (256 * 1024)
    let hight := heightLoop 0 linkLen
    (dfsForStoreFile E hight file store 0 h).map (fun r => (r.1, r.2.2))

/-- `StoreDir(store, dir, h)` on the children `dir.It()` enumerates; `storeDirLoop` is
the `for it.Next()` loop with loop variable `treeObject`. -/
def StoreDir (E : Codec) (store : KVStore) (dir : List Node) (h : HashHandle) :
    Except Fault (Object × KVStore) :=
  match storeDirLoop E store dir h { Links := [], Data := [] } with
  | .error e => .error e
  | .ok (treeObject, store) =>
    let jsonMarshal := E.jsonMarshal treeObject
    .ok (treeObject, store.Put (calculateHash E jsonMarshal) jsonMarshal)
where
  storeDirLoop (E : Codec) (store : KVStore) :
      List Node → HashHandle → Object → Except Fault (Object × KVStore)
    | [], _, treeObject => .ok (treeObject, store)
    | .FILE file :: rest, h, treeObject =>
      match StoreFile E store file h with
      | .error e => .error e
      | .ok (tmp, store) =>
        let hash := calculateHash E (E.jsonMarshal tmp)
        let typeName := if tmp.Links.isEmpty then "blob" else "link"
        storeDirLoop E store rest h
          { Links := treeObject.Links ++ [{ Hash := hash, Size := file.Size, Name := file.Name }],
            Data := treeObject.Data ++ goBytes typeName }
    | .DIR name size it :: rest, h, treeObject =>
      match StoreDir E store it h with
      | .error e => .error e
      | .ok (tmp, store) =>
        let hash := calculateHash E (E.jsonMarshal tmp)
        let typeName := "tree"
        storeDirLoop E store rest h
          { Links := treeObject.Links ++ [{ Hash := hash, Size := size, Name := name }],
            Data := treeObject.Data ++ goBytes typeName }

def Add (E : Codec) (store : KVStore) (node : Node) (h : HashHandle) :
    Except Fault (Bytes × KVStore) :=
  match node with
  | .FILE file =>
    (StoreFile E store file h).map (fun r => (calculateHash E (E.jsonMarshal r.1), r.2))
  | .DIR _ _ it =>
    (StoreDir E store it h).map (fun r => (calculateHash E (E.jsonMarshal r.1), r.2))

/-- `binaryToObj(objBinary)`: `json.Unmarshal` into a zero `Object`, the error dropped.
A `nil` argument (a store miss) is the empty input. -/
def binaryToObj (E : Codec) (objBinary : Option Bytes) : Object :=
  E.jsonUnmarshal (objBinary.getD [])

/-- The library call `strings.Split(s, sep)` for the one-character separator of
`Hash2File`, the backslash (code point 92), on the characters of `s`. -/
def splitBackslash : List Char → List (List Char)
  | [] => [[]]
  | c :: cs =>
    if c = Char.ofNat 92 then [] :: splitBackslash cs
    else
      match splitBackslash cs with
      | [] => [[c]]
      | w :: ws => (c :: w) :: ws

def stringsSplit (path : String) : List String := (splitBackslash path.data).map String.mk

/-- The loop of `getFileByList` (lines 64-76) over the links that are left, with the loop
variables `index` and `ans`; `self` is the recursive call `getFileByList(curObj, store)`.
The slice expression `obj.Data[index : index+STEP]` is in range when `index+STEP` does
not exceed the capacity of `Data`; past the length it yields the bytes of the backing
array. -/
def listLoop (E : Codec) (store : KVStore) (self : Object → Except Fault Bytes) (Data : Bytes) :
    List Link → Nat → Bytes → Except Fault Bytes
  | [], _, ans => .ok ans
  | curObjLink :: rest, index, ans =>
    if index + STEP ≤ Data.length + (E.slack Data).length then
      let curObjType := slice (Data ++ E.slack Data) index (index + STEP)
      let index := index + STEP
      let curObjBinary := store.Get curObjLink.Hash
      let curObj := binaryToObj E curObjBinary
      if curObjType = goBytes BLOB then
        listLoop E store self Data rest index (ans ++ curObjBinary.getD [])
      else
        match self curObj with
        | .error e => .error e
        | .ok tmp => listLoop E store self Data rest index (ans ++ tmp)
    else .error .outOfRange

/-- `getFileByList(obj, store)`; `fuel` bounds the depth of the recursion, which the
source does not bound. -/
def getFileByList (E : Codec) : Nat → Object → KVStore → Except Fault Bytes
  | 0, _, _ => .error .noReturn
  | fuel + 1, obj, store =>
    listLoop E store (fun curObj => getFileByList E fuel curObj store) obj.Data obj.Links 0 []

/-- The loop of `getFileByDir` (lines 32-56) over the links that are left, with the loop
variable `index`; `name` is `pathArr[cur]` and `self` the recursive call
`getFileByDir(objDir, pathArr, cur+1, store)`.  The slice expression
`obj.Data[index : index+STEP]` is checked against the capacity of `Data`, as in
`listLoop`. -/
def dirLoop (E : Codec) (store : KVStore) (fuel : Nat)
    (self : Object → Except Fault (Option Bytes)) (Data : Bytes) (name : String) :
    List Link → Nat → Except Fault (Option Bytes)
  | [], _ => .ok none
  | objInfo :: rest, index =>
    if index + STEP ≤ Data.length + (E.slack Data).length then
      let objType := slice (Data ++ E.slack Data) index (index + STEP)
      let index := index + STEP
      if objInfo.Name ≠ name then dirLoop E store fuel self Data name rest index
      else if objType = goBytes TREE then
        let objDirBinary := store.Get objInfo.Hash
        let objDir := binaryToObj E objDirBinary
        match self objDir with
        | .error e => .error e
        | .ok (some ans) => .ok (some ans)
        | .ok none => dirLoop E store fuel self Data name rest index
      else if objType = goBytes BLOB then .ok (store.Get objInfo.Hash)
      else if objType = goBytes LIST then
        let objLinkBinary := store.Get objInfo.Hash
        let objList := binaryToObj E objLinkBinary
        (getFileByList E fuel objList store).map some
      else dirLoop E store fuel self Data name rest index
    else .error .outOfRange

/-- `getFileByDir(obj, pathArr, cur, store)`; `fuel` is handed to `getFileByList`. -/
def getFileByDir (E : Codec) (fuel : Nat) (obj : Object) (pathArr : List String) (cur : Nat)
    (store : KVStore) : Except Fault (Option Bytes) :=
  if h : cur ≥ pathArr.length then .ok none
  else
    dirLoop E store fuel (fun objDir => getFileByDir E fuel objDir pathArr (cur + 1) store)
      obj.Data (pathArr.get ⟨cur, Nat.lt_of_not_le h⟩) obj.Links 0
termination_by pathArr.length - cur
decreasing_by omega

/-- `Hash2File(store, hash, path, hp)`. -/
def Hash2File (E : Codec) (fuel : Nat) (store : KVStore) (hash : Bytes) (path : String)
    (_hp : HashPool) : Except Fault (Option Bytes) :=
  let flag := store.Has hash
  if flag then
    let objBinary := store.Get hash
    let obj := binaryToObj E objBinary
    let pathArr := stringsSplit path
    let cur := 1
    getFileByDir E fuel obj pathArr cur store
  else .ok none

/-! ### A concrete codec

An instance of `Codec` on which decoding inverts encoding and the digest has no
collision, used to instantiate the statements below at concrete inputs. -/

/-- An object as numbers: names by code points, bytes by their values. -/
def objCode (o : Object) : List ((List ℕ × List ℕ) × ℤ) × List ℕ :=
  (o.Links.map fun l => ((l.Name.data.map Char.toNat, l.Hash.map UInt8.toNat), l.Size),
    o.Data.map UInt8.toNat)

def objDecode (c : List ((List ℕ × List ℕ) × ℤ) × List ℕ) : Object :=
  { Links := c.1.map fun t =>
      { Name := String.mk (t.1.1.map Char.ofNat), Hash := t.1.2.map UInt8.ofNat, Size := t.2 },
    Data := c.2.map UInt8.ofNat }

/-- The serialization of the concrete codec: as many zero bytes as the code of the object. -/
def unaryMarshal (o : Object) : Bytes := List.replicate (Encodable.encode (objCode o)) 0

def unaryUnmarshal (b : Bytes) : Object :=
  match (Encodable.decode b.length : Option (List ((List ℕ × List ℕ) × ℤ) × List ℕ)) with
  | some c => objDecode c
  | none => { Links := [], Data := [] }

/-- The concrete codec: the digest is the identity. -/
def unaryCodec : Codec :=
  { sha256 := fun b => b, jsonMarshal := unaryMarshal, jsonUnmarshal := unaryUnmarshal }

/-- A file of `n` zero bytes, used to instantiate statements at large sizes. -/
def zeroBytes (n : Nat) : Bytes := List.replicate n 0

/-- The result of a builder call with the store it leaves put in front of `s`. -/
def rebase (s : KVStore) (r : Object × Nat × KVStore) : Object × Nat × KVStore :=
  (r.1, r.2.1, r.2.2 ++ s)

/-- The tag the retrieval side reads for link `i`: `Data[STEP*i : STEP*i+STEP]`. -/
def tagAt (o : Object) (i : Nat) : Bytes := slice o.Data (STEP * i) (STEP * i + STEP)

/-- The object was filled by appending one link and one tag at a time, every pair
satisfying `P`. -/
def Entries (P : Link → String → Prop) (o : Object) : Prop :=
  ∃ es : List (Link × String),
    o.Links = es.map Prod.fst ∧ o.Data = (es.map fun e => goBytes e.2).flatten ∧
    ∀ e ∈ es, P e.1 e.2

/-- What the builder records about a child: the link carries the digest of the child
object, and the tag is `"blob"` for a child without links, `"link"` for a child with
links that came from a file, and `"tree"` for a directory. -/
def ChildEntry (E : Codec) (l : Link) (t : String) : Prop :=
  ∃ child : Object, l.Hash = calculateHash E (E.jsonMarshal child) ∧
    ((t = "blob" ∧ child.Links = []) ∨ (t = "link" ∧ child.Links ≠ []) ∨ t = "tree")

/-- Every entry of the log was written by the builder: a leaf payload under the digest
of its object, or the serialization of an object filled pairwise. -/
def BuilderLog (E : Codec) (W : KVStore) : Prop :=
  ∀ kv ∈ W, ∃ o : Object, kv.1 = calculateHash E (E.jsonMarshal o) ∧
    ((o.Links = [] ∧ kv.2 = o.Data) ∨ (Entries (ChildEntry E) o ∧ kv.2 = E.jsonMarshal o))

/-- The value a file tree's root is stored under its digest with: the raw `Data` of an
object without links, the serialization of an object with links. -/
def payload (E : Codec) (o : Object) : Bytes :=
  if o.Links.isEmpty then o.Data else E.jsonMarshal o

/-- The key the builder stores an object under. -/
def digest (E : Codec) (o : Object) : Bytes := calculateHash E (E.jsonMarshal o)

/-- The object `StoreFile` / `StoreDir` return for a node (they return it whatever the
store holds; the empty object stands in where a call would not return). -/
def builtObject (E : Codec) : Node → Object
  | .FILE file =>
    match StoreFile E [] file ⟨[]⟩ with
    | .ok r => r.1
    | .error _ => { Links := [], Data := [] }
  | .DIR _ _ it =>
    match StoreDir E [] it ⟨[]⟩ with
    | .ok r => r.1
    | .error _ => { Links := [], Data := [] }

def Node.Size : Node → Int
  | .FILE file => file.Size
  | .DIR _ size _ => size

/-- The link `StoreDir` appends for a child. -/
def nodeLink (E : Codec) (node : Node) : Link :=
  { Hash := digest E (builtObject E node), Size := node.Size, Name := node.Name }

/-- The tag `StoreDir` appends for a child. -/
def nodeTag (E : Codec) : Node → String
  | .FILE file => if (builtObject E (.FILE file)).Links.isEmpty then "blob" else "link"
  | .DIR _ _ _ => "tree"

/-- The value the builder stores under the digest of a child's object. -/
def nodeValue (E : Codec) : Node → Bytes
  | .FILE file => payload E (builtObject E (.FILE file))
  | .DIR name size it => E.jsonMarshal (builtObject E (.DIR name size it))

/-- The object `StoreDir` returns for the children `dir`. -/
def dirObject (E : Codec) (dir : List Node) : Object :=
  { Links := dir.map (nodeLink E), Data := (dir.map fun n => goBytes (nodeTag E n)).flatten }

/-- The writes `StoreFile` / `StoreDir` add to the store for a node, newest first. -/
def nodeWrites (E : Codec) : Node → KVStore
  | .FILE file =>
    match StoreFile E [] file ⟨[]⟩ with
    | .ok r => r.2
    | .error _ => []
  | .DIR _ _ it =>
    match StoreDir E [] it ⟨[]⟩ with
    | .ok r => r.2
    | .error _ => []

/-- The writes the loop of `StoreDir` adds for the children `kids`, newest first: those
of the last child on top, those of the first child at the bottom. -/
def loopWrites (E : Codec) : List Node → KVStore
  | [] => []
  | kid :: rest => loopWrites E rest ++ nodeWrites E kid

/-- What the loop of `StoreDir` does on the children `kids`: it returns, whatever the
store, the handle and the links gathered so far, after adding the writes of the
children. -/
def DirBuilt (E : Codec) (kids : List Node) : Prop :=
  ∀ (s : KVStore) (h : HashHandle) (acc : Object),
    StoreDir.storeDirLoop E s kids h acc
      = .ok ({ Links := acc.Links ++ kids.map (nodeLink E),
               Data := acc.Data ++ (kids.map fun n => goBytes (nodeTag E n)).flatten },
             loopWrites E kids ++ s)

/-- No key of the log was written with two different values: on the objects the run
wrote the digest has no collision that matters. -/
def NoClash (W : KVStore) : Prop :=
  ∀ k v₁ v₂, (k, v₁) ∈ W → (k, v₂) ∈ W → v₁ = v₂

/-- The tag bytes of a list of entries, in order: the `Data` of a composite. -/
def tagBytes (ts : List String) : Bytes := (ts.map goBytes).flatten

/-- The delimiter `Hash2File` splits a path at: one backslash. -/
def pathSep : String := String.singleton (Char.ofNat 92)

/-- The path made of the given components joined by the delimiter. -/
def joinPath : List String → String
  | [] => ""
  | [c] => c
  | c :: d :: cs => c ++ pathSep ++ joinPath (d :: cs)

/-- The directory of the specification's example: a file `a.txt` holding `hello` and a
subdirectory `sub` with a file `b.txt` holding `world`. -/
def exampleDir : List Node :=
  [.FILE ⟨"a.txt", 5, goBytes "hello"⟩, .DIR "sub" 5 [.FILE ⟨"b.txt", 5, goBytes "world"⟩]]

/-- The tag the builder records for a child of a directory, by the kind of the child:
`"tree"` for a directory, `"blob"` for a file of at most 262144 bytes (stored as one leaf
payload) and `"link"` for a longer file (stored as a composite). -/
def kindTag : Node → String
  | .FILE file => if file.Bytes.length ≤ 256 * 1024 then "blob" else "link"
  | .DIR _ _ _ => "tree"

/-- What `dfsForStoreFile` records about a child: the link carries the digest of the
child object, and the tag is `"blob"` for a child without links and `"link"` for a child
with links. -/
def FileEntry (E : Codec) (l : Link) (t : String) : Prop :=
  ∃ child : Object, l.Hash = calculateHash E (E.jsonMarshal child) ∧
    ((t = "blob" ∧ child.Links = []) ∨ (t = "link" ∧ child.Links ≠ []))

/-- The tag/link alignment of a composite built from a file: four bytes of `Data` for
each link, and the group at position `i` is the tag of link `i`: `"blob"` when the link
carries the digest of an object without links, `"link"` when it carries the digest of an
object with links. -/
def FileAligned (E : Codec) (o : Object) : Prop :=
  o.Data.length = 4 * o.Links.length ∧
  ∀ (i : Nat) (hi : i < o.Links.length), ∃ child : Object,
    (o.Links.get ⟨i, hi⟩).Hash = calculateHash E (E.jsonMarshal child) ∧
    ((tagAt o i = goBytes "blob" ∧ child.Links = []) ∨
     (tagAt o i = goBytes "link" ∧ child.Links ≠ []))

/-- The tag/link alignment of the object of a directory with the children `kids`: one
link and four bytes of `Data` for each child, in the order of the children; link `i`
carries the name of child `i` and the digest of the object built for child `i`, and the
group at position `i` is the tag of child `i` by its kind. -/
def DirAligned (E : Codec) (kids : List Node) (o : Object) : Prop :=
  o.Links.length = kids.length ∧ o.Data.length = 4 * o.Links.length ∧
  ∀ (i : Nat) (hk : i < kids.length) (hl : i < o.Links.length),
    (o.Links.get ⟨i, hl⟩).Name = (kids.get ⟨i, hk⟩).Name ∧
    (o.Links.get ⟨i, hl⟩).Hash
      = calculateHash E (E.jsonMarshal (builtObject E (kids.get ⟨i, hk⟩))) ∧
    tagAt o i = goBytes (kindTag (kids.get ⟨i, hk⟩))

/-- The directory with the children `sub` is the directory with the children `kids` or
lies inside it. -/
inductive DirIn : List Node → List Node → Prop where
  | self (kids : List Node) : DirIn kids kids
  | child (sub kids : List Node) (name : String) (size : Int) (mid : List Node) :
      Node.DIR name size mid ∈ kids → DirIn sub mid → DirIn sub kids

/-- The object has at least `STEP` bytes of `Data` for each of its links. -/
def TagRoom (o : Object) : Prop := STEP * o.Links.length ≤ o.Data.length

/-- Every object the retrieval side can decode from the store, the one it gets from a
miss included, has room for its tags. -/
def StoreAligned (E : Codec) (store : KVStore) : Prop :=
  ∀ key : Bytes, TagRoom (binaryToObj E (store.Get key))

/-- The links of the objects in the store lead to keys of smaller depth: no chain of
links goes on for ever. -/
def StoreRanked (E : Codec) (store : KVStore) (depth : Bytes → Nat) : Prop :=
  ∀ key : Bytes, ∀ l ∈ (binaryToObj E (store.Get key)).Links, depth l.Hash < depth key

/-- A composite with one link and a nil `Data`: no tag bytes, capacity 0. -/
def badObject : Object := { Links := [{ Name := "a", Hash := goBytes "x", Size := 0 }], Data := [] }

/-- A store that holds `badObject`, serialized, under the key `r`. -/
def badStore : KVStore := [(goBytes "r", unaryCodec.jsonMarshal badObject)]

/-- A composite whose one link, tagged `"list"`, carries the key `r`. -/
def loopObject : Object :=
  { Links := [{ Name := "a", Hash := goBytes "r", Size := 0 }], Data := goBytes "list" }

/-- A store that holds `loopObject`, serialized, under the key `r` its link carries. -/
def loopStore : KVStore := [(goBytes "r", unaryCodec.jsonMarshal loopObject)]

/-- A composite with one link tagged `"blob"`. -/
def goodObject : Object :=
  { Links := [{ Name := "a", Hash := goBytes "x", Size := 0 }], Data := goBytes "blob" }

/-- A store that holds `goodObject`, serialized, under the key `r`. -/
def goodStore : KVStore := [(goBytes "r", unaryCodec.jsonMarshal goodObject)]

/-- A depth for the keys of `goodStore`: 1 for the key `r`, 0 for every other key. -/
def goodDepth (key : Bytes) : Nat := if key = goBytes "r" then 1 else 0

/-- The chunks the loop of `dfsForStoreFile` at `hight == 1` cuts off the bytes from
`seedId` on, in at most `n` iterations. -/
def chunks (bytes : Bytes) : Nat → Nat → List Bytes
  | 0, _ => []
  | n + 1, seedId =>
    slice bytes seedId
        (if bytes.length < seedId + 256 * 1024 then bytes.length else seedId + 256 * 1024)
      :: (if seedId + 256 * 1024 ≥ bytes.length then [] else chunks bytes n (seedId + 256 * 1024))

/-- The link the builder appends for a leaf payload. -/
def leafLink (E : Codec) (data : Bytes) : Link :=
  { Name := "", Hash := digest E { Links := [], Data := data }, Size := data.length }

/-- The store entry the builder writes for a leaf payload. -/
def leafWrite (E : Codec) (data : Bytes) : Bytes × Bytes :=
  (digest E { Links := [], Data := data }, data)

/-- Every entry of the log follows the persistence convention: the value under the
digest of an object is the raw `Data` when the object has no links and its serialization
when it has. -/
def PayloadLog (E : Codec) (W : KVStore) : Prop :=
  ∀ kv ∈ W, ∃ o : Object, kv = (digest E o, payload E o)

/-- The composite the loop at `hight == 1` builds over the leaf payloads `ds`. -/
def leavesObject (E : Codec) (ds : List Bytes) : Object :=
  { Links := ds.map (leafLink E), Data := tagBytes (List.replicate ds.length "blob") }

/-- A composite of `n` links to one child with links, each of size `lens`. -/
def copiesObject (E : Codec) (child : Object) (lens n : Nat) : Object :=
  { Links := List.replicate n { Name := "", Hash := digest E child, Size := lens },
    Data := tagBytes (List.replicate n "link") }

/-- The links of an object paired with the tags the retrieval side reads for them: the
pair for the link at position `i` holds the bytes `Data[index : index+STEP]` at
`index = STEP * i`. -/
def tagged (Data : Bytes) : List Link → Nat → List (Link × Bytes)
  | [], _ => []
  | l :: rest, index => (l, slice Data index (index + STEP)) :: tagged Data rest (index + STEP)

/-- The link table of an object with the tag of every link. -/
def entriesOf (obj : Object) : List (Link × Bytes) := tagged obj.Data obj.Links 0

/-- Modelled after the specification's words, for comparison with `getFileByDir`: the
reference scan of one composite for the path component `component`.  It visits the links
in order and skips every link whose name differs from the component.  At a link with that
name it acts by the tag: `"blob"` returns the value stored under the link's hash and ends
the scan; `"list"` returns the reconstruction of the child list and ends the scan;
`"tree"` recurses into the child with the next component (`descend`) and goes on with the
remaining links only when the recursion yields nil; a link with any other tag is passed
over.  The result is nil when the scan ends. -/
def referenceScan (E : Codec) (store : KVStore) (fuel : Nat)
    (descend : Object → Except Fault (Option Bytes)) (component : String) :
    List (Link × Bytes) → Except Fault (Option Bytes)
  | [] => .ok none
  | (link, tag) :: rest =>
    if link.Name ≠ component then referenceScan E store fuel descend component rest
    else if tag = goBytes "blob" then .ok (store.Get link.Hash)
    else if tag = goBytes "list" then
      (getFileByList E fuel (binaryToObj E (store.Get link.Hash)) store).map some
    else if tag = goBytes "tree" then
      match descend (binaryToObj E (store.Get link.Hash)) with
      | .error e => .error e
      | .ok (some bytes) => .ok (some bytes)
      | .ok none => referenceScan E store fuel descend component rest
    else referenceScan E store fuel descend component rest

/-- A composite whose one link, named `a` and tagged `"list"`, carries the key `l`. -/
def listRoot : Object :=
  { Links := [{ Name := "a", Hash := goBytes "l", Size := 0 }], Data := goBytes "list" }

/-- A list of two chunks, both tagged `"blob"`, under the keys `c1` and `c2`. -/
def chunkList : Object :=
  { Links := [{ Name := "", Hash := goBytes "c1", Size := 5 },
              { Name := "", Hash := goBytes "c2", Size := 5 }],
    Data := goBytes "blobblob" }

/-- A store that holds `listRoot` under the key `r` and nothing under the key `l`. -/
def missStore : KVStore := [(goBytes "r", unaryCodec.jsonMarshal listRoot)]

/-- A store that holds `listRoot` under `r`, `chunkList` under `l`, the bytes `hello`
under `c1` and nothing under `c2`. -/
def partStore : KVStore :=
  [(goBytes "r", unaryCodec.jsonMarshal listRoot),
   (goBytes "l", unaryCodec.jsonMarshal chunkList),
   (goBytes "c1", goBytes "hello")]

/-- A second concrete codec, whose serialization is never empty: one zero byte in front
of the serialization of `unaryCodec`. -/
def shiftCodec : Codec :=
  { sha256 := fun b => b,
    jsonMarshal := fun o => 0 :: unaryMarshal o,
    jsonUnmarshal := fun b => unaryUnmarshal b.tail }

/-- The object `o` can be read off the log: the log holds, under the digest of `o`, the
raw `Data` of `o` or the serialization of `o`. -/
def Written (E : Codec) (W : KVStore) (o : Object) : Prop :=
  (digest E o, o.Data) ∈ W ∨ (digest E o, E.jsonMarshal o) ∈ W

/-- Children before parents, on a log of writes, newest first: every write is that of a
leaf payload, or that of a serialized object every link of which carries a key written
earlier (further down the log). -/
def ChildrenFirst (E : Codec) : KVStore → Prop
  | [] => True
  | kv :: older =>
    ((∃ d : Bytes, kv = leafWrite E d) ∨
     (∃ o : Object, kv = (digest E o, E.jsonMarshal o) ∧
        ∀ l ∈ o.Links, ∃ v : Bytes, (l.Hash, v) ∈ older)) ∧
    ChildrenFirst E older

/-- Every write of the log `W` is that of a leaf payload, or that of a serialized object
every link of which carries a key the store has. -/
def LinksPresent (E : Codec) (W store : KVStore) : Prop :=
  ∀ kv ∈ W, (∃ d : Bytes, kv = leafWrite E d) ∨
    (∃ o : Object, kv = (digest E o, E.jsonMarshal o) ∧
      ∀ l ∈ o.Links, store.Has l.Hash = true)

/-- Chunk and fan-out bounds on a log of writes: every write is that of a leaf payload
of at most 262144 bytes, or that of a serialized object with at least 1 and at most
4096 links. -/
def FanOutLog (E : Codec) (W : KVStore) : Prop :=
  ∀ kv ∈ W, (∃ d : Bytes, kv = leafWrite E d ∧ d.length ≤ 256 * 1024) ∨
    (∃ o : Object, kv = (digest E o, E.jsonMarshal o) ∧
      1 ≤ o.Links.length ∧ o.Links.length ≤ 4096)

/-- The state of a construction loop: the log is in order and within bounds, and every
link gathered so far carries a key the log holds. -/
def LoopState (E : Codec) (links : Object) (W : KVStore) : Prop :=
  ChildrenFirst E W ∧ FanOutLog E W ∧ ∀ l ∈ links.Links, ∃ v : Bytes, (l.Hash, v) ∈ W

/-- A file of exactly 4096 chunks of zero bytes. -/
def bigFile : File := ⟨"big.bin", 4096 * 262144, zeroBytes (4096 * 262144)⟩

/-- The codec `unaryCodec` on a runtime in which the backing array of every `Data` slice
holds the four bytes `blob` past the length: every `Data` has capacity `len(Data) + 4`. -/
def roomyCodec : Codec :=
  { sha256 := fun b => b, jsonMarshal := unaryMarshal, jsonUnmarshal := unaryUnmarshal,
    slack := fun _ => goBytes "blob" }

/-- A write of the file builder: a leaf payload under the digest of its object, or the
serialization of an object aligned as a composite built from a file. -/
def FileWrite (E : Codec) (kv : Bytes × Bytes) : Prop :=
  (∃ d : Bytes, kv = leafWrite E d) ∨
  (∃ o : Object, kv = (digest E o, E.jsonMarshal o) ∧ FileAligned E o)

/-- A write of the directory builder on the children `kids`: a write of the file builder,
or the serialization of the object of a directory that is `kids` or lies inside it. -/
def DirWrite (E : Codec) (kids : List Node) (kv : Bytes × Bytes) : Prop :=
  FileWrite E kv ∨
  (∃ sub : List Node, DirIn sub kids ∧
    kv = (digest E (dirObject E sub), E.jsonMarshal (dirObject E sub)))

/-- A directory with a file `a.txt`, a subdirectory `sub` holding an empty file `b.txt`,
and a directory `e` with no children. -/
def clashDir : List Node :=
  [.FILE ⟨"a.txt", 5, goBytes "hello"⟩, .DIR "sub" 0 [.FILE ⟨"b.txt", 0, []⟩], .DIR "e" 0 []]

/-! ### Nil and empty byte slices

A value of type `[]byte` is modelled above by the list of its bytes, which makes a nil
slice and an empty non-nil slice one value.  `json.Marshal` tells them apart: it writes
`null` for a nil `Data` and `""` for an empty one.  The definitions below keep the
difference: `none` is the nil slice, `some b` a non-nil slice holding the bytes `b`. -/

/-- An `Object` whose `Data` is a nil or a non-nil slice. -/
structure RawObject where
  Links : List Link
  Data : Option Bytes
deriving DecidableEq

/-- A `File` whose `Bytes()` returns a nil or a non-nil slice. -/
structure RawFile where
  Name : String
  Size : Int
  Bytes : Option Bytes

/-- The library functions on objects whose `Data` is a nil or a non-nil slice. -/
structure RawCodec where
  sha256 : Bytes → Bytes
  jsonMarshal : RawObject → Bytes
  jsonUnmarshal : Bytes → RawObject

/-- The library functions on the objects whose `Data` is not nil. -/
def RawCodec.plain (E : RawCodec) : Codec :=
  { sha256 := E.sha256,
    jsonMarshal := fun o => E.jsonMarshal { Links := o.Links, Data := some o.Data },
    jsonUnmarshal := fun b =>
      { Links := (E.jsonUnmarshal b).Links, Data := (E.jsonUnmarshal b).Data.getD [] } }

/-- `StoreFile(store, file, h)` with the difference between a nil and an empty
`file.Bytes()` kept.  In the first branch the leaf takes the slice `file.Bytes()` as it
is.  In the second branch the file has more than 262144 bytes, so `file.Bytes()` is not
nil, every leaf holds a slice of it and every composite a `Data` that was appended to:
no `Data` that reaches `json.Marshal` is nil, and the calls are those of
`dfsForStoreFile` above. -/
def StoreFileRaw (E : RawCodec) (store : KVStore) (file : RawFile) (h : HashHandle) :
    Except Fault (RawObject × KVStore) :=
  if (file.Bytes.getD []).length ≤ 256 * 1024 then
    let data := file.Bytes
    let blob : RawObject := { Data := data, Links := [] }
    let hash := E.sha256 (E.jsonMarshal blob)
    .ok (blob, store.Put hash (data.getD []))
  else
    let linkLen := ((file.Bytes.getD []).length + (256 * 1024 - 1)) / (256 * 1024)
    let hight := heightLoop 0 linkLen
    (dfsForStoreFile E.plain hight ⟨file.Name, file.Size, file.Bytes.getD []⟩ store 0 h).map
      (fun r => ({ Links := r.1.Links, Data := some r.1.Data }, r.2.2))

/-- `Add(store, node, h)` on a file node, with the difference between a nil and an empty
`file.Bytes()` kept. -/
def AddRaw (E : RawCodec) (store : KVStore) (file : RawFile) (h : HashHandle) :
    Except Fault (Bytes × KVStore) :=
  (StoreFileRaw E store file h).map (fun r => (E.sha256 (E.jsonMarshal r.1), r.2))

/-- A concrete instance of `RawCodec`: the digest is the identity, and the serialization
starts with the byte 1 for a nil `Data` and the byte 0 for a non-nil `Data`, followed by
the serialization of `unaryCodec`. -/
def nullCodec : RawCodec :=
  { sha256 := fun b => b,
    jsonMarshal := fun o =>
      (if o.Data.isNone then 1 else 0) :: unaryMarshal { Links := o.Links, Data := o.Data.getD [] },
    jsonUnmarshal := fun b =>
      { Links := (unaryUnmarshal b.tail).Links,
        Data := if b.head? = some 1 then none else some (unaryUnmarshal b.tail).Data } }

theorem goBytes_blob : goBytes "blob" = [98, 108, 111, 98] := by decide
theorem goBytes_link : goBytes "link" = [108, 105, 110, 107] := by decide
theorem goBytes_tree : goBytes "tree" = [116, 114, 101, 101] := by decide
theorem goBytes_list : goBytes "list" = [108, 105, 115, 116] := by decide

theorem heightLoop_spec (tmp : Nat) : ∀ hight, 0 < tmp →
    ∃ k, 1 ≤ k ∧ heightLoop hight tmp = hight + k ∧ 4096 ^ (k - 1) ≤ tmp ∧ tmp < 4096 ^ k := by
  induction tmp using Nat.strong_induction_on with
  | _ tmp ih =>
    intro hight hpos
    rw [heightLoop]
    by_cases h0 : tmp / 4096 = 0
    · refine ⟨1, le_refl _, by simp [h0], by simpa using hpos, ?_⟩
      have : tmp < 4096 := by omega
      simpa using this
    · have hlt : tmp / 4096 < tmp := by omega
      obtain ⟨k, hk1, hk, hlo, hhi⟩ := ih (tmp / 4096) hlt (hight + 1) (by omega)
      refine ⟨k + 1, by omega, by simp [h0, hk]; omega, ?_, ?_⟩
      · have : 4096 ^ (k + 1 - 1) = 4096 ^ (k - 1) * 4096 := by
          rw [← pow_succ]; congr 1; omega
        rw [this]
        have := Nat.div_mul_le_self tmp 4096
        nlinarith
      · rw [pow_succ]
        have := Nat.lt_mul_of_div_lt hhi (by norm_num : 0 < 4096)
        linarith

theorem zeroBytes_length (n : Nat) : (zeroBytes n).length = n := List.length_replicate _ _

/-- `StoreFile` on a file of at most one chunk: one leaf, one write. -/
theorem StoreFile_leaf (E : Codec) (store : KVStore) (file : File) (h : HashHandle)
    (hlen : file.Bytes.length ≤ 262144) :
    StoreFile E store file h =
      .ok ({ Links := [], Data := file.Bytes },
        (E.sha256 (E.jsonMarshal { Links := [], Data := file.Bytes }), file.Bytes) :: store) := by
  unfold StoreFile
  rw [if_pos (by omega)]
  rfl

/-- C6 (small file): on a file of at most 262144 bytes, the empty file and a file of
exactly 262144 bytes included, `StoreFile` returns an object without links whose `Data` is
the whole content, and the store it leaves is the store it got with exactly one entry
added, whose key is the SHA-256 of the JSON serialization of that object and whose value
is the raw content. -/
theorem StoreFile_small (E : Codec) (store : KVStore) (file : File) (h : HashHandle)
    (hlen : file.Bytes.length ≤ 262144) :
    StoreFile E store file h =
      .ok ({ Links := [], Data := file.Bytes },
        (E.sha256 (E.jsonMarshal { Links := [], Data := file.Bytes }), file.Bytes) :: store) := by
  unfold StoreFile
  rw [if_pos (by omega)]
  rfl

theorem StoreFile_small_witness :
    (zeroBytes 262144).length ≤ 262144 ∧
    StoreFile unaryCodec [] ⟨"a.txt", 262144, zeroBytes 262144⟩ ⟨[]⟩ =
      .ok ({ Links := [], Data := zeroBytes 262144 },
        [(unaryCodec.sha256 (unaryCodec.jsonMarshal { Links := [], Data := zeroBytes 262144 }),
          zeroBytes 262144)]) :=
  ⟨by rw [zeroBytes_length], StoreFile_small unaryCodec [] ⟨"a.txt", 262144, zeroBytes 262144⟩ ⟨[]⟩ (by rw [zeroBytes_length])⟩

/-- C8 (tree height): for a file of more than 262144 bytes, the chunk count `n` that
`StoreFile` computes is the ceiling of the length over 262144, and the height it passes
to `dfsForStoreFile` is the least `h >= 1` with `n / 4096 ^ h = 0`, that is
`4096 ^ (h - 1) <= n < 4096 ^ h`. -/
theorem StoreFile_height (E : Codec) (store : KVStore) (file : File) (h : HashHandle)
    (hL : 262144 < file.Bytes.length) :
    ∃ n hight : Nat,
      ⌈(file.Bytes.length : ℚ) / 262144⌉₊ = n ∧
      1 ≤ hight ∧ 4096 ^ (hight - 1) ≤ n ∧ n < 4096 ^ hight ∧
      n / 4096 ^ hight = 0 ∧ (∀ k, 1 ≤ k → n / 4096 ^ k = 0 → hight ≤ k) ∧
      StoreFile E store file h =
        (dfsForStoreFile E hight file store 0 h).map (fun r => (r.1, r.2.2)) := by
  obtain ⟨k, hk1, hk, hlo, hhi⟩ :=
    heightLoop_spec ((file.Bytes.length + (256 * 1024 - 1)) / (256 * 1024)) 0
      (Nat.div_pos (by omega) (by norm_num))
  refine ⟨(file.Bytes.length + (256 * 1024 - 1)) / (256 * 1024), k, ?_, hk1, hlo, hhi,
    Nat.div_eq_of_lt hhi, ?_, ?_⟩
  · have hn : (file.Bytes.length + (256 * 1024 - 1)) / (256 * 1024) ≠ 0 := by omega
    rw [Nat.ceil_eq_iff hn]
    constructor
    · rw [lt_div_iff₀ (by norm_num)]
      have : ((file.Bytes.length + (256 * 1024 - 1)) / (256 * 1024) - 1) * 262144
          < file.Bytes.length := by omega
      exact_mod_cast this
    · rw [div_le_iff₀ (by norm_num)]
      have : file.Bytes.length
          ≤ ((file.Bytes.length + (256 * 1024 - 1)) / (256 * 1024)) * 262144 := by omega
      exact_mod_cast this
  · intro j hj hdiv
    have hlt : (file.Bytes.length + (256 * 1024 - 1)) / (256 * 1024) < 4096 ^ j := by
      by_contra hge
      have := Nat.div_pos (not_lt.mp hge) (by positivity : 0 < 4096 ^ j)
      omega
    have hpow : 4096 ^ (k - 1) < 4096 ^ j := lt_of_le_of_lt hlo hlt
    have := (Nat.pow_lt_pow_iff_right (by norm_num : 1 < 4096)).mp hpow
    omega
  · unfold StoreFile
    rw [if_neg (by omega)]
    simp only [hk, Nat.zero_add]

theorem StoreFile_height_witness :
    262144 < (zeroBytes 262145).length ∧
    ∃ n hight : Nat,
      ⌈((zeroBytes 262145).length : ℚ) / 262144⌉₊ = n ∧
      1 ≤ hight ∧ 4096 ^ (hight - 1) ≤ n ∧ n < 4096 ^ hight ∧
      n / 4096 ^ hight = 0 ∧ (∀ k, 1 ≤ k → n / 4096 ^ k = 0 → hight ≤ k) ∧
      StoreFile unaryCodec [] ⟨"a.bin", 262145, zeroBytes 262145⟩ ⟨[]⟩ =
        (dfsForStoreFile unaryCodec hight ⟨"a.bin", 262145, zeroBytes 262145⟩ [] 0 ⟨[]⟩).map
          (fun r => (r.1, r.2.2)) :=
  ⟨by rw [zeroBytes_length]; norm_num, StoreFile_height unaryCodec [] ⟨"a.bin", 262145, zeroBytes 262145⟩ ⟨[]⟩ (by rw [zeroBytes_length]; norm_num)⟩

/-! ### The builder never reads the store -/

theorem map_ok {α β : Type} (f : α → β) (a : α) :
    (Except.ok a : Except Fault α).map f = .ok (f a) := rfl

theorem map_error {α β : Type} (f : α → β) (e : Fault) :
    (Except.error e : Except Fault α).map f = .error e := rfl

theorem map_map {α β γ : Type} (f : α → β) (g : β → γ) (x : Except Fault α) :
    (x.map f).map g = x.map (fun a => g (f a)) := by
  cases x <;> rfl

theorem blobLoop_append (E : Codec) (bytes : Bytes) (s : KVStore) :
    ∀ (n : Nat) (links : Object) (lenData : Nat) (W : KVStore) (seedId : Nat),
      blobLoop E bytes n links lenData (W ++ s) seedId
        = rebase s (blobLoop E bytes n links lenData W seedId) := by
  intro n
  induction n with
  | zero => intro links lenData W seedId; rfl
  | succ n ih =>
    intro links lenData W seedId
    simp only [blobLoop]
    split
    · rfl
    · exact ih _ _ (KVStore.Put W _ _) _

theorem linkLoop_append (E : Codec) (s : KVStore)
    (child : KVStore → Nat → Except Fault (Object × Nat × KVStore))
    (hchild : ∀ W sd, child (W ++ s) sd = (child W sd).map (rebase s)) (len seedId : Nat) :
    ∀ (n : Nat) (links : Object) (lenData : Nat) (W : KVStore),
      linkLoop E child len seedId n links lenData (W ++ s)
        = (linkLoop E child len seedId n links lenData W).map (rebase s) := by
  intro n
  induction n with
  | zero => intro links lenData W; rfl
  | succ n ih =>
    intro links lenData W
    simp only [linkLoop]
    split
    · rfl
    · rw [hchild]
      cases hc : child W seedId with
      | error e => rfl
      | ok r =>
        obtain ⟨tmp, lens, W'⟩ := r
        simp only [map_ok, rebase]
        exact ih _ _ W'

theorem putLinks_rebase (E : Codec) (s : KVStore) (r : Object × Nat × KVStore) :
    putLinks E (rebase s r) = rebase s (putLinks E r) := rfl

theorem dfsForStoreFile_append (E : Codec) (file : File) (s : KVStore) :
    ∀ (hight : Nat) (W : KVStore) (seedId : Nat) (h : HashHandle),
      dfsForStoreFile E hight file (W ++ s) seedId h
        = (dfsForStoreFile E hight file W seedId h).map (rebase s) := by
  intro hight
  induction hight using Nat.strong_induction_on with
  | _ hight ih =>
    intro W seedId h
    match hight with
    | 0 =>
      simp only [dfsForStoreFile]
      rw [linkLoop_append E s _ (fun _ _ => rfl), map_map, map_map]
      rfl
    | 1 =>
      simp only [dfsForStoreFile]
      split
      · split <;> rfl
      · rw [blobLoop_append, putLinks_rebase]; rfl
    | k + 2 =>
      simp only [dfsForStoreFile]
      rw [linkLoop_append E s _ (fun W sd => ih (k + 1) (by omega) W sd h), map_map, map_map]
      rfl

theorem linkLoop_congr (E : Codec)
    (child child' : KVStore → Nat → Except Fault (Object × Nat × KVStore))
    (hchild : ∀ W sd, child W sd = child' W sd) (len seedId n : Nat) (links : Object)
    (lenData : Nat) (W : KVStore) :
    linkLoop E child len seedId n links lenData W
      = linkLoop E child' len seedId n links lenData W := by
  have : child = child' := by funext W sd; exact hchild W sd
  rw [this]

/-- The builder reads of a file only its bytes, and ignores the hash handle. -/
theorem dfsForStoreFile_congr (E : Codec) (file file' : File) (hb : file.Bytes = file'.Bytes) :
    ∀ (hight : Nat) (W : KVStore) (seedId : Nat) (h h' : HashHandle),
      dfsForStoreFile E hight file W seedId h = dfsForStoreFile E hight file' W seedId h' := by
  intro hight
  induction hight using Nat.strong_induction_on with
  | _ hight ih =>
    intro W seedId h h'
    match hight with
    | 0 => simp only [dfsForStoreFile, hb]
    | 1 => simp only [dfsForStoreFile, hb]
    | k + 2 =>
      simp only [dfsForStoreFile, hb]
      rw [linkLoop_congr E _ _ (fun W sd => ih (k + 1) (by omega) W sd h h')]

theorem StoreFile_append (E : Codec) (file : File) (s W : KVStore) (h : HashHandle) :
    StoreFile E (W ++ s) file h
      = (StoreFile E W file h).map (fun r => (r.1, r.2 ++ s)) := by
  unfold StoreFile
  split
  · rfl
  · dsimp only
    rw [dfsForStoreFile_append, map_map, map_map]; rfl

theorem StoreFile_congr (E : Codec) (file file' : File) (hb : file.Bytes = file'.Bytes)
    (W : KVStore) (h h' : HashHandle) :
    StoreFile E W file h = StoreFile E W file' h' := by
  unfold StoreFile
  dsimp only
  rw [dfsForStoreFile_congr E file file' hb _ W 0 h h', hb]

/-! ### The shape of what the builder makes -/

theorem Entries.empty (P : Link → String → Prop) : Entries P { Links := [], Data := [] } :=
  ⟨[], rfl, rfl, by simp⟩

theorem Entries.push {P : Link → String → Prop} {o : Object} (ho : Entries P o) (l : Link)
    (t : String) (hp : P l t) :
    Entries P { Links := o.Links ++ [l], Data := o.Data ++ goBytes t } := by
  obtain ⟨es, hl, hd, hall⟩ := ho
  refine ⟨es ++ [(l, t)], by simp [hl], by simp [hd], ?_⟩
  intro e he
  rcases List.mem_append.mp he with h | h
  · exact hall e h
  · simp only [List.mem_singleton] at h
    subst h
    exact hp

theorem ChildEntry.tag_length {E : Codec} {l : Link} {t : String} (h : ChildEntry E l t) :
    (goBytes t).length = 4 := by
  obtain ⟨_, _, h | h | h⟩ := h
  · rw [h.1]; decide
  · rw [h.1]; decide
  · rw [h]; decide

theorem flatten_tags_length (es : List (Link × String))
    (h4 : ∀ e ∈ es, (goBytes e.2).length = 4) :
    ((es.map fun e => goBytes e.2).flatten).length = 4 * es.length := by
  induction es with
  | nil => rfl
  | cons e es ih =>
    simp only [List.map_cons, List.flatten_cons, List.length_append, List.length_cons]
    rw [ih (fun e he => h4 e (List.mem_cons_of_mem _ he)), h4 e (List.mem_cons_self _ _)]
    omega

theorem flatten_tags_slice (es : List (Link × String))
    (h4 : ∀ e ∈ es, (goBytes e.2).length = 4) (i : Nat) (hi : i < es.length) :
    slice ((es.map fun e => goBytes e.2).flatten) (4 * i) (4 * i + 4)
      = goBytes (es.get ⟨i, hi⟩).2 := by
  induction es generalizing i with
  | nil => simp at hi
  | cons e es ih =>
    have he : (goBytes e.2).length = 4 := h4 e (List.mem_cons_self _ _)
    cases i with
    | zero =>
      simp only [List.map_cons, List.flatten_cons, slice, Nat.mul_zero, Nat.zero_add,
        List.drop_zero, List.get_eq_getElem, List.getElem_cons_zero]
      rw [List.take_append_of_le_length (by omega), List.take_of_length_le (by omega)]
    | succ i =>
      have hi' : i < es.length := by simpa using hi
      have := ih (fun e he => h4 e (List.mem_cons_of_mem _ he)) i hi'
      simp only [List.map_cons, List.flatten_cons, slice, List.get_eq_getElem,
        List.getElem_cons_succ] at this ⊢
      rw [← this]
      have e1 : 4 * (i + 1) + 4 = (goBytes e.2).length + (4 * i + 4) := by omega
      have e2 : 4 * (i + 1) = (goBytes e.2).length + 4 * i := by omega
      rw [e1, List.take_append, e2, List.drop_append]

/-- An object filled pairwise with builder entries is aligned: four bytes of `Data` for
each link, the group at position `i` being the tag recorded for link `i`. -/
theorem Entries.aligned {E : Codec} {o : Object} (ho : Entries (ChildEntry E) o) :
    o.Data.length = 4 * o.Links.length ∧
    ∀ (i : Nat) (hi : i < o.Links.length), ∃ child : Object,
      (o.Links.get ⟨i, hi⟩).Hash = calculateHash E (E.jsonMarshal child) ∧
      ((tagAt o i = goBytes "blob" ∧ child.Links = []) ∨
       (tagAt o i = goBytes "link" ∧ child.Links ≠ []) ∨
       tagAt o i = goBytes "tree") := by
  obtain ⟨es, hl, hd, hall⟩ := ho
  have h4 : ∀ e ∈ es, (goBytes e.2).length = 4 := fun e he => (hall e he).tag_length
  refine ⟨by rw [hd, hl, flatten_tags_length es h4, List.length_map], ?_⟩
  intro i hi
  have hi' : i < es.length := by simpa [hl] using hi
  obtain ⟨child, hh, hc⟩ := hall _ (List.get_mem es i hi')
  refine ⟨child, ?_, ?_⟩
  · rw [← hh]
    simp [hl]
  · have ht : tagAt o i = goBytes (es.get ⟨i, hi'⟩).2 := by
      unfold tagAt STEP
      rw [hd]
      exact flatten_tags_slice es h4 i hi'
    rw [ht]
    rcases hc with h | h | h
    · exact Or.inl ⟨by rw [h.1], h.2⟩
    · exact Or.inr (Or.inl ⟨by rw [h.1], h.2⟩)
    · exact Or.inr (Or.inr (by rw [h]))

theorem BuilderLog.nil (E : Codec) : BuilderLog E [] := by
  intro kv h; simp at h

theorem BuilderLog.put_leaf {E : Codec} {W : KVStore} (hW : BuilderLog E W) (data : Bytes) :
    BuilderLog E (W.Put (calculateHash E (E.jsonMarshal { Links := [], Data := data })) data) := by
  intro kv h
  rcases List.mem_cons.mp h with h | h
  · subst h
    exact ⟨{ Links := [], Data := data }, rfl, Or.inl ⟨rfl, rfl⟩⟩
  · exact hW kv h

theorem BuilderLog.put_links {E : Codec} {W : KVStore} (hW : BuilderLog E W) {o : Object}
    (ho : Entries (ChildEntry E) o) :
    BuilderLog E (W.Put (calculateHash E (E.jsonMarshal o)) (E.jsonMarshal o)) := by
  intro kv h
  rcases List.mem_cons.mp h with h | h
  · subst h
    exact ⟨o, rfl, Or.inr ⟨ho, rfl⟩⟩
  · exact hW kv h

theorem BuilderLog.append {E : Codec} {W W' : KVStore} (hW : BuilderLog E W)
    (hW' : BuilderLog E W') : BuilderLog E (W ++ W') := by
  intro kv h
  rcases List.mem_append.mp h with h | h
  · exact hW kv h
  · exact hW' kv h

theorem ChildEntry.of_file (E : Codec) (tmp : Object) (name : String) (size : Int) :
    ChildEntry E { Name := name, Hash := calculateHash E (E.jsonMarshal tmp), Size := size }
      (if tmp.Links.isEmpty then "blob" else "link") := by
  refine ⟨tmp, rfl, ?_⟩
  by_cases h : tmp.Links = []
  · simp [h]
  · right; left
    simp [h]

theorem blobLoop_inv (E : Codec) (bytes : Bytes) :
    ∀ (n : Nat) (links : Object) (lenData : Nat) (W : KVStore) (seedId : Nat),
      Entries (ChildEntry E) links → BuilderLog E W →
      Entries (ChildEntry E) (blobLoop E bytes n links lenData W seedId).1 ∧
      BuilderLog E (blobLoop E bytes n links lenData W seedId).2.2 := by
  intro n
  induction n with
  | zero =>
    intro links lenData W seedId hl hW
    exact ⟨hl, hW⟩
  | succ n ih =>
    intro links lenData W seedId hl hW
    have hpush : ∀ data : Bytes, Entries (ChildEntry E)
        { Links := links.Links ++ [{ Name := "", Hash := calculateHash E (E.jsonMarshal
            { Links := [], Data := data }), Size := data.length }],
          Data := links.Data ++ goBytes "blob" } :=
      fun data => hl.push _ "blob" ⟨{ Links := [], Data := data }, rfl, Or.inl ⟨rfl, rfl⟩⟩
    simp only [blobLoop]
    split
    · exact ⟨hpush _, hW.put_leaf _⟩
    · exact ih _ _ _ _ (hpush _) (hW.put_leaf _)

theorem blobLoop_links_length (E : Codec) (bytes : Bytes) :
    ∀ (n : Nat) (links : Object) (lenData : Nat) (W : KVStore) (seedId : Nat),
      links.Links.length ≤ (blobLoop E bytes n links lenData W seedId).1.Links.length ∧
      (1 ≤ n → links.Links.length < (blobLoop E bytes n links lenData W seedId).1.Links.length) := by
  intro n
  induction n with
  | zero =>
    intro links lenData W seedId
    exact ⟨le_refl _, fun h => absurd h (by omega)⟩
  | succ n ih =>
    intro links lenData W seedId
    simp only [blobLoop]
    split
    · exact ⟨by simp, fun _ => by simp⟩
    · refine ⟨le_trans ?_ (ih _ _ _ _).1, fun _ => lt_of_lt_of_le ?_ (ih _ _ _ _).1⟩ <;> simp

theorem linkLoop_inv (E : Codec) (child : KVStore → Nat → Except Fault (Object × Nat × KVStore))
    (hchild : ∀ W sd r, child W sd = .ok r → BuilderLog E W → BuilderLog E r.2.2)
    (len seedId : Nat) :
    ∀ (n : Nat) (links : Object) (lenData : Nat) (W : KVStore) (r : Object × Nat × KVStore),
      linkLoop E child len seedId n links lenData W = .ok r →
      Entries (ChildEntry E) links → BuilderLog E W →
      Entries (ChildEntry E) r.1 ∧ BuilderLog E r.2.2 := by
  intro n
  induction n with
  | zero =>
    intro links lenData W r hr hl hW
    simp only [linkLoop, Except.ok.injEq] at hr
    subst hr
    exact ⟨hl, hW⟩
  | succ n ih =>
    intro links lenData W r hr hl hW
    simp only [linkLoop] at hr
    split at hr
    · simp only [Except.ok.injEq] at hr
      subst hr
      exact ⟨hl, hW⟩
    · cases hc : child W seedId with
      | error e => rw [hc] at hr; simp at hr
      | ok c =>
        obtain ⟨tmp, lens, W'⟩ := c
        rw [hc] at hr
        simp only at hr
        exact ih _ _ _ r hr
          (hl.push _ _ (ChildEntry.of_file E tmp "" lens)) (hchild W seedId _ hc hW)

theorem linkLoop_links_length (E : Codec)
    (child : KVStore → Nat → Except Fault (Object × Nat × KVStore)) (len seedId : Nat) :
    ∀ (n : Nat) (links : Object) (lenData : Nat) (W : KVStore) (r : Object × Nat × KVStore),
      linkLoop E child len seedId n links lenData W = .ok r →
      links.Links.length ≤ r.1.Links.length ∧
      (1 ≤ n → seedId < len → links.Links.length < r.1.Links.length) := by
  intro n
  induction n with
  | zero =>
    intro links lenData W r hr
    simp only [linkLoop, Except.ok.injEq] at hr
    subst hr
    exact ⟨le_refl _, fun h => absurd h (by omega)⟩
  | succ n ih =>
    intro links lenData W r hr
    simp only [linkLoop] at hr
    split at hr
    · simp only [Except.ok.injEq] at hr
      subst hr
      exact ⟨le_refl _, fun _ h => absurd h (by omega)⟩
    · cases hc : child W seedId with
      | error e => rw [hc] at hr; simp at hr
      | ok c =>
        obtain ⟨tmp, lens, W'⟩ := c
        rw [hc] at hr
        simp only at hr
        have h3 := (ih _ _ _ r hr).1
        simp only [List.length_append, List.length_singleton] at h3
        exact ⟨by omega, fun _ _ => by omega⟩

theorem linkLoop_total (E : Codec) (child : KVStore → Nat → Except Fault (Object × Nat × KVStore))
    (len seedId : Nat) (hchild : seedId < len → ∀ W, ∃ r, child W seedId = .ok r) :
    ∀ (n : Nat) (links : Object) (lenData : Nat) (W : KVStore),
      ∃ r, linkLoop E child len seedId n links lenData W = .ok r := by
  intro n
  induction n with
  | zero => intro links lenData W; exact ⟨_, rfl⟩
  | succ n ih =>
    intro links lenData W
    simp only [linkLoop]
    split
    · exact ⟨_, rfl⟩
    · obtain ⟨⟨tmp, lens, W'⟩, hc⟩ := hchild (by omega) W
      rw [hc]
      exact ih _ _ _

theorem putLinks_fst (E : Codec) (r : Object × Nat × KVStore) : (putLinks E r).1 = r.1 := rfl

/-- Every object `dfsForStoreFile` returns is a leaf or was filled pairwise, and what it
writes keeps the log a builder log. -/
theorem dfsForStoreFile_inv (E : Codec) (file : File) :
    ∀ (hight : Nat) (W : KVStore) (seedId : Nat) (h : HashHandle) (r : Object × Nat × KVStore),
      dfsForStoreFile E hight file W seedId h = .ok r → BuilderLog E W →
      (r.1.Links = [] ∨ Entries (ChildEntry E) r.1) ∧ BuilderLog E r.2.2 := by
  intro hight
  induction hight using Nat.strong_induction_on with
  | _ hight ih =>
    intro W seedId h r hr hW
    match hight with
    | 0 =>
      simp only [dfsForStoreFile] at hr
      cases hl : linkLoop E (fun _ _ => .error .noReturn) file.Bytes.length seedId 4096
          { Links := [], Data := [] } 0 W with
      | error e => rw [hl] at hr; simp [map_error] at hr
      | ok q =>
        rw [hl, map_ok, Except.ok.injEq] at hr
        subst hr
        obtain ⟨h1, h2⟩ := linkLoop_inv E _ (fun _ _ _ hc => by simp at hc) _ _ _ _ _ _ _ hl
          (Entries.empty _) hW
        exact ⟨Or.inr h1, h2.put_links h1⟩
    | 1 =>
      simp only [dfsForStoreFile] at hr
      split at hr
      · split at hr
        · simp only [Except.ok.injEq] at hr
          subst hr
          exact ⟨Or.inl rfl, hW.put_leaf _⟩
        · simp at hr
      · simp only [Except.ok.injEq] at hr
        subst hr
        obtain ⟨h1, h2⟩ := blobLoop_inv E file.Bytes 4096 { Links := [], Data := [] } 0 W
          seedId (Entries.empty _) hW
        exact ⟨Or.inr h1, h2.put_links h1⟩
    | k + 2 =>
      simp only [dfsForStoreFile] at hr
      cases hl : linkLoop E (fun store seedId => dfsForStoreFile E (k + 1) file store seedId h)
          file.Bytes.length seedId 4096 { Links := [], Data := [] } 0 W with
      | error e => rw [hl] at hr; simp [map_error] at hr
      | ok q =>
        rw [hl, map_ok, Except.ok.injEq] at hr
        subst hr
        obtain ⟨h1, h2⟩ := linkLoop_inv E _
          (fun W sd r hc hW => (ih (k + 1) (by omega) W sd h r hc hW).2) _ _ _ _ _ _ _ hl
          (Entries.empty _) hW
        exact ⟨Or.inr h1, h2.put_links h1⟩

/-- At `hight >= 1` and an offset inside the file `dfsForStoreFile` returns. -/
theorem dfsForStoreFile_total (E : Codec) (file : File) :
    ∀ (hight : Nat), 1 ≤ hight → ∀ (W : KVStore) (seedId : Nat) (h : HashHandle),
      seedId ≤ file.Bytes.length → ∃ r, dfsForStoreFile E hight file W seedId h = .ok r := by
  intro hight
  induction hight using Nat.strong_induction_on with
  | _ hight ih =>
    intro h1 W seedId h hs
    match hight with
    | 0 => omega
    | 1 =>
      rw [dfsForStoreFile]
      by_cases hle : file.Bytes.length ≤ seedId + 256 * 1024
      · rw [if_pos hle, if_pos hs]; exact ⟨_, rfl⟩
      · rw [if_neg hle]; exact ⟨_, rfl⟩
    | k + 2 =>
      simp only [dfsForStoreFile]
      obtain ⟨q, hq⟩ := linkLoop_total E
        (fun store seedId => dfsForStoreFile E (k + 1) file store seedId h) file.Bytes.length seedId
        (fun hlt W => ih (k + 1) (by omega) (by omega) W seedId h (by omega)) 4096
        { Links := [], Data := [] } 0 W
      rw [hq]
      exact ⟨_, rfl⟩

/-- The object `dfsForStoreFile` returns has links exactly when it is not the leaf of
the `hight == 1` branch. -/
theorem dfsForStoreFile_links (E : Codec) (file : File) (hight : Nat) (W : KVStore) (seedId : Nat)
    (h : HashHandle) (r : Object × Nat × KVStore)
    (hr : dfsForStoreFile E hight file W seedId h = .ok r) (h1 : 1 ≤ hight)
    (hs : seedId < file.Bytes.length) :
    (r.1.Links = [] ↔ hight = 1 ∧ file.Bytes.length ≤ seedId + 256 * 1024) := by
  match hight with
  | 0 => omega
  | 1 =>
    rw [dfsForStoreFile] at hr
    by_cases hle : file.Bytes.length ≤ seedId + 256 * 1024
    · rw [if_pos hle, if_pos (le_of_lt hs), Except.ok.injEq] at hr
      subst hr
      simp [hle]
    · rw [if_neg hle, Except.ok.injEq] at hr
      subst hr
      have hpos := (blobLoop_links_length E file.Bytes 4096 { Links := [], Data := [] } 0 W
        seedId).2 (by norm_num)
      constructor
      · intro h0
        rw [putLinks_fst] at h0
        rw [h0] at hpos
        simp at hpos
      · intro h0; exact absurd h0.2 hle
  | k + 2 =>
    rw [dfsForStoreFile] at hr
    cases hl : linkLoop E (fun store seedId => dfsForStoreFile E (k + 1) file store seedId h)
        file.Bytes.length seedId 4096 { Links := [], Data := [] } 0 W with
    | error e => rw [hl] at hr; simp [map_error] at hr
    | ok q =>
      rw [hl, map_ok, Except.ok.injEq] at hr
      subst hr
      have hpos := (linkLoop_links_length E _ _ _ _ _ _ _ _ hl).2 (by norm_num) hs
      constructor
      · intro h0
        rw [putLinks_fst] at h0
        rw [h0] at hpos
        simp at hpos
      · intro h0; omega

theorem payload_of_links (E : Codec) (o : Object) (h : o.Links ≠ []) :
    payload E o = E.jsonMarshal o := by
  simp [payload, h]

theorem payload_of_leaf (E : Codec) (o : Object) (h : o.Links = []) :
    payload E o = o.Data := by
  simp [payload, h]

/-- The newest write of a `dfsForStoreFile` call that returns an object with links is
that object, serialized. -/
theorem dfsForStoreFile_head (E : Codec) (file : File) (hight : Nat) (W : KVStore) (seedId : Nat)
    (h : HashHandle) (r : Object × Nat × KVStore)
    (hr : dfsForStoreFile E hight file W seedId h = .ok r) (hne : r.1.Links ≠ []) :
    ∃ W', r.2.2 = (digest E r.1, payload E r.1) :: W' := by
  rw [payload_of_links E r.1 hne]
  match hight with
  | 0 =>
    rw [dfsForStoreFile] at hr
    cases hl : linkLoop E (fun _ _ => .error .noReturn) file.Bytes.length seedId 4096
        { Links := [], Data := [] } 0 W with
    | error e => rw [hl] at hr; simp [map_error] at hr
    | ok q =>
      rw [hl, map_ok, Except.ok.injEq] at hr
      subst hr
      exact ⟨q.2.2, rfl⟩
  | 1 =>
    rw [dfsForStoreFile] at hr
    by_cases hle : file.Bytes.length ≤ seedId + 256 * 1024
    · rw [if_pos hle] at hr
      by_cases hs : seedId ≤ file.Bytes.length
      · rw [if_pos hs, Except.ok.injEq] at hr
        subst hr
        exact absurd rfl hne
      · rw [if_neg hs] at hr
        simp at hr
    · rw [if_neg hle, Except.ok.injEq] at hr
      subst hr
      exact ⟨_, rfl⟩
  | k + 2 =>
    rw [dfsForStoreFile] at hr
    cases hl : linkLoop E (fun store seedId => dfsForStoreFile E (k + 1) file store seedId h)
        file.Bytes.length seedId 4096 { Links := [], Data := [] } 0 W with
    | error e => rw [hl] at hr; simp [map_error] at hr
    | ok q =>
      rw [hl, map_ok, Except.ok.injEq] at hr
      subst hr
      exact ⟨q.2.2, rfl⟩

/-- `StoreFile` returns, whatever the store and the handle: the object and the writes
depend on the bytes of the file only, the newest write is that of the returned object. -/
theorem StoreFile_ok (E : Codec) (file : File) :
    ∃ (o : Object) (W : KVStore),
      (∀ (s : KVStore) (h : HashHandle), StoreFile E s file h
        = .ok (o, (digest E o, payload E o) :: W ++ s)) ∧
      (o.Links = [] ↔ file.Bytes.length ≤ 262144) ∧
      (o.Links = [] ∨ Entries (ChildEntry E) o) ∧
      BuilderLog E ((digest E o, payload E o) :: W) := by
  by_cases hlen : file.Bytes.length ≤ 262144
  · refine ⟨{ Links := [], Data := file.Bytes }, [], ?_, by simp [hlen], Or.inl rfl, ?_⟩
    · intro s h
      rw [StoreFile_leaf E s file h hlen]
      rfl
    · exact (BuilderLog.nil E).put_leaf file.Bytes
  · obtain ⟨k, hk1, hk, -, -⟩ :=
      heightLoop_spec ((file.Bytes.length + (256 * 1024 - 1)) / (256 * 1024)) 0
        (Nat.div_pos (by omega) (by norm_num))
    rw [Nat.zero_add] at hk
    obtain ⟨r, hr⟩ := dfsForStoreFile_total E file k hk1 [] 0 ⟨[]⟩ (Nat.zero_le _)
    have hlinks := dfsForStoreFile_links E file k [] 0 ⟨[]⟩ r hr hk1 (by omega)
    have hne : r.1.Links ≠ [] := by
      intro h0
      have := (hlinks.mp h0).2
      omega
    obtain ⟨hshape, hlog⟩ := dfsForStoreFile_inv E file k [] 0 ⟨[]⟩ r hr (BuilderLog.nil E)
    have hhead := dfsForStoreFile_head E file k [] 0 ⟨[]⟩ r hr hne
    obtain ⟨W, hW⟩ := hhead
    refine ⟨r.1, W, ?_, ?_, hshape, by rw [← hW]; exact hlog⟩
    · intro s h
      have happ := StoreFile_append E file s [] h
      rw [List.nil_append] at happ
      rw [happ, StoreFile_congr E file file rfl [] h ⟨[]⟩]
      unfold StoreFile
      rw [if_neg hlen]
      dsimp only
      rw [hk, hr, map_ok, map_ok, hW]
    · constructor
      · intro h0; exact absurd h0 hne
      · intro h0; exact absurd h0 hlen

theorem StoreFile_built (E : Codec) (file : File) :
    ∃ W : KVStore,
      (∀ (s : KVStore) (h : HashHandle), StoreFile E s file h
        = .ok (builtObject E (.FILE file),
            (digest E (builtObject E (.FILE file)), payload E (builtObject E (.FILE file)))
              :: W ++ s)) ∧
      ((builtObject E (.FILE file)).Links = [] ↔ file.Bytes.length ≤ 262144) ∧
      ((builtObject E (.FILE file)).Links = [] ∨ Entries (ChildEntry E) (builtObject E (.FILE file))) ∧
      BuilderLog E ((digest E (builtObject E (.FILE file)),
        payload E (builtObject E (.FILE file))) :: W) := by
  obtain ⟨o, W, hrun, hl, hs, hlog⟩ := StoreFile_ok E file
  have hb : builtObject E (.FILE file) = o := by
    simp only [builtObject, hrun [] ⟨[]⟩]
  rw [hb]
  exact ⟨W, hrun, hl, hs, hlog⟩

theorem dirObject_entries (E : Codec) (kids : List Node) :
    Entries (ChildEntry E) (dirObject E kids) := by
  refine ⟨kids.map fun n => (nodeLink E n, nodeTag E n), ?_, ?_, ?_⟩
  · simp [dirObject, Function.comp_def]
  · simp [dirObject, Function.comp_def]
  · intro e he
    obtain ⟨n, -, rfl⟩ := List.mem_map.mp he
    refine ⟨builtObject E n, rfl, ?_⟩
    cases n with
    | FILE file =>
      by_cases h : (builtObject E (.FILE file)).Links = []
      · left; simp [nodeTag, h]
      · right; left; simp [nodeTag, h]
    | DIR name size it => right; right; rfl

theorem StoreDir_of_loop (E : Codec) (kids : List Node) (hk : DirBuilt E kids)
    (s : KVStore) (h : HashHandle) :
    StoreDir E s kids h
      = .ok (dirObject E kids,
          (digest E (dirObject E kids), E.jsonMarshal (dirObject E kids))
            :: (loopWrites E kids ++ s)) := by
  rw [StoreDir, hk s h]
  simp only [List.nil_append, dirObject, KVStore.Put, digest]

theorem nodeWrites_file (E : Codec) (file : File) :
    ∃ W, nodeWrites E (.FILE file)
      = (digest E (builtObject E (.FILE file)), nodeValue E (.FILE file)) :: W ∧
      (∀ (s : KVStore) (h : HashHandle), StoreFile E s file h
        = .ok (builtObject E (.FILE file), nodeWrites E (.FILE file) ++ s)) ∧
      BuilderLog E (nodeWrites E (.FILE file)) := by
  obtain ⟨W, hrun, -, -, hlog⟩ := StoreFile_built E file
  have e : nodeWrites E (.FILE file)
      = (digest E (builtObject E (.FILE file)), nodeValue E (.FILE file)) :: W := by
    simp only [nodeWrites, hrun [] ⟨[]⟩, nodeValue, List.append_nil]
  exact ⟨W, e, fun s h => by rw [e, hrun s h]; rfl, by rw [e]; exact hlog⟩

theorem storeDirLoop_built (E : Codec) : ∀ kids : List Node, DirBuilt E kids
  | [] => fun s h acc => by simp [StoreDir.storeDirLoop, loopWrites]
  | .FILE file :: rest => by
    obtain ⟨Wf, -, hf, -⟩ := nodeWrites_file E file
    have hr := storeDirLoop_built E rest
    intro s h acc
    rw [StoreDir.storeDirLoop, hf s h]
    simp only
    rw [hr]
    simp [nodeLink, nodeTag, digest, Node.Name, Node.Size, loopWrites]
  | .DIR name size it :: rest => by
    have hi := StoreDir_of_loop E it (storeDirLoop_built E it)
    have hr := storeDirLoop_built E rest
    have hb : builtObject E (.DIR name size it) = dirObject E it := by
      simp only [builtObject, hi [] ⟨[]⟩]
    have hw : nodeWrites E (.DIR name size it)
        = (digest E (dirObject E it), E.jsonMarshal (dirObject E it)) :: loopWrites E it := by
      simp only [nodeWrites, hi [] ⟨[]⟩, List.append_nil]
    intro s h acc
    rw [StoreDir.storeDirLoop, hi s h]
    simp only
    rw [hr]
    simp [nodeLink, nodeTag, digest, Node.Name, Node.Size, hb, loopWrites, hw]

theorem builtObject_dir (E : Codec) (name : String) (size : Int) (it : List Node) :
    builtObject E (.DIR name size it) = dirObject E it := by
  simp only [builtObject, StoreDir_of_loop E it (storeDirLoop_built E it) [] ⟨[]⟩]

/-- The writes of a directory: its own object on top of the writes of its children. -/
theorem nodeWrites_dir (E : Codec) (name : String) (size : Int) (kids : List Node) :
    nodeWrites E (.DIR name size kids)
      = (digest E (dirObject E kids), E.jsonMarshal (dirObject E kids)) :: loopWrites E kids := by
  simp only [nodeWrites, StoreDir_of_loop E kids (storeDirLoop_built E kids) [] ⟨[]⟩,
    List.append_nil]

/-- `StoreDir` returns, whatever the store and the handle, the object `dirObject`, after
adding the writes of the directory. -/
theorem StoreDir_built (E : Codec) (name : String) (size : Int) (kids : List Node)
    (s : KVStore) (h : HashHandle) :
    StoreDir E s kids h = .ok (dirObject E kids, nodeWrites E (.DIR name size kids) ++ s) := by
  rw [nodeWrites_dir, StoreDir_of_loop E kids (storeDirLoop_built E kids)]
  rfl

theorem mem_loopWrites (E : Codec) : ∀ (kids : List Node) (kid : Node), kid ∈ kids →
    ∀ kv ∈ nodeWrites E kid, kv ∈ loopWrites E kids
  | [], _, h, _, _ => by simp at h
  | k :: rest, kid, h, kv, hkv => by
    rw [loopWrites]
    rcases List.mem_cons.mp h with h | h
    · subst h; exact List.mem_append_right _ hkv
    · exact List.mem_append_left _ (mem_loopWrites E rest kid h kv hkv)

/-- The writes of a child are among the writes of its directory. -/
theorem mem_nodeWrites_of_child (E : Codec) (name : String) (size : Int) (kids : List Node)
    (kid : Node) (h : kid ∈ kids) (kv : Bytes × Bytes) (hkv : kv ∈ nodeWrites E kid) :
    kv ∈ nodeWrites E (.DIR name size kids) := by
  rw [nodeWrites_dir]
  exact List.mem_cons_of_mem _ (mem_loopWrites E kids kid h kv hkv)

/-- Under the digest of a child's object the writes of the child hold the child's value. -/
theorem nodeWrites_head (E : Codec) (kid : Node) :
    (digest E (builtObject E kid), nodeValue E kid) ∈ nodeWrites E kid := by
  cases kid with
  | FILE file =>
    obtain ⟨W, e, -, -⟩ := nodeWrites_file E file
    rw [e]; exact List.mem_cons_self _ _
  | DIR name size it =>
    rw [nodeWrites_dir, nodeValue, builtObject_dir]; exact List.mem_cons_self _ _

mutual
/-- What the builder writes for a node is a builder log. -/
theorem nodeWrites_log (E : Codec) : ∀ n : Node, BuilderLog E (nodeWrites E n)
  | .FILE file => (nodeWrites_file E file).choose_spec.2.2
  | .DIR name size it => by
    rw [nodeWrites_dir]
    exact (loopWrites_log E it).put_links (dirObject_entries E it)
theorem loopWrites_log (E : Codec) : ∀ kids : List Node, BuilderLog E (loopWrites E kids)
  | [] => BuilderLog.nil E
  | k :: rest => (loopWrites_log E rest).append (nodeWrites_log E k)
end

/-! ### The loop at `hight >= 2` -/

theorem flatten_replicate_comm {α : Type} (W : List α) (n : Nat) :
    (List.replicate n W).flatten ++ W = W ++ (List.replicate n W).flatten := by
  induction n with
  | zero => simp
  | succ n ih => rw [List.replicate_succ, List.flatten_cons, List.append_assoc, ih]

/-- The loop of the `else` branch never moves `seedId`: when the child call returns at
`seedId`, every iteration gets the same child, so `n` iterations append `n` copies of
one link and one tag. -/
theorem linkLoop_same_child (E : Codec)
    (child : KVStore → Nat → Except Fault (Object × Nat × KVStore)) (len seedId : Nat)
    (hs : seedId < len) (tmp : Object) (lens : Nat) (Wc : KVStore)
    (hchild : ∀ s, child s seedId = .ok (tmp, lens, Wc ++ s)) :
    ∀ (n : Nat) (links : Object) (lenData : Nat) (s : KVStore),
      linkLoop E child len seedId n links lenData s
        = .ok ({ Links := links.Links ++
                   List.replicate n { Name := "", Hash := digest E tmp, Size := lens },
                 Data := links.Data ++ (List.replicate n
                   (goBytes (if tmp.Links.isEmpty then "blob" else "link"))).flatten },
               lenData + n * lens, (List.replicate n Wc).flatten ++ s) := by
  intro n
  induction n with
  | zero => intro links lenData s; simp [linkLoop]
  | succ n ih =>
    intro links lenData s
    rw [linkLoop, if_neg (by omega), hchild]
    simp only
    rw [ih]
    have e1 : lenData + lens + n * lens = lenData + (n + 1) * lens := by ring
    have e2 : (List.replicate n Wc).flatten ++ (Wc ++ s)
        = (List.replicate (n + 1) Wc).flatten ++ s := by
      rw [← List.append_assoc, flatten_replicate_comm, List.replicate_succ, List.flatten_cons]
    rw [e1, e2]
    simp only [digest, List.append_assoc, List.singleton_append, List.replicate_succ,
      List.flatten_cons]

theorem linkLoop_same_child_init (E : Codec)
    (child : KVStore → Nat → Except Fault (Object × Nat × KVStore)) (len seedId : Nat)
    (hs : seedId < len) (tmp : Object) (lens : Nat) (Wc : KVStore)
    (hchild : ∀ s, child s seedId = .ok (tmp, lens, Wc ++ s)) (n : Nat) (s : KVStore) :
    linkLoop E child len seedId n { Links := [], Data := [] } 0 s
      = .ok ({ Links := List.replicate n { Name := "", Hash := digest E tmp, Size := lens },
               Data := (List.replicate n
                 (goBytes (if tmp.Links.isEmpty then "blob" else "link"))).flatten },
             n * lens, (List.replicate n Wc).flatten ++ s) := by
  rw [linkLoop_same_child E child len seedId hs tmp lens Wc hchild n, Nat.zero_add]
  rfl

/-- The closed form of `dfsForStoreFile` at `hight >= 2` and an offset inside the file:
4096 links to one and the same child, the subtree built at `hight - 1` from the same
offset. -/
theorem dfsForStoreFile_tall (E : Codec) (file : File) (k seedId : Nat) (h : HashHandle)
    (hs : seedId < file.Bytes.length) :
    ∃ (child : Object) (lens : Nat) (Wc : KVStore),
      (∀ s, dfsForStoreFile E (k + 1) file s seedId h = .ok (child, lens, Wc ++ s)) ∧
      (child.Links = [] ↔ k + 1 = 1 ∧ file.Bytes.length ≤ seedId + 256 * 1024) ∧
      (child.Links ≠ [] → ∃ W', Wc = (digest E child, E.jsonMarshal child) :: W') ∧
      ∀ s, dfsForStoreFile E (k + 2) file s seedId h
        = .ok (putLinks E
            ({ Links := List.replicate 4096 { Name := "", Hash := digest E child, Size := lens },
               Data := (List.replicate 4096
                 (goBytes (if child.Links.isEmpty then "blob" else "link"))).flatten },
             4096 * lens, (List.replicate 4096 Wc).flatten ++ s)) := by
  obtain ⟨r, hr⟩ := dfsForStoreFile_total E file (k + 1) (by omega) [] seedId h (le_of_lt hs)
  have hrun : ∀ s, dfsForStoreFile E (k + 1) file s seedId h = .ok (r.1, r.2.1, r.2.2 ++ s) := by
    intro s
    have := dfsForStoreFile_append E file s (k + 1) [] seedId h
    rw [List.nil_append] at this
    rw [this, hr]
    rfl
  refine ⟨r.1, r.2.1, r.2.2, hrun,
    dfsForStoreFile_links E file (k + 1) [] seedId h r hr (by omega) hs, ?_, ?_⟩
  · intro hne
    obtain ⟨W', hW'⟩ := dfsForStoreFile_head E file (k + 1) [] seedId h r hr hne
    exact ⟨W', by rw [hW', payload_of_links E r.1 hne]⟩
  · intro s
    have hloop := linkLoop_same_child_init E
      (fun store seedId => dfsForStoreFile E (k + 1) file store seedId h)
      file.Bytes.length seedId hs r.1 r.2.1 r.2.2 hrun 4096 s
    rw [dfsForStoreFile, hloop, map_ok]

/-! ### The concrete codec -/

theorem UInt8.ofNat_toNat' (x : UInt8) : UInt8.ofNat x.toNat = x := by
  cases x with
  | mk v =>
    apply UInt8.ext
    simp [UInt8.ofNat, UInt8.toNat, Fin.ofNat]

theorem objDecode_objCode (o : Object) : objDecode (objCode o) = o := by
  obtain ⟨links, data⟩ := o
  simp only [objDecode, objCode, List.map_map, Object.mk.injEq]
  constructor
  · conv_rhs => rw [← List.map_id links]
    apply List.map_congr_left
    intro l _
    obtain ⟨name, hash, size⟩ := l
    simp only [Function.comp_apply, List.map_map, id_eq, Link.mk.injEq, and_true]
    constructor
    · have : (List.map (Char.ofNat ∘ Char.toNat) name.data) = name.data := by
        conv_rhs => rw [← List.map_id name.data]
        apply List.map_congr_left
        intro c _
        simp
      rw [this]
    · conv_rhs => rw [← List.map_id hash]
      apply List.map_congr_left
      intro b _
      simp [UInt8.ofNat_toNat']
  · conv_rhs => rw [← List.map_id data]
    apply List.map_congr_left
    intro b _
    simp [UInt8.ofNat_toNat']

theorem unary_roundtrip (o : Object) : unaryCodec.jsonUnmarshal (unaryCodec.jsonMarshal o) = o := by
  simp only [unaryCodec, unaryUnmarshal, unaryMarshal, List.length_replicate, Encodable.encodek]
  exact objDecode_objCode o

theorem unary_digest_injective (o₁ o₂ : Object) (h : digest unaryCodec o₁ = digest unaryCodec o₂) :
    o₁ = o₂ := by
  have h' : unaryCodec.jsonMarshal o₁ = unaryCodec.jsonMarshal o₂ := h
  rw [← unary_roundtrip o₁, ← unary_roundtrip o₂, h']

/-! ### Reading the store -/

theorem Get_cons_self (k v : Bytes) (s : KVStore) : KVStore.Get ((k, v) :: s) k = some v := by
  simp [KVStore.Get]

theorem Get_mem : ∀ (W : KVStore) (k v : Bytes), W.Get k = some v → (k, v) ∈ W
  | [], _, _, h => by simp [KVStore.Get] at h
  | (k', v') :: rest, k, v, h => by
    simp only [KVStore.Get] at h
    split at h
    · rename_i hk
      simp only [Option.some.injEq] at h
      subst hk; subst h
      exact List.mem_cons_self _ _
    · exact List.mem_cons_of_mem _ (Get_mem rest k v h)

theorem Get_append_of_mem : ∀ (W s : KVStore) (k v : Bytes), (k, v) ∈ W →
    ∃ v', (k, v') ∈ W ∧ (W ++ s).Get k = some v'
  | [], _, _, _, h => by simp at h
  | (k', v') :: rest, s, k, v, h => by
    by_cases hk : k' = k
    · subst hk
      exact ⟨v', List.mem_cons_self _ _, by simp [KVStore.Get]⟩
    · have hr : (k, v) ∈ rest := by
        rcases List.mem_cons.mp h with h | h
        · exact absurd (congrArg Prod.fst h).symm hk
        · exact h
      obtain ⟨w, hw, hget⟩ := Get_append_of_mem rest s k v hr
      exact ⟨w, List.mem_cons_of_mem _ hw, by simp [KVStore.Get, hk, hget]⟩

/-- In a log without clash, a value written under a key is the value read under it. -/
theorem Get_of_mem (W s : KVStore) (k v : Bytes) (hW : NoClash W) (h : (k, v) ∈ W) :
    (W ++ s).Get k = some v := by
  obtain ⟨v', hv', hget⟩ := Get_append_of_mem W s k v h
  rw [hget, hW k v v' h hv']

/-! ### Reading tags -/

/-- A slice expression that ends inside `len(Data)` reads `Data` alone, whatever the
backing array holds past the length. -/
theorem slice_append_of_le (b s : Bytes) (lo hi : Nat) (h : hi ≤ b.length) :
    slice (b ++ s) lo hi = slice b lo hi := by
  rw [slice, slice, List.take_append_of_le_length h]

theorem tagBytes_length (ts : List String) (h4 : ∀ t ∈ ts, (goBytes t).length = 4) :
    (tagBytes ts).length = 4 * ts.length := by
  induction ts with
  | nil => rfl
  | cons t ts ih =>
    simp only [tagBytes, List.map_cons, List.flatten_cons, List.length_append,
      List.length_cons] at ih ⊢
    rw [ih (fun t ht => h4 t (List.mem_cons_of_mem _ ht)), h4 t (List.mem_cons_self _ _)]
    omega

theorem tagBytes_append (ts us : List String) : tagBytes (ts ++ us) = tagBytes ts ++ tagBytes us := by
  simp [tagBytes]

/-- The slice the retrieval side takes after `done` has been read is the next tag. -/
theorem tagBytes_slice (done : List String) (t : String) (rest : List String)
    (h4 : ∀ t ∈ done, (goBytes t).length = 4) (ht : (goBytes t).length = 4) :
    slice (tagBytes (done ++ t :: rest)) (4 * done.length) (4 * done.length + 4) = goBytes t := by
  have hd := tagBytes_length done h4
  have e : tagBytes (done ++ t :: rest) = tagBytes done ++ (goBytes t ++ tagBytes rest) := by
    rw [tagBytes_append]; rfl
  rw [e, slice]
  have e1 : 4 * done.length + 4 = (tagBytes done).length + 4 := by omega
  have e2 : 4 * done.length = (tagBytes done).length + 0 := by omega
  rw [e1, List.take_append, e2, List.drop_append, List.drop_zero,
    List.take_append_of_le_length (by omega), List.take_of_length_le (by omega)]

/-! ### The scan of `getFileByDir` -/

/-- One iteration of the loop of `getFileByDir` at a link whose tag slice is in range. -/
theorem dirLoop_cons (E : Codec) (store : KVStore) (fuel : Nat)
    (self : Object → Except Fault (Option Bytes)) (Data : Bytes) (name : String) (l : Link)
    (rest : List Link) (index : Nat) (hr : index + 4 ≤ Data.length) :
    dirLoop E store fuel self Data name (l :: rest) index =
      if l.Name ≠ name then dirLoop E store fuel self Data name rest (index + 4)
      else if slice Data index (index + 4) = goBytes TREE then
        match self (binaryToObj E (store.Get l.Hash)) with
        | .error e => .error e
        | .ok (some ans) => .ok (some ans)
        | .ok none => dirLoop E store fuel self Data name rest (index + 4)
      else if slice Data index (index + 4) = goBytes BLOB then .ok (store.Get l.Hash)
      else if slice Data index (index + 4) = goBytes LIST then
        (getFileByList E fuel (binaryToObj E (store.Get l.Hash)) store).map some
      else dirLoop E store fuel self Data name rest (index + 4) := by
  rw [dirLoop]
  simp only [STEP]
  rw [slice_append_of_le _ _ _ _ hr]
  exact if_pos (by omega)

theorem dirLoop_skip (E : Codec) (store : KVStore) (fuel : Nat)
    (self : Object → Except Fault (Option Bytes)) (name : String) :
    ∀ (pre : List (Link × String)) (done : List String) (postL : List Link)
      (postT : List String),
      (∀ t ∈ done, (goBytes t).length = 4) → (∀ e ∈ pre, (goBytes e.2).length = 4) →
      (∀ e ∈ pre, e.1.Name ≠ name) →
      dirLoop E store fuel self (tagBytes (done ++ (pre.map Prod.snd ++ postT))) name
          (pre.map Prod.fst ++ postL) (4 * done.length)
        = dirLoop E store fuel self (tagBytes (done ++ (pre.map Prod.snd ++ postT))) name
          postL (4 * (done ++ pre.map Prod.snd).length)
  | [], done, postL, postT, _, _, _ => by simp
  | e :: pre, done, postL, postT, hd, hp, hn => by
    have he : (goBytes e.2).length = 4 := hp e (List.mem_cons_self _ _)
    have hlen : 4 * done.length + 4 ≤ (tagBytes (done ++ (e.2 :: (pre.map Prod.snd ++ postT)))).length := by
      rw [tagBytes_append, List.length_append, tagBytes_length done hd]
      have : tagBytes (e.2 :: (pre.map Prod.snd ++ postT))
          = goBytes e.2 ++ tagBytes (pre.map Prod.snd ++ postT) := rfl
      rw [this, List.length_append, he]
      omega
    have hd' : ∀ t ∈ done ++ [e.2], (goBytes t).length = 4 := by
      intro t ht
      rcases List.mem_append.mp ht with h | h
      · exact hd t h
      · rw [List.mem_singleton.mp h]; exact he
    have ih := dirLoop_skip E store fuel self name pre (done ++ [e.2]) postL postT hd'
      (fun e' he' => hp e' (List.mem_cons_of_mem _ he'))
      (fun e' he' => hn e' (List.mem_cons_of_mem _ he'))
    simp only [List.map_cons, List.cons_append]
    rw [dirLoop_cons E store fuel self _ name e.1 _ _ hlen,
      if_pos (hn e (List.mem_cons_self _ _))]
    have e1 : done ++ e.2 :: (pre.map Prod.snd ++ postT)
        = (done ++ [e.2]) ++ (pre.map Prod.snd ++ postT) := by simp
    have e2 : 4 * done.length + 4 = 4 * (done ++ [e.2]).length := by
      simp only [List.length_append, List.length_singleton]; omega
    have e3 : done ++ e.2 :: pre.map Prod.snd = (done ++ [e.2]) ++ pre.map Prod.snd := by simp
    rw [e1, e2, e3]
    exact ih

theorem nodeTag_length (E : Codec) (n : Node) : (goBytes (nodeTag E n)).length = 4 := by
  cases n with
  | FILE file =>
    simp only [nodeTag]
    split <;> decide
  | DIR name size it => exact (by decide : (goBytes "tree").length = 4)

theorem dirObject_data (E : Codec) (kids : List Node) :
    (dirObject E kids).Data = tagBytes (kids.map (nodeTag E)) := by
  simp [dirObject, tagBytes, List.map_map, Function.comp_def]

/-- A scan for a name no child has ends with nothing found. -/
theorem dirLoop_absent (E : Codec) (store : KVStore) (fuel : Nat)
    (self : Object → Except Fault (Option Bytes)) (name : String) (kids : List Node)
    (hn : ∀ n ∈ kids, n.Name ≠ name) :
    dirLoop E store fuel self (dirObject E kids).Data name (dirObject E kids).Links 0
      = .ok none := by
  have h := dirLoop_skip E store fuel self name
    (kids.map fun n => (nodeLink E n, nodeTag E n)) [] [] []
    (by simp) (by
      intro e he
      obtain ⟨n, -, rfl⟩ := List.mem_map.mp he
      exact nodeTag_length E n) (by
      intro e he
      obtain ⟨n, hn', rfl⟩ := List.mem_map.mp he
      exact hn n hn')
  simp only [List.map_map, List.append_nil, List.nil_append, List.length_nil, Nat.mul_zero,
    Function.comp_def] at h
  rw [dirObject_data]
  simp only [dirObject]
  rw [h, dirLoop]

/-- A scan for the name of a child that no other child has: the links before it are
skipped, and the outcome is decided at its link by its tag. -/
theorem dirLoop_at_child (E : Codec) (store : KVStore) (fuel : Nat)
    (self : Object → Except Fault (Option Bytes)) (pre : List Node) (kid : Node)
    (post : List Node) (hpre : ∀ n ∈ pre, n.Name ≠ kid.Name)
    (hpost : ∀ n ∈ post, n.Name ≠ kid.Name) :
    dirLoop E store fuel self (dirObject E (pre ++ kid :: post)).Data kid.Name
        (dirObject E (pre ++ kid :: post)).Links 0
      = if goBytes (nodeTag E kid) = goBytes TREE then
          match self (binaryToObj E (store.Get (digest E (builtObject E kid)))) with
          | .error e => .error e
          | .ok (some ans) => .ok (some ans)
          | .ok none => .ok none
        else if goBytes (nodeTag E kid) = goBytes BLOB then
          .ok (store.Get (digest E (builtObject E kid)))
        else if goBytes (nodeTag E kid) = goBytes LIST then
          (getFileByList E fuel (binaryToObj E (store.Get (digest E (builtObject E kid))))
            store).map some
        else .ok none := by
  have hlen4 : ∀ (l : List Node), ∀ t ∈ l.map (nodeTag E), (goBytes t).length = 4 := by
    intro l t ht
    obtain ⟨n, -, rfl⟩ := List.mem_map.mp ht
    exact nodeTag_length E n
  have hent4 : ∀ (l : List Node), ∀ e ∈ l.map (fun n => (nodeLink E n, nodeTag E n)),
      (goBytes e.2).length = 4 := by
    intro l e he
    obtain ⟨n, -, rfl⟩ := List.mem_map.mp he
    exact nodeTag_length E n
  have hname : ∀ (l : List Node), (∀ n ∈ l, n.Name ≠ kid.Name) →
      ∀ e ∈ l.map (fun n => (nodeLink E n, nodeTag E n)), e.1.Name ≠ kid.Name := by
    intro l hl e he
    obtain ⟨n, hn, rfl⟩ := List.mem_map.mp he
    exact hl n hn
  -- the links before the child
  have h1 := dirLoop_skip E store fuel self kid.Name
    (pre.map fun n => (nodeLink E n, nodeTag E n)) []
    (nodeLink E kid :: post.map (nodeLink E)) (nodeTag E kid :: post.map (nodeTag E))
    (by simp) (hent4 pre) (hname pre hpre)
  simp only [List.map_map, List.nil_append, List.length_nil, Nat.mul_zero,
    Function.comp_def, List.length_map] at h1
  -- the links after the child
  have h2 := dirLoop_skip E store fuel self kid.Name
    (post.map fun n => (nodeLink E n, nodeTag E n)) (pre.map (nodeTag E) ++ [nodeTag E kid])
    [] []
    (by
      intro t ht
      rcases List.mem_append.mp ht with h | h
      · exact hlen4 pre t h
      · rw [List.mem_singleton.mp h]; exact nodeTag_length E kid)
    (hent4 post) (hname post hpost)
  simp only [List.map_map, List.append_nil, Function.comp_def, List.length_append,
    List.length_map, List.length_singleton, List.append_assoc, List.singleton_append] at h2
  have hdata : (dirObject E (pre ++ kid :: post)).Data
      = tagBytes (pre.map (nodeTag E) ++ nodeTag E kid :: post.map (nodeTag E)) := by
    rw [dirObject_data]; simp
  have hlinks : (dirObject E (pre ++ kid :: post)).Links
      = pre.map (nodeLink E) ++ nodeLink E kid :: post.map (nodeLink E) := by
    simp [dirObject]
  have hslice := tagBytes_slice (pre.map (nodeTag E)) (nodeTag E kid) (post.map (nodeTag E))
    (hlen4 pre) (nodeTag_length E kid)
  rw [List.length_map] at hslice
  have hrange : 4 * pre.length + 4
      ≤ (tagBytes (pre.map (nodeTag E) ++ nodeTag E kid :: post.map (nodeTag E))).length := by
    rw [tagBytes_length _ (by
      intro t ht
      rcases List.mem_append.mp ht with h | h
      · exact hlen4 pre t h
      · rcases List.mem_cons.mp h with h | h
        · rw [h]; exact nodeTag_length E kid
        · exact hlen4 post t h)]
    simp only [List.length_append, List.length_map, List.length_cons]
    omega
  have hend : dirLoop E store fuel self
      (tagBytes (pre.map (nodeTag E) ++ nodeTag E kid :: post.map (nodeTag E))) kid.Name
      (post.map (nodeLink E)) (4 * pre.length + 4) = .ok none := by
    have e : 4 * pre.length + 4 = 4 * (pre.length + 1) := by omega
    rw [e, h2, dirLoop]
  rw [hdata, hlinks, h1, dirLoop_cons E store fuel self _ kid.Name _ _ _ hrange, hslice, hend]
  have hnm : (nodeLink E kid).Name = kid.Name := rfl
  rw [if_neg (by rw [hnm]; exact fun h => h rfl)]
  rfl

/-! ### Paths -/

theorem splitBackslash_ne_nil : ∀ cs : List Char, splitBackslash cs ≠ []
  | [] => by simp [splitBackslash]
  | c :: cs => by
    rw [splitBackslash]
    split
    · simp
    · split <;> simp

theorem splitBackslash_no_sep : ∀ xs : List Char, Char.ofNat 92 ∉ xs → splitBackslash xs = [xs]
  | [], _ => rfl
  | c :: cs, h => by
    have hc : c ≠ Char.ofNat 92 := fun e => h (by rw [e]; exact List.mem_cons_self _ _)
    have hcs : Char.ofNat 92 ∉ cs := fun e => h (List.mem_cons_of_mem _ e)
    rw [splitBackslash, if_neg hc, splitBackslash_no_sep cs hcs]

theorem splitBackslash_append : ∀ (xs rest : List Char), Char.ofNat 92 ∉ xs →
    splitBackslash (xs ++ Char.ofNat 92 :: rest) = xs :: splitBackslash rest
  | [], rest, _ => by simp [splitBackslash]
  | c :: cs, rest, h => by
    have hc : c ≠ Char.ofNat 92 := fun e => h (by rw [e]; exact List.mem_cons_self _ _)
    have hcs : Char.ofNat 92 ∉ cs := fun e => h (List.mem_cons_of_mem _ e)
    rw [List.cons_append, splitBackslash, if_neg hc, splitBackslash_append cs rest hcs]

/-- Splitting a joined path gives back its components, when none holds a backslash. -/
theorem stringsSplit_joinPath : ∀ (comps : List String), comps ≠ [] →
    (∀ c ∈ comps, Char.ofNat 92 ∉ c.data) → stringsSplit (joinPath comps) = comps
  | [], h, _ => absurd rfl h
  | [c], _, hc => by
    simp only [stringsSplit, joinPath]
    rw [splitBackslash_no_sep _ (hc c (List.mem_singleton_self c))]
    rfl
  | c :: d :: cs, _, hc => by
    have ih := stringsSplit_joinPath (d :: cs) (List.cons_ne_nil _ _)
      (fun x hx => hc x (List.mem_cons_of_mem _ hx))
    simp only [stringsSplit] at ih ⊢
    have e : (joinPath (c :: d :: cs)).data
        = c.data ++ Char.ofNat 92 :: (joinPath (d :: cs)).data := by
      simp [joinPath, pathSep, String.data_append]
    rw [e, splitBackslash_append _ _ (hc c (List.mem_cons_self _ _)), List.map_cons, ih]

/-! ### Unfolding `getFileByDir` -/

theorem getFileByDir_ge (E : Codec) (fuel : Nat) (obj : Object) (pathArr : List String)
    (cur : Nat) (store : KVStore) (h : pathArr.length ≤ cur) :
    getFileByDir E fuel obj pathArr cur store = .ok none := by
  rw [getFileByDir, dif_pos h]

theorem getFileByDir_lt (E : Codec) (fuel : Nat) (obj : Object) (pathArr : List String)
    (cur : Nat) (store : KVStore) (h : cur < pathArr.length) :
    getFileByDir E fuel obj pathArr cur store
      = dirLoop E store fuel (fun objDir => getFileByDir E fuel objDir pathArr (cur + 1) store)
          obj.Data (pathArr.get ⟨cur, h⟩) obj.Links 0 := by
  rw [getFileByDir, dif_neg (by omega)]

/-! ### Directories built by `StoreDir`, read by `Hash2File` -/

theorem builtObject_file_small (E : Codec) (file : File) (h : file.Bytes.length ≤ 262144) :
    builtObject E (.FILE file) = { Links := [], Data := file.Bytes } := by
  simp only [builtObject, StoreFile_leaf E [] file ⟨[]⟩ h]

theorem nodeTag_file_small (E : Codec) (file : File) (h : file.Bytes.length ≤ 262144) :
    nodeTag E (.FILE file) = "blob" := by
  simp [nodeTag, builtObject_file_small E file h]

theorem nodeValue_file_small (E : Codec) (file : File) (h : file.Bytes.length ≤ 262144) :
    nodeValue E (.FILE file) = file.Bytes := by
  simp [nodeValue, payload, builtObject_file_small E file h]

theorem nodeTag_file_big (E : Codec) (file : File) (h : 262144 < file.Bytes.length) :
    nodeTag E (.FILE file) = "link" := by
  obtain ⟨W, -, hl, -, -⟩ := StoreFile_built E file
  have hne : (builtObject E (.FILE file)).Links ≠ [] := fun h0 => by
    have := hl.mp h0
    omega
  simp [nodeTag, hne]

/-- `Add` on a directory: the address is the digest of `dirObject`, the store gets the
writes of the directory on top. -/
theorem Add_dir (E : Codec) (name : String) (size : Int) (kids : List Node) (s : KVStore)
    (h : HashHandle) :
    Add E s (.DIR name size kids) h
      = .ok (digest E (dirObject E kids), nodeWrites E (.DIR name size kids) ++ s) := by
  simp only [Add, StoreDir_built E name size kids s h, map_ok, digest]

/-- `Hash2File` on the address of a directory just added reads the root back and walks
it from the component at index 1. -/
theorem Hash2File_built (E : Codec) (hcodec : ∀ o, E.jsonUnmarshal (E.jsonMarshal o) = o)
    (name : String) (size : Int) (kids : List Node) (s : KVStore) (fuel : Nat) (path : String)
    (hp : HashPool) :
    Hash2File E fuel (nodeWrites E (.DIR name size kids) ++ s) (digest E (dirObject E kids))
        path hp
      = getFileByDir E fuel (dirObject E kids) (stringsSplit path) 1
          (nodeWrites E (.DIR name size kids) ++ s) := by
  have hget : KVStore.Get (nodeWrites E (.DIR name size kids) ++ s) (digest E (dirObject E kids))
      = some (E.jsonMarshal (dirObject E kids)) := by
    rw [nodeWrites_dir]
    exact Get_cons_self _ _ _
  simp only [Hash2File, KVStore.Has, hget, Option.isSome_some, if_true, binaryToObj,
    Option.getD_some, hcodec]

/-- A child whose name no other child has splits the children around it. -/
theorem split_at_child (kids : List Node) (kid : Node) (hk : kid ∈ kids)
    (hn : (kids.map Node.Name).Nodup) :
    ∃ pre post, kids = pre ++ kid :: post ∧ (∀ n ∈ pre, n.Name ≠ kid.Name) ∧
      (∀ n ∈ post, n.Name ≠ kid.Name) := by
  obtain ⟨pre, post, rfl⟩ := List.append_of_mem hk
  refine ⟨pre, post, rfl, ?_, ?_⟩
  · intro n hnp heq
    rw [List.map_append, List.map_cons] at hn
    have hdis := (List.nodup_append.mp hn).2.2
    exact hdis (List.mem_map_of_mem _ hnp) (by rw [heq]; exact List.mem_cons_self _ _)
  · intro n hnp heq
    rw [List.map_append, List.map_cons] at hn
    have hnd := (List.nodup_append.mp hn).2.1
    have := (List.nodup_cons.mp hnd).1
    exact this (by rw [← heq]; exact List.mem_map_of_mem _ hnp)

/-- Looking a child up by its name in the object of its directory. -/
theorem dirLoop_child (E : Codec) (store : KVStore) (fuel : Nat)
    (self : Object → Except Fault (Option Bytes)) (kids : List Node) (kid : Node)
    (hk : kid ∈ kids) (hn : (kids.map Node.Name).Nodup) :
    dirLoop E store fuel self (dirObject E kids).Data kid.Name (dirObject E kids).Links 0
      = if goBytes (nodeTag E kid) = goBytes TREE then
          match self (binaryToObj E (store.Get (digest E (builtObject E kid)))) with
          | .error e => .error e
          | .ok (some ans) => .ok (some ans)
          | .ok none => .ok none
        else if goBytes (nodeTag E kid) = goBytes BLOB then
          .ok (store.Get (digest E (builtObject E kid)))
        else if goBytes (nodeTag E kid) = goBytes LIST then
          (getFileByList E fuel (binaryToObj E (store.Get (digest E (builtObject E kid))))
            store).map some
        else .ok none := by
  obtain ⟨pre, post, rfl, hpre, hpost⟩ := split_at_child kids kid hk hn
  exact dirLoop_at_child E store fuel self pre kid post hpre hpost

/-! ### Determinism and the shape of tall trees -/

theorem heightLoop_tall (n : Nat) (hn : 4096 ≤ n) : ∃ k, heightLoop 0 n = k + 2 := by
  obtain ⟨k, hk1, hk, -, hhi⟩ := heightLoop_spec n 0 (by omega)
  rw [Nat.zero_add] at hk
  match k, hk1, hk, hhi with
  | 1, _, _, hhi => rw [pow_one] at hhi; omega
  | j + 2, _, hk, _ => exact ⟨j, hk⟩

theorem replicate_tags_slice (t : String) (ht : (goBytes t).length = 4) (n i : Nat) (hi : i < n) :
    slice ((List.replicate n (goBytes t)).flatten) (4 * i) (4 * i + 4) = goBytes t := by
  have h := flatten_tags_slice (List.replicate n (({ Name := "", Hash := [], Size := 0 } : Link), t))
    (fun e he => by rw [(List.mem_replicate.mp he).2]; exact ht) i
    (by rw [List.length_replicate]; exact hi)
  rw [List.map_replicate] at h
  rw [h]
  simp

/-- C9 (chunk boundary): a file of more than 4096 chunks, in particular one of
`262144 * 4096 + 1` bytes, gets a tree of height at least 2: `StoreFile` passes a height
of at least 2, the root it returns has links, none of them tagged `"blob"`, and every
link of the root carries the digest of an object with links that the store holds,
serialized, after the call. -/
theorem StoreFile_chunk_boundary (E : Codec) (store : KVStore) (file : File) (h : HashHandle)
    (hL : 262144 * 4096 < file.Bytes.length) :
    ∃ (root : Object) (store' : KVStore),
      StoreFile E store file h = .ok (root, store') ∧
      2 ≤ heightLoop 0 ((file.Bytes.length + (256 * 1024 - 1)) / (256 * 1024)) ∧
      root.Links ≠ [] ∧
      (∀ i, i < root.Links.length → tagAt root i ≠ goBytes BLOB) ∧
      ∀ l ∈ root.Links, ∃ child : Object,
        child.Links ≠ [] ∧ l.Hash = E.sha256 (E.jsonMarshal child) ∧
        (l.Hash, E.jsonMarshal child) ∈ store' := by
  obtain ⟨k, hk⟩ := heightLoop_tall ((file.Bytes.length + (256 * 1024 - 1)) / (256 * 1024))
    (by omega)
  obtain ⟨child, lens, Wc, -, hleaf, hhead, hrun⟩ :=
    dfsForStoreFile_tall E file k 0 h (by omega)
  have hne : child.Links ≠ [] := by
    intro h0
    have := (hleaf.mp h0).2
    omega
  obtain ⟨W', hW'⟩ := hhead hne
  have htag : (if child.Links.isEmpty then "blob" else "link") = "link" := by
    simp [hne]
  have hS : StoreFile E store file h = .ok
      ((putLinks E ((⟨List.replicate 4096 ⟨"", digest E child, lens⟩,
          (List.replicate 4096 (goBytes "link")).flatten⟩ : Object),
        4096 * lens, (List.replicate 4096 Wc).flatten ++ store)).1,
       (putLinks E ((⟨List.replicate 4096 ⟨"", digest E child, lens⟩,
          (List.replicate 4096 (goBytes "link")).flatten⟩ : Object),
        4096 * lens, (List.replicate 4096 Wc).flatten ++ store)).2.2) := by
    unfold StoreFile
    rw [if_neg (by omega)]
    dsimp only
    rw [hk, hrun store, map_ok, htag]
  refine ⟨_, _, hS, by omega, ?_, ?_, ?_⟩
  · simp only [putLinks]
    rw [List.replicate_succ]
    exact List.cons_ne_nil _ _
  · intro i hi
    simp only [putLinks, List.length_replicate] at hi
    simp only [putLinks, tagAt, STEP]
    rw [replicate_tags_slice "link" (by decide) 4096 i hi]
    decide
  · intro l hl
    simp only [putLinks] at hl
    have hl' := (List.mem_replicate.mp hl).2
    subst hl'
    refine ⟨child, hne, rfl, ?_⟩
    simp only [putLinks, KVStore.Put]
    refine List.mem_cons_of_mem _ (List.mem_append_left _ ?_)
    rw [hW', List.replicate_succ, List.flatten_cons]
    exact List.mem_append_left _ (List.mem_cons_self _ _)

theorem StoreFile_chunk_boundary_witness :
    262144 * 4096 < (⟨"big.bin", 0, zeroBytes (262144 * 4096 + 1)⟩ : File).Bytes.length ∧
    ∃ (root : Object) (store' : KVStore),
      StoreFile unaryCodec [] ⟨"big.bin", 0, zeroBytes (262144 * 4096 + 1)⟩ ⟨[]⟩
        = .ok (root, store') ∧
      2 ≤ heightLoop 0 (((⟨"big.bin", 0, zeroBytes (262144 * 4096 + 1)⟩ : File).Bytes.length
        + (256 * 1024 - 1)) / (256 * 1024)) ∧
      root.Links ≠ [] ∧
      (∀ i, i < root.Links.length → tagAt root i ≠ goBytes BLOB) ∧
      ∀ l ∈ root.Links, ∃ child : Object,
        child.Links ≠ [] ∧ l.Hash = unaryCodec.sha256 (unaryCodec.jsonMarshal child) ∧
        (l.Hash, unaryCodec.jsonMarshal child) ∈ store' :=
  ⟨by rw [zeroBytes_length]; omega,
    StoreFile_chunk_boundary unaryCodec [] ⟨"big.bin", 0, zeroBytes (262144 * 4096 + 1)⟩ ⟨[]⟩
      (by rw [zeroBytes_length]; omega)⟩

/-! ### Files inside directories -/

/-- C4 (tag vocabulary), the failing input: for a directory holding one file of 262145
bytes `StoreDir` returns an object whose `Data` is the four bytes `"link"`, a tag that is
none of `"blob"`, `"list"`, `"tree"`. -/
theorem StoreDir_writes_link_tag (E : Codec) (store : KVStore) (h : HashHandle) :
    ∃ (o : Object) (store' : KVStore),
      StoreDir E store [.FILE ⟨"big.bin", 262145, zeroBytes 262145⟩] h = .ok (o, store') ∧
      o.Links.length = 1 ∧ o.Data = goBytes "link" ∧
      tagAt o 0 ≠ goBytes BLOB ∧ tagAt o 0 ≠ goBytes LIST ∧ tagAt o 0 ≠ goBytes TREE := by
  have htag : nodeTag E (.FILE ⟨"big.bin", 262145, zeroBytes 262145⟩) = "link" :=
    nodeTag_file_big E _ (by show 262144 < (zeroBytes 262145).length; rw [zeroBytes_length]; omega)
  have hdata : (dirObject E [.FILE ⟨"big.bin", 262145, zeroBytes 262145⟩]).Data
      = goBytes "link" := by
    simp only [dirObject, List.map_cons, List.map_nil, htag, List.flatten_cons,
      List.flatten_nil, List.append_nil]
  refine ⟨_, _, StoreDir_built E "" 0 _ store h, rfl, hdata, ?_, ?_, ?_⟩ <;>
    · rw [tagAt, hdata]; decide

/-- C3 (a file stored in a directory is retrievable by name), the failing input: for a
directory holding one file `big.bin` of 262145 bytes, `getFileByDir` on the object
`StoreDir` returned, the path `[big.bin]` at index 0 and the store after `StoreDir`
returns nil. -/
theorem getFileByDir_misses_chunked_file (E : Codec) (store : KVStore) (h : HashHandle)
    (fuel : Nat) :
    ∃ (o : Object) (store' : KVStore),
      StoreDir E store [.FILE ⟨"big.bin", 262145, zeroBytes 262145⟩] h = .ok (o, store') ∧
      getFileByDir E fuel o ["big.bin"] 0 store' = .ok none := by
  have htag : nodeTag E (.FILE ⟨"big.bin", 262145, zeroBytes 262145⟩) = "link" :=
    nodeTag_file_big E _ (by show 262144 < (zeroBytes 262145).length; rw [zeroBytes_length]; omega)
  refine ⟨_, _, StoreDir_built E "" 0 _ store h, ?_⟩
  rw [getFileByDir_lt E fuel _ ["big.bin"] 0 _ (by decide)]
  have hscan := dirLoop_child E
    (nodeWrites E (.DIR "" 0 [.FILE ⟨"big.bin", 262145, zeroBytes 262145⟩]) ++ store) fuel
    (fun objDir => getFileByDir E fuel objDir ["big.bin"] (0 + 1)
      (nodeWrites E (.DIR "" 0 [.FILE ⟨"big.bin", 262145, zeroBytes 262145⟩]) ++ store))
    [.FILE ⟨"big.bin", 262145, zeroBytes 262145⟩] (.FILE ⟨"big.bin", 262145, zeroBytes 262145⟩)
    (List.mem_singleton_self _) (by simp)
  rw [htag] at hscan
  rw [if_neg (by decide), if_neg (by decide), if_neg (by decide)] at hscan
  exact hscan

theorem exampleDir_path :
    stringsSplit (joinPath ["sub", "b.txt"]) = ["sub", "b.txt"] :=
  stringsSplit_joinPath ["sub", "b.txt"] (List.cons_ne_nil _ _) (by decide)

theorem nodeWrites_file_small (E : Codec) (file : File) (h : file.Bytes.length ≤ 262144) :
    nodeWrites E (.FILE file) = [(digest E { Links := [], Data := file.Bytes }, file.Bytes)] := by
  simp only [nodeWrites, StoreFile_leaf E [] file ⟨[]⟩ h, digest, calculateHash]

theorem NoClash_of_nodup_keys (W : KVStore) (h : (W.map Prod.fst).Nodup) : NoClash W := by
  induction W with
  | nil => intro k v₁ v₂ h₁; simp at h₁
  | cons kv W ih =>
    rw [List.map_cons, List.nodup_cons] at h
    intro k v₁ v₂ h₁ h₂
    rcases List.mem_cons.mp h₁ with e₁ | m₁ <;> rcases List.mem_cons.mp h₂ with e₂ | m₂
    · rw [← e₁] at e₂
      exact (congrArg Prod.snd e₂).symm
    · have hm : k ∈ W.map Prod.fst := List.mem_map_of_mem Prod.fst m₂
      rw [← e₁] at h
      exact absurd hm h.1
    · have hm : k ∈ W.map Prod.fst := List.mem_map_of_mem Prod.fst m₁
      rw [← e₂] at h
      exact absurd hm h.1
    · exact ih h.2 k v₁ v₂ m₁ m₂

theorem unary_digest_ne (o₁ o₂ : Object) (h : o₁.Data ≠ o₂.Data) :
    digest unaryCodec o₁ ≠ digest unaryCodec o₂ :=
  fun e => h (congrArg Object.Data (unary_digest_injective o₁ o₂ e))

/-- The writes of `Add` on the example directory: the root, the subdirectory, and the
two leaf payloads. -/
theorem exampleDir_writes :
    nodeWrites unaryCodec (.DIR "root" 0 exampleDir)
      = [(digest unaryCodec (dirObject unaryCodec exampleDir),
            unaryCodec.jsonMarshal (dirObject unaryCodec exampleDir)),
         (digest unaryCodec (dirObject unaryCodec [.FILE ⟨"b.txt", 5, goBytes "world"⟩]),
            unaryCodec.jsonMarshal (dirObject unaryCodec [.FILE ⟨"b.txt", 5, goBytes "world"⟩])),
         (digest unaryCodec { Links := [], Data := goBytes "world" }, goBytes "world"),
         (digest unaryCodec { Links := [], Data := goBytes "hello" }, goBytes "hello")] := by
  rw [nodeWrites_dir]
  simp only [exampleDir, loopWrites, nodeWrites_dir, List.nil_append, List.cons_append,
    nodeWrites_file_small unaryCodec ⟨"a.txt", 5, goBytes "hello"⟩ (by decide),
    nodeWrites_file_small unaryCodec ⟨"b.txt", 5, goBytes "world"⟩ (by decide)]

theorem exampleDir_noClash : NoClash (nodeWrites unaryCodec (.DIR "root" 0 exampleDir)) := by
  rw [exampleDir_writes]
  apply NoClash_of_nodup_keys
  have hroot : (dirObject unaryCodec exampleDir).Data = goBytes "blob" ++ goBytes "tree" := by
    rw [dirObject_data]
    simp only [exampleDir, List.map_cons, List.map_nil,
      nodeTag_file_small unaryCodec ⟨"a.txt", 5, goBytes "hello"⟩ (by decide)]
    rfl
  have hsub : (dirObject unaryCodec [.FILE ⟨"b.txt", 5, goBytes "world"⟩]).Data
      = goBytes "blob" := by
    rw [dirObject_data]
    simp only [List.map_cons, List.map_nil,
      nodeTag_file_small unaryCodec ⟨"b.txt", 5, goBytes "world"⟩ (by decide)]
    rfl
  simp only [List.map_cons, List.map_nil, List.nodup_cons, List.mem_cons, List.mem_singleton,
    List.not_mem_nil, not_or, not_false_eq_true, List.nodup_nil, and_true, or_false]
  refine ⟨⟨?_, ?_, ?_⟩, ⟨?_, ?_⟩, ?_⟩ <;> apply unary_digest_ne
  · rw [hroot, hsub]; decide
  · rw [hroot]; decide
  · rw [hroot]; decide
  · rw [hsub]; decide
  · rw [hsub]; decide
  · decide

/-! ### Tag/link alignment -/

theorem nodeTag_eq_kindTag (E : Codec) : ∀ n : Node, nodeTag E n = kindTag n
  | .FILE file => by
    by_cases h : file.Bytes.length ≤ 262144
    · rw [nodeTag_file_small E file h, kindTag, if_pos h]
    · rw [nodeTag_file_big E file (by omega), kindTag, if_neg h]
  | .DIR _ _ _ => rfl

theorem fileEntry_tag_length {E : Codec} {l : Link} {t : String} (h : FileEntry E l t) :
    (goBytes t).length = 4 := by
  obtain ⟨_, _, h | h⟩ := h
  · rw [h.1]; decide
  · rw [h.1]; decide

/-- An object filled pairwise with entries of the file builder is aligned as a composite
built from a file. -/
theorem Entries.fileAligned {E : Codec} {o : Object} (ho : Entries (FileEntry E) o) :
    FileAligned E o := by
  obtain ⟨es, hl, hd, hall⟩ := ho
  have h4 : ∀ e ∈ es, (goBytes e.2).length = 4 := fun e he => fileEntry_tag_length (hall e he)
  refine ⟨by rw [hd, hl, flatten_tags_length es h4, List.length_map], ?_⟩
  intro i hi
  have hi' : i < es.length := by simpa [hl] using hi
  obtain ⟨child, hh, hc⟩ := hall _ (List.get_mem es i hi')
  refine ⟨child, ?_, ?_⟩
  · rw [← hh]
    simp [hl]
  · have ht : tagAt o i = goBytes (es.get ⟨i, hi'⟩).2 := by
      unfold tagAt STEP
      rw [hd]
      exact flatten_tags_slice es h4 i hi'
    rw [ht]
    rcases hc with ⟨h1, h2⟩ | ⟨h1, h2⟩
    · exact Or.inl ⟨by rw [h1], h2⟩
    · exact Or.inr ⟨by rw [h1], h2⟩

theorem fileWrite_leaf (E : Codec) (data : Bytes) :
    FileWrite E (calculateHash E (E.jsonMarshal { Links := [], Data := data }), data) :=
  Or.inl ⟨data, rfl⟩

theorem fileWrite_links (E : Codec) (o : Object) (ho : Entries (FileEntry E) o) :
    FileWrite E (calculateHash E (E.jsonMarshal o), E.jsonMarshal o) :=
  Or.inr ⟨o, rfl, ho.fileAligned⟩

theorem FileEntry.of_child (E : Codec) (tmp : Object) (name : String) (size : Int) :
    FileEntry E { Name := name, Hash := calculateHash E (E.jsonMarshal tmp), Size := size }
      (if tmp.Links.isEmpty then "blob" else "link") := by
  refine ⟨tmp, rfl, ?_⟩
  by_cases h : tmp.Links = []
  · simp [h]
  · right
    simp [h]

theorem blobLoop_fileWrites (E : Codec) (bytes : Bytes) :
    ∀ (n : Nat) (links : Object) (lenData : Nat) (W : KVStore) (seedId : Nat),
      Entries (FileEntry E) links → (∀ kv ∈ W, FileWrite E kv) →
      Entries (FileEntry E) (blobLoop E bytes n links lenData W seedId).1 ∧
      ∀ kv ∈ (blobLoop E bytes n links lenData W seedId).2.2, FileWrite E kv := by
  intro n
  induction n with
  | zero =>
    intro links lenData W seedId hl hW
    exact ⟨hl, hW⟩
  | succ n ih =>
    intro links lenData W seedId hl hW
    have hpush : ∀ data : Bytes, Entries (FileEntry E)
        { Links := links.Links ++ [{ Name := "", Hash := calculateHash E (E.jsonMarshal
            { Links := [], Data := data }), Size := data.length }],
          Data := links.Data ++ goBytes "blob" } :=
      fun data => hl.push _ "blob" ⟨{ Links := [], Data := data }, rfl, Or.inl ⟨rfl, rfl⟩⟩
    have hput : ∀ data : Bytes, ∀ kv ∈ KVStore.Put W
        (calculateHash E (E.jsonMarshal { Links := [], Data := data })) data, FileWrite E kv := by
      intro data kv hkv
      rcases List.mem_cons.mp hkv with h | h
      · rw [h]; exact fileWrite_leaf E data
      · exact hW kv h
    simp only [blobLoop]
    split
    · exact ⟨hpush _, hput _⟩
    · exact ih _ _ _ _ (hpush _) (hput _)

theorem linkLoop_fileWrites (E : Codec)
    (child : KVStore → Nat → Except Fault (Object × Nat × KVStore))
    (hchild : ∀ W sd r, child W sd = .ok r → (∀ kv ∈ W, FileWrite E kv) →
      ∀ kv ∈ r.2.2, FileWrite E kv)
    (len seedId : Nat) :
    ∀ (n : Nat) (links : Object) (lenData : Nat) (W : KVStore) (r : Object × Nat × KVStore),
      linkLoop E child len seedId n links lenData W = .ok r →
      Entries (FileEntry E) links → (∀ kv ∈ W, FileWrite E kv) →
      Entries (FileEntry E) r.1 ∧ ∀ kv ∈ r.2.2, FileWrite E kv := by
  intro n
  induction n with
  | zero =>
    intro links lenData W r hr hl hW
    simp only [linkLoop, Except.ok.injEq] at hr
    subst hr
    exact ⟨hl, hW⟩
  | succ n ih =>
    intro links lenData W r hr hl hW
    simp only [linkLoop] at hr
    split at hr
    · simp only [Except.ok.injEq] at hr
      subst hr
      exact ⟨hl, hW⟩
    · cases hc : child W seedId with
      | error e => rw [hc] at hr; simp at hr
      | ok c =>
        obtain ⟨tmp, lens, W'⟩ := c
        rw [hc] at hr
        simp only at hr
        exact ih _ _ _ r hr
          (hl.push _ _ (FileEntry.of_child E tmp "" lens)) (hchild W seedId _ hc hW)

theorem putLinks_fileWrites (E : Codec) (q : Object × Nat × KVStore)
    (h1 : Entries (FileEntry E) q.1) (h2 : ∀ kv ∈ q.2.2, FileWrite E kv) :
    ∀ kv ∈ (putLinks E q).2.2, FileWrite E kv := by
  intro kv hkv
  rcases List.mem_cons.mp hkv with h | h
  · rw [h]; exact fileWrite_links E q.1 h1
  · exact h2 kv h

/-- Every object `dfsForStoreFile` returns is a leaf or was filled pairwise with entries
of the file builder, and every write it adds is a write of the file builder. -/
theorem dfsForStoreFile_fileWrites (E : Codec) (file : File) :
    ∀ (hight : Nat) (W : KVStore) (seedId : Nat) (h : HashHandle) (r : Object × Nat × KVStore),
      dfsForStoreFile E hight file W seedId h = .ok r → (∀ kv ∈ W, FileWrite E kv) →
      (r.1.Links = [] ∨ Entries (FileEntry E) r.1) ∧ ∀ kv ∈ r.2.2, FileWrite E kv := by
  intro hight
  induction hight using Nat.strong_induction_on with
  | _ hight ih =>
    intro W seedId h r hr hW
    match hight with
    | 0 =>
      simp only [dfsForStoreFile] at hr
      cases hl : linkLoop E (fun _ _ => .error .noReturn) file.Bytes.length seedId 4096
          { Links := [], Data := [] } 0 W with
      | error e => rw [hl] at hr; simp [map_error] at hr
      | ok q =>
        rw [hl, map_ok, Except.ok.injEq] at hr
        subst hr
        obtain ⟨h1, h2⟩ := linkLoop_fileWrites E _ (fun _ _ _ hc => by simp at hc) _ _ _ _ _ _ _
          hl (Entries.empty _) hW
        exact ⟨Or.inr h1, putLinks_fileWrites E q h1 h2⟩
    | 1 =>
      simp only [dfsForStoreFile] at hr
      split at hr
      · split at hr
        · simp only [Except.ok.injEq] at hr
          subst hr
          refine ⟨Or.inl rfl, fun kv hkv => ?_⟩
          rcases List.mem_cons.mp hkv with h | h
          · rw [h]; exact fileWrite_leaf E _
          · exact hW kv h
        · simp at hr
      · simp only [Except.ok.injEq] at hr
        subst hr
        obtain ⟨h1, h2⟩ := blobLoop_fileWrites E file.Bytes 4096 { Links := [], Data := [] } 0 W
          seedId (Entries.empty _) hW
        exact ⟨Or.inr h1, putLinks_fileWrites E _ h1 h2⟩
    | k + 2 =>
      simp only [dfsForStoreFile] at hr
      cases hl : linkLoop E (fun store seedId => dfsForStoreFile E (k + 1) file store seedId h)
          file.Bytes.length seedId 4096 { Links := [], Data := [] } 0 W with
      | error e => rw [hl] at hr; simp [map_error] at hr
      | ok q =>
        rw [hl, map_ok, Except.ok.injEq] at hr
        subst hr
        obtain ⟨h1, h2⟩ := linkLoop_fileWrites E _
          (fun W sd r hc hW => (ih (k + 1) (by omega) W sd h r hc hW).2) _ _ _ _ _ _ _ hl
          (Entries.empty _) hW
        exact ⟨Or.inr h1, putLinks_fileWrites E q h1 h2⟩

/-- The object of a directory is aligned with the children of the directory. -/
theorem dirObject_dirAligned (E : Codec) (kids : List Node) :
    DirAligned E kids (dirObject E kids) := by
  have hlen : (dirObject E kids).Links.length = kids.length := by
    rw [dirObject, List.length_map]
  refine ⟨hlen, (dirObject_entries E kids).aligned.1, fun i hk hl => ?_⟩
  have hget : (dirObject E kids).Links.get ⟨i, hl⟩ = nodeLink E (kids.get ⟨i, hk⟩) := by
    simp only [dirObject, List.get_eq_getElem, List.getElem_map]
  refine ⟨by rw [hget]; rfl, by rw [hget]; rfl, ?_⟩
  have h4 : ∀ e ∈ kids.map (fun n => (nodeLink E n, nodeTag E n)), (goBytes e.2).length = 4 := by
    intro e he
    obtain ⟨n, -, rfl⟩ := List.mem_map.mp he
    exact nodeTag_length E n
  have hs := flatten_tags_slice (kids.map fun n => (nodeLink E n, nodeTag E n)) h4 i
    (by rw [List.length_map]; exact hk)
  have hdata : (dirObject E kids).Data
      = ((kids.map fun n => (nodeLink E n, nodeTag E n)).map fun e => goBytes e.2).flatten := by
    rw [dirObject, List.map_map]
    rfl
  rw [tagAt, STEP, hdata, hs]
  simp only [List.get_eq_getElem, List.getElem_map]
  rw [nodeTag_eq_kindTag]

theorem nodeWrites_fileWrites (E : Codec) (file : File) :
    ∀ kv ∈ nodeWrites E (.FILE file), FileWrite E kv := by
  by_cases hlen : file.Bytes.length ≤ 256 * 1024
  · rw [nodeWrites_file_small E file hlen]
    intro kv hkv
    rw [List.mem_singleton.mp hkv]
    exact fileWrite_leaf E file.Bytes
  · obtain ⟨k, hk1, hk, -, -⟩ :=
      heightLoop_spec ((file.Bytes.length + (256 * 1024 - 1)) / (256 * 1024)) 0
        (Nat.div_pos (by omega) (by norm_num))
    rw [Nat.zero_add] at hk
    obtain ⟨r, hr⟩ := dfsForStoreFile_total E file k hk1 [] 0 ⟨[]⟩ (Nat.zero_le _)
    have hrun : StoreFile E [] file ⟨[]⟩ = .ok (r.1, r.2.2) := by
      unfold StoreFile
      rw [if_neg hlen]
      dsimp only
      rw [hk, hr, map_ok]
    have hw : nodeWrites E (.FILE file) = r.2.2 := by
      simp only [nodeWrites, hrun]
    rw [hw]
    exact (dfsForStoreFile_fileWrites E file k [] 0 ⟨[]⟩ r hr (fun kv h => by simp at h)).2

mutual
/-- Every write the builder adds for a node is a write for a file inside the node, or
the serialization of the object of a directory that is the node or lies inside it. -/
theorem nodeWrites_cases (E : Codec) (P : Bytes × Bytes → Prop)
    (hP : ∀ file : File, ∀ kv ∈ nodeWrites E (.FILE file), P kv) :
    ∀ n : Node, ∀ kv ∈ nodeWrites E n,
      P kv ∨ ∃ (name : String) (size : Int) (kids sub : List Node),
        n = .DIR name size kids ∧ DirIn sub kids ∧
        kv = (digest E (dirObject E sub), E.jsonMarshal (dirObject E sub))
  | .FILE file => fun kv hkv => Or.inl (hP file kv hkv)
  | .DIR name size it => by
    intro kv hkv
    rw [nodeWrites_dir] at hkv
    rcases List.mem_cons.mp hkv with h | h
    · exact Or.inr ⟨name, size, it, it, rfl, DirIn.self it, h⟩
    · rcases loopWrites_cases E P hP it kv h with hf | ⟨nm, sz, mid, sub, hmem, hin, hkv'⟩
      · exact Or.inl hf
      · exact Or.inr ⟨name, size, it, sub, rfl, DirIn.child sub it nm sz mid hmem hin, hkv'⟩
theorem loopWrites_cases (E : Codec) (P : Bytes × Bytes → Prop)
    (hP : ∀ file : File, ∀ kv ∈ nodeWrites E (.FILE file), P kv) :
    ∀ kids : List Node, ∀ kv ∈ loopWrites E kids,
      P kv ∨ ∃ (name : String) (size : Int) (mid sub : List Node),
        Node.DIR name size mid ∈ kids ∧ DirIn sub mid ∧
        kv = (digest E (dirObject E sub), E.jsonMarshal (dirObject E sub))
  | [] => by intro kv h; simp [loopWrites] at h
  | k :: rest => by
    intro kv hkv
    rw [loopWrites] at hkv
    rcases List.mem_append.mp hkv with h | h
    · rcases loopWrites_cases E P hP rest kv h with hf | ⟨nm, sz, mid, sub, hmem, hin, hkv'⟩
      · exact Or.inl hf
      · exact Or.inr ⟨nm, sz, mid, sub, List.mem_cons_of_mem _ hmem, hin, hkv'⟩
    · rcases nodeWrites_cases E P hP k kv h with hf | ⟨nm, sz, mid, sub, hk, hin, hkv'⟩
      · exact Or.inl hf
      · exact Or.inr ⟨nm, sz, mid, sub, by rw [hk]; exact List.mem_cons_self _ _, hin, hkv'⟩
end

/-- Every write the builder adds for a node is an aligned write: a write of the file
builder, or the serialization of the object of a directory in the node. -/
theorem nodeWrites_aligned (E : Codec) (n : Node) : ∀ kv ∈ nodeWrites E n,
    FileWrite E kv ∨ ∃ (name : String) (size : Int) (kids sub : List Node),
      n = .DIR name size kids ∧ DirIn sub kids ∧
      kv = (digest E (dirObject E sub), E.jsonMarshal (dirObject E sub)) :=
  nodeWrites_cases E (FileWrite E) (nodeWrites_fileWrites E) n

/-- C5 (tag/link alignment).  An object `dfsForStoreFile` or `StoreFile` returns, when it
has links, has four bytes of `Data` for each link, the group at position `i` being the
tag of link `i`: `"blob"` when the link carries the digest of an object without links,
`"link"` when it carries the digest of an object with links; every write they add is a
leaf payload or the serialization of an object aligned so.  The object `StoreDir` returns
for the children `kids` has one link and four bytes of `Data` for each child; link `i`
carries the name of child `i` and the digest of the object built for child `i`, and the
group at position `i` is the tag of child `i`: `"tree"` for a directory, `"blob"` for a
file of at most 262144 bytes, `"link"` for a longer file; every write `StoreDir` adds is
a write of the file builder or the serialization of the object of a directory in the
tree, aligned with the children of that directory. -/
theorem builder_tags_aligned (E : Codec) :
    (∀ (hight : Nat) (file : File) (s : KVStore) (seedId : Nat) (h : HashHandle)
      (r : Object × Nat × KVStore),
      dfsForStoreFile E hight file s seedId h = .ok r →
      (r.1.Links ≠ [] → FileAligned E r.1) ∧
      ∃ W : KVStore, r.2.2 = W ++ s ∧ ∀ kv ∈ W, FileWrite E kv) ∧
    (∀ (file : File) (s : KVStore) (h : HashHandle),
      StoreFile E s file h
        = .ok (builtObject E (.FILE file), nodeWrites E (.FILE file) ++ s) ∧
      ((builtObject E (.FILE file)).Links ≠ [] → FileAligned E (builtObject E (.FILE file))) ∧
      ∀ kv ∈ nodeWrites E (.FILE file), FileWrite E kv) ∧
    (∀ (name : String) (size : Int) (kids : List Node) (s : KVStore) (h : HashHandle),
      StoreDir E s kids h
        = .ok (builtObject E (.DIR name size kids), nodeWrites E (.DIR name size kids) ++ s) ∧
      DirAligned E kids (builtObject E (.DIR name size kids)) ∧
      (∀ kv ∈ nodeWrites E (.DIR name size kids), DirWrite E kids kv) ∧
      ∀ sub : List Node, DirIn sub kids → DirAligned E sub (dirObject E sub)) := by
  refine ⟨?_, ?_, ?_⟩
  · intro hight file s seedId h r hr
    have happ := dfsForStoreFile_append E file s hight [] seedId h
    rw [List.nil_append, hr] at happ
    cases h0 : dfsForStoreFile E hight file [] seedId h with
    | error e => rw [h0] at happ; simp [map_error] at happ
    | ok q =>
      rw [h0, map_ok, Except.ok.injEq] at happ
      obtain ⟨hshape, hlog⟩ := dfsForStoreFile_fileWrites E file hight [] seedId h q h0
        (fun kv hkv => by simp at hkv)
      have e1 : r.1 = q.1 := by rw [happ]; rfl
      have e2 : r.2.2 = q.2.2 ++ s := by rw [happ]; rfl
      refine ⟨fun hne => ?_, q.2.2, e2, hlog⟩
      rw [e1] at hne ⊢
      rcases hshape with h | h
      · exact absurd h hne
      · exact h.fileAligned
  · intro file s h
    obtain ⟨W, -, hrun, -⟩ := nodeWrites_file E file
    refine ⟨hrun s h, fun hne => ?_, nodeWrites_fileWrites E file⟩
    have hr := hrun [] ⟨[]⟩
    rw [List.append_nil] at hr
    by_cases hlen : file.Bytes.length ≤ 256 * 1024
    · rw [builtObject_file_small E file hlen] at hne
      exact absurd rfl hne
    · obtain ⟨k, hk1, hk, -, -⟩ :=
        heightLoop_spec ((file.Bytes.length + (256 * 1024 - 1)) / (256 * 1024)) 0
          (Nat.div_pos (by omega) (by norm_num))
      rw [Nat.zero_add] at hk
      obtain ⟨q, hq⟩ := dfsForStoreFile_total E file k hk1 [] 0 ⟨[]⟩ (Nat.zero_le _)
      have hrun' : StoreFile E [] file ⟨[]⟩ = .ok (q.1, q.2.2) := by
        unfold StoreFile
        rw [if_neg hlen]
        dsimp only
        rw [hk, hq, map_ok]
      have ho : builtObject E (.FILE file) = q.1 := by
        simp only [builtObject, hrun']
      rw [ho] at hne ⊢
      rcases (dfsForStoreFile_fileWrites E file k [] 0 ⟨[]⟩ q hq
        (fun kv hkv => by simp at hkv)).1 with h0 | h0
      · exact absurd h0 hne
      · exact h0.fileAligned
  · intro name size kids s h
    refine ⟨?_, ?_, fun kv hkv => ?_, fun sub _ => dirObject_dirAligned E sub⟩
    · rw [builtObject_dir]
      exact StoreDir_built E name size kids s h
    · rw [builtObject_dir]
      exact dirObject_dirAligned E kids
    · rcases nodeWrites_aligned E (.DIR name size kids) kv hkv with
        hf | ⟨nm, sz, it, sub, hn, hin, hkv'⟩
      · exact Or.inl hf
      · injection hn with h1 h2 h3
        rw [h3]
        exact Or.inr ⟨sub, hin, hkv'⟩

theorem builder_tags_aligned_witness :
    DirAligned unaryCodec exampleDir (builtObject unaryCodec (.DIR "root" 0 exampleDir)) ∧
    kindTag (.FILE ⟨"a.txt", 5, goBytes "hello"⟩) = "blob" ∧
    kindTag (.DIR "sub" 5 [.FILE ⟨"b.txt", 5, goBytes "world"⟩]) = "tree" ∧
    ∀ kv ∈ nodeWrites unaryCodec (.DIR "root" 0 exampleDir), DirWrite unaryCodec exampleDir kv :=
  ⟨((builder_tags_aligned unaryCodec).2.2 "root" 0 exampleDir [] ⟨[]⟩).2.1, by decide, rfl,
    ((builder_tags_aligned unaryCodec).2.2 "root" 0 exampleDir [] ⟨[]⟩).2.2.1⟩

/-! ### Retrieval: slices in range, recursion that comes back -/

theorem listLoop_ok (E : Codec) (store : KVStore) (self : Object → Except Fault Bytes)
    (Data : Bytes) :
    ∀ (links : List Link) (index : Nat) (ans : Bytes),
      (∀ l ∈ links, ∃ r, self (binaryToObj E (store.Get l.Hash)) = .ok r) →
      index + STEP * links.length ≤ Data.length →
      ∃ r, listLoop E store self Data links index ans = .ok r
  | [], _, _, _, _ => ⟨_, rfl⟩
  | l :: rest, index, ans, hself, hroom => by
    have hlen : STEP * (l :: rest).length = STEP * rest.length + STEP := by
      rw [List.length_cons]; ring
    rw [hlen] at hroom
    have hrest : ∀ l' ∈ rest, ∃ r, self (binaryToObj E (store.Get l'.Hash)) = .ok r :=
      fun l' hl' => hself l' (List.mem_cons_of_mem _ hl')
    rw [listLoop, if_pos (by omega)]
    dsimp only
    split
    · exact listLoop_ok E store self Data rest _ _ hrest (by omega)
    · obtain ⟨r, hr⟩ := hself l (List.mem_cons_self _ _)
      rw [hr]
      exact listLoop_ok E store self Data rest _ _ hrest (by omega)

theorem dirLoop_ok (E : Codec) (store : KVStore) (fuel : Nat)
    (self : Object → Except Fault (Option Bytes)) (Data : Bytes) (name : String) :
    ∀ (links : List Link) (index : Nat),
      (∀ l ∈ links, ∃ r, self (binaryToObj E (store.Get l.Hash)) = .ok r) →
      (∀ l ∈ links, ∃ r, getFileByList E fuel (binaryToObj E (store.Get l.Hash)) store = .ok r) →
      index + STEP * links.length ≤ Data.length →
      ∃ r, dirLoop E store fuel self Data name links index = .ok r
  | [], _, _, _, _ => ⟨_, rfl⟩
  | l :: rest, index, hself, hlist, hroom => by
    have hlen : STEP * (l :: rest).length = STEP * rest.length + STEP := by
      rw [List.length_cons]; ring
    rw [hlen] at hroom
    have ih := dirLoop_ok E store fuel self Data name rest (index + STEP)
      (fun l' hl' => hself l' (List.mem_cons_of_mem _ hl'))
      (fun l' hl' => hlist l' (List.mem_cons_of_mem _ hl')) (by omega)
    rw [dirLoop, if_pos (by omega)]
    dsimp only
    split
    · exact ih
    · split
      · obtain ⟨r, hr⟩ := hself l (List.mem_cons_self _ _)
        rw [hr]
        cases r with
        | none => exact ih
        | some ans => exact ⟨_, rfl⟩
      · split
        · exact ⟨_, rfl⟩
        · split
          · obtain ⟨r, hr⟩ := hlist l (List.mem_cons_self _ _)
            rw [hr]
            exact ⟨_, rfl⟩
          · exact ih

/-- With `fuel + 1` levels of recursion `getFileByList` returns on every object with
room for its tags whose links lead to keys of depth below `fuel`. -/
theorem getFileByList_ok (E : Codec) (store : KVStore) (depth : Bytes → Nat)
    (hal : StoreAligned E store) (hrk : StoreRanked E store depth) :
    ∀ (fuel : Nat) (obj : Object), TagRoom obj → (∀ l ∈ obj.Links, depth l.Hash < fuel) →
      ∃ r, getFileByList E (fuel + 1) obj store = .ok r := by
  intro fuel
  induction fuel with
  | zero =>
    intro obj hroom hd
    rw [getFileByList]
    exact listLoop_ok E store _ obj.Data obj.Links 0 []
      (fun l hl => absurd (hd l hl) (by omega)) (by unfold TagRoom at hroom; omega)
  | succ f ih =>
    intro obj hroom hd
    rw [getFileByList]
    refine listLoop_ok E store _ obj.Data obj.Links 0 [] (fun l hl => ?_)
      (by unfold TagRoom at hroom; omega)
    refine ih _ (hal l.Hash) (fun l' hl' => ?_)
    have h1 := hrk l.Hash l' hl'
    have h2 := hd l hl
    omega

/-- With enough fuel for the lists `getFileByDir` returns on every object with room for
its tags, whatever the path and the index. -/
theorem getFileByDir_ok (E : Codec) (store : KVStore) (depth : Bytes → Nat)
    (hal : StoreAligned E store) (hrk : StoreRanked E store depth) (fuel : Nat)
    (pathArr : List String) :
    ∀ (k cur : Nat), pathArr.length - cur = k → ∀ (obj : Object), TagRoom obj →
      (∀ l ∈ obj.Links, depth l.Hash < fuel + 1) →
      ∃ r, getFileByDir E (fuel + 1) obj pathArr cur store = .ok r := by
  intro k
  induction k with
  | zero =>
    intro cur hk obj _ _
    exact ⟨_, getFileByDir_ge E _ obj pathArr cur store (by omega)⟩
  | succ k ih =>
    intro cur hk obj hroom hd
    rw [getFileByDir_lt E _ obj pathArr cur store (by omega)]
    refine dirLoop_ok E store _ _ obj.Data _ obj.Links 0 (fun l hl => ?_) (fun l hl => ?_)
      (by unfold TagRoom at hroom; omega)
    · refine ih (cur + 1) (by omega) _ (hal l.Hash) (fun l' hl' => ?_)
      have h1 := hrk l.Hash l' hl'
      have h2 := hd l hl
      omega
    · refine getFileByList_ok E store depth hal hrk fuel _ (hal l.Hash) (fun l' hl' => ?_)
      have h1 := hrk l.Hash l' hl'
      have h2 := hd l hl
      omega

theorem links_depth_bound (depth : Bytes → Nat) :
    ∀ links : List Link, ∃ N, ∀ l ∈ links, depth l.Hash < N
  | [] => ⟨0, by simp⟩
  | l :: rest => by
    obtain ⟨N, hN⟩ := links_depth_bound depth rest
    refine ⟨max N (depth l.Hash + 1), fun l' hl' => ?_⟩
    rcases List.mem_cons.mp hl' with h | h
    · subst h; exact lt_of_lt_of_le (Nat.lt_succ_self _) (le_max_right _ _)
    · exact lt_of_lt_of_le (hN l' h) (le_max_left _ _)

/-- C10 as amended: on a store in which every object the retrieval side can decode has
four bytes of `Data` for each link and in which links lead to keys of smaller depth,
`getFileByList`, `getFileByDir` (on objects with four bytes of `Data` for each link) and
`Hash2File` return a value once the fuel covers the depth: no slice is out of range and
the recursion comes back. -/
theorem retrieval_returns (E : Codec) (store : KVStore) (depth : Bytes → Nat)
    (hal : StoreAligned E store) (hrk : StoreRanked E store depth) :
    (∀ obj : Object, TagRoom obj →
      ∃ fuel₀, ∀ fuel, fuel₀ ≤ fuel → ∃ r, getFileByList E fuel obj store = .ok r) ∧
    (∀ (obj : Object) (pathArr : List String) (cur : Nat), TagRoom obj →
      ∃ fuel₀, ∀ fuel, fuel₀ ≤ fuel → ∃ r, getFileByDir E fuel obj pathArr cur store = .ok r) ∧
    (∀ (hash : Bytes) (path : String) (hp : HashPool),
      ∃ fuel₀, ∀ fuel, fuel₀ ≤ fuel → ∃ r, Hash2File E fuel store hash path hp = .ok r) := by
  refine ⟨fun obj hroom => ?_, fun obj pathArr cur hroom => ?_, fun hash path hp => ?_⟩
  · obtain ⟨N, hN⟩ := links_depth_bound depth obj.Links
    refine ⟨N + 1, fun fuel hf => ?_⟩
    obtain ⟨f, rfl⟩ : ∃ f, fuel = f + 1 := ⟨fuel - 1, by omega⟩
    exact getFileByList_ok E store depth hal hrk f obj hroom
      (fun l hl => lt_of_lt_of_le (hN l hl) (by omega))
  · obtain ⟨N, hN⟩ := links_depth_bound depth obj.Links
    refine ⟨N + 1, fun fuel hf => ?_⟩
    obtain ⟨f, rfl⟩ : ∃ f, fuel = f + 1 := ⟨fuel - 1, by omega⟩
    exact getFileByDir_ok E store depth hal hrk f pathArr _ cur rfl obj hroom
      (fun l hl => lt_of_lt_of_le (hN l hl) (by omega))
  · refine ⟨depth hash + 1, fun fuel hf => ?_⟩
    obtain ⟨f, rfl⟩ : ∃ f, fuel = f + 1 := ⟨fuel - 1, by omega⟩
    unfold Hash2File
    dsimp only
    split
    · exact getFileByDir_ok E store depth hal hrk f _ _ 1 rfl _ (hal hash)
        (fun l hl => lt_of_lt_of_le (hrk hash l hl) (by omega))
    · exact ⟨_, rfl⟩

theorem unaryUnmarshal_nil : unaryCodec.jsonUnmarshal [] = { Links := [], Data := [] } := by
  simp [unaryCodec, unaryUnmarshal, objDecode]

theorem Get_single (k v key : Bytes) :
    KVStore.Get [(k, v)] key = if k = key then some v else none := by
  simp [KVStore.Get]

/-- What the retrieval side decodes from a store with one serialized object. -/
theorem single_obj (E : Codec) (hcodec : ∀ o, E.jsonUnmarshal (E.jsonMarshal o) = o)
    (k : Bytes) (obj : Object) (key : Bytes) :
    binaryToObj E (KVStore.Get [(k, E.jsonMarshal obj)] key)
      = if k = key then obj else E.jsonUnmarshal [] := by
  rw [Get_single]
  by_cases h : k = key
  · rw [if_pos h, if_pos h, binaryToObj, Option.getD_some, hcodec]
  · rw [if_neg h, if_neg h, binaryToObj, Option.getD_none]

theorem single_aligned (E : Codec) (hcodec : ∀ o, E.jsonUnmarshal (E.jsonMarshal o) = o)
    (hnil : E.jsonUnmarshal [] = { Links := [], Data := [] })
    (k : Bytes) (obj : Object) (hobj : TagRoom obj) :
    StoreAligned E [(k, E.jsonMarshal obj)] := by
  intro key
  rw [single_obj E hcodec, hnil]
  by_cases h : k = key
  · rw [if_pos h]; exact hobj
  · rw [if_neg h]; exact Nat.le_refl _

theorem single_ranked (E : Codec) (hcodec : ∀ o, E.jsonUnmarshal (E.jsonMarshal o) = o)
    (hnil : E.jsonUnmarshal [] = { Links := [], Data := [] })
    (k : Bytes) (obj : Object) (depth : Bytes → Nat)
    (hd : ∀ l ∈ obj.Links, depth l.Hash < depth k) :
    StoreRanked E [(k, E.jsonMarshal obj)] depth := by
  intro key l hl
  rw [single_obj E hcodec, hnil] at hl
  by_cases h : k = key
  · rw [if_pos h] at hl
    rw [← h]
    exact hd l hl
  · rw [if_neg h] at hl
    exact absurd hl (List.not_mem_nil l)

theorem goodStore_aligned : StoreAligned unaryCodec goodStore :=
  single_aligned unaryCodec unary_roundtrip unaryUnmarshal_nil (goBytes "r") goodObject
    (by show STEP * goodObject.Links.length ≤ goodObject.Data.length; decide)

theorem goodStore_ranked : StoreRanked unaryCodec goodStore goodDepth :=
  single_ranked unaryCodec unary_roundtrip unaryUnmarshal_nil (goBytes "r") goodObject goodDepth
    (by decide)

theorem retrieval_returns_witness :
    StoreAligned unaryCodec goodStore ∧ StoreRanked unaryCodec goodStore goodDepth ∧
    (∀ obj : Object, TagRoom obj →
      ∃ fuel₀, ∀ fuel, fuel₀ ≤ fuel → ∃ r, getFileByList unaryCodec fuel obj goodStore = .ok r) ∧
    (∀ (obj : Object) (pathArr : List String) (cur : Nat), TagRoom obj →
      ∃ fuel₀, ∀ fuel, fuel₀ ≤ fuel →
        ∃ r, getFileByDir unaryCodec fuel obj pathArr cur goodStore = .ok r) ∧
    (∀ (hash : Bytes) (path : String) (hp : HashPool),
      ∃ fuel₀, ∀ fuel, fuel₀ ≤ fuel →
        ∃ r, Hash2File unaryCodec fuel goodStore hash path hp = .ok r) :=
  ⟨goodStore_aligned, goodStore_ranked,
    retrieval_returns unaryCodec goodStore goodDepth goodStore_aligned goodStore_ranked⟩

/-- An object with a link and a `Data` of capacity below four makes the first slice
expression of either loop out of range. -/
theorem misaligned_out_of_range (E : Codec)
    (hcodec : ∀ o, E.jsonUnmarshal (E.jsonMarshal o) = o) (k : Bytes) (obj : Object)
    (store : KVStore) (l : Link) (rest : List Link) (hlinks : obj.Links = l :: rest)
    (hdata : obj.Data.length + (E.slack obj.Data).length < 4) :
    (∀ (fuel : Nat) (hp : HashPool) (path : String), 1 < (stringsSplit path).length →
      Hash2File E fuel ((k, E.jsonMarshal obj) :: store) k path hp = .error .outOfRange) ∧
    (∀ (fuel : Nat) (pathArr : List String) (cur : Nat), cur < pathArr.length →
      getFileByDir E fuel obj pathArr cur store = .error .outOfRange) ∧
    (∀ fuel : Nat, getFileByList E (fuel + 1) obj store = .error .outOfRange) := by
  have hdir : ∀ (store : KVStore) (fuel : Nat) (pathArr : List String) (cur : Nat),
      cur < pathArr.length →
      getFileByDir E fuel obj pathArr cur store = .error .outOfRange := by
    intro store fuel pathArr cur hc
    rw [getFileByDir_lt E fuel obj pathArr cur store hc, hlinks, dirLoop,
      if_neg (by rw [STEP]; omega)]
  refine ⟨fun fuel hp path hlen => ?_, hdir store, fun fuel => ?_⟩
  · rw [Hash2File]
    dsimp only
    rw [KVStore.Has, Get_cons_self, Option.isSome_some, if_pos rfl, binaryToObj,
      Option.getD_some, hcodec]
    exact hdir _ fuel _ 1 hlen
  · rw [getFileByList, hlinks, listLoop, if_neg (by rw [STEP]; omega)]

/-- C10 (no out-of-bounds access in retrieval), the counterexample: on a store that
holds, under the key `r`, a composite with one link and a nil `Data` (no tag bytes,
capacity 0), `Hash2File`, `getFileByDir` and `getFileByList` end in a slice expression
out of range. -/
theorem retrieval_out_of_range :
    (∀ (fuel : Nat) (hp : HashPool),
      Hash2File unaryCodec fuel badStore (goBytes "r") (joinPath ["x", "a"]) hp
        = .error .outOfRange) ∧
    (∀ fuel : Nat, getFileByDir unaryCodec fuel badObject ["a"] 0 badStore
      = .error .outOfRange) ∧
    (∀ fuel : Nat, getFileByList unaryCodec (fuel + 1) badObject badStore
      = .error .outOfRange) := by
  have hsplit : stringsSplit (joinPath ["x", "a"]) = ["x", "a"] :=
    stringsSplit_joinPath _ (List.cons_ne_nil _ _) (by decide)
  have h1 := misaligned_out_of_range unaryCodec unary_roundtrip (goBytes "r") badObject []
    _ _ rfl (by decide)
  have h2 := misaligned_out_of_range unaryCodec unary_roundtrip (goBytes "r") badObject badStore
    _ _ rfl (by decide)
  exact ⟨fun fuel hp => h1.1 fuel hp _ (by rw [hsplit]; decide),
    fun fuel => h2.2.1 fuel ["a"] 0 (by decide), h2.2.2⟩

/-- Within the capacity the run goes on: when the backing array of `Data` holds four more
bytes, the object with one link and no tag bytes is walked without a slice out of range;
`getFileByDir` compares the name and returns nil, `getFileByList` reads the tag `blob`
from the backing array and returns the value under the link. -/
theorem within_capacity_returns :
    (∀ (fuel : Nat) (store : KVStore),
      getFileByDir roomyCodec fuel badObject ["b"] 0 store = .ok none) ∧
    (∀ fuel : Nat,
      getFileByList roomyCodec (fuel + 1) badObject [(goBytes "x", goBytes "hello")]
        = .ok (goBytes "hello")) := by
  refine ⟨fun fuel store => ?_, fun fuel => ?_⟩
  · rw [getFileByDir_lt roomyCodec fuel badObject ["b"] 0 store (by decide), badObject, dirLoop,
      if_pos (by decide)]
    dsimp only
    rw [if_pos (by decide)]
    rfl
  · rw [getFileByList, badObject, listLoop, if_pos (by decide)]
    dsimp only
    rw [if_pos (by decide), Get_cons_self]
    rfl

/-- A list that links to its own key under a tag other than `"blob"`: `getFileByList`
does not return, however much fuel it gets. -/
theorem self_link_no_return (E : Codec) (hcodec : ∀ o, E.jsonUnmarshal (E.jsonMarshal o) = o)
    (k : Bytes) (name : String) (size : Int) (tag : Bytes) (htag : tag.length = 4)
    (hne : tag ≠ goBytes BLOB) :
    ∀ fuel : Nat, getFileByList E fuel { Links := [⟨name, k, size⟩], Data := tag }
      [(k, E.jsonMarshal { Links := [⟨name, k, size⟩], Data := tag })] = .error .noReturn
  | 0 => rfl
  | fuel + 1 => by
    have ih := self_link_no_return E hcodec k name size tag htag hne fuel
    have hslice : slice (tag ++ E.slack tag) 0 (0 + STEP) = tag := by
      rw [slice_append_of_le _ _ _ _ (by rw [STEP]; omega), slice, List.drop_zero,
        List.take_of_length_le (by rw [STEP]; omega)]
    rw [getFileByList, listLoop,
      if_pos (by show 0 + STEP ≤ tag.length + (E.slack tag).length; rw [STEP]; omega)]
    dsimp only
    rw [hslice, if_neg hne, Get_cons_self, binaryToObj, Option.getD_some, hcodec, ih]

/-- On the store `loopStore`, in which a list links to its own key, `getFileByList`
does not return, however much fuel it gets. -/
theorem getFileByList_cycle (fuel : Nat) :
    getFileByList unaryCodec fuel loopObject loopStore = .error .noReturn :=
  self_link_no_return unaryCodec unary_roundtrip (goBytes "r") "a" 0 (goBytes "list")
    (by decide) (by decide) fuel

/-! ### The chunks of a file -/

theorem tagBytes_replicate_succ (t : String) (k : Nat) :
    tagBytes (List.replicate (k + 1) t) = goBytes t ++ tagBytes (List.replicate k t) := by
  rw [List.replicate_succ]; rfl

/-- The closed form of the loop at `hight == 1`: one link tagged `"blob"` and one write for
each chunk. -/
theorem blobLoop_chunks (E : Codec) (bytes : Bytes) :
    ∀ (n : Nat) (links : Object) (lenData : Nat) (W : KVStore) (seedId : Nat),
      blobLoop E bytes n links lenData W seedId
        = ({ Links := links.Links ++ (chunks bytes n seedId).map (leafLink E),
             Data := links.Data ++ tagBytes (List.replicate (chunks bytes n seedId).length "blob") },
           lenData + ((chunks bytes n seedId).map List.length).sum,
           ((chunks bytes n seedId).map (leafWrite E)).reverse ++ W) := by
  intro n
  induction n with
  | zero =>
    intro links lenData W seedId
    simp [blobLoop, chunks, tagBytes]
  | succ n ih =>
    intro links lenData W seedId
    rw [blobLoop, chunks]
    by_cases hend : seedId + 256 * 1024 ≥ bytes.length
    · rw [if_pos hend, if_pos hend]
      simp [leafLink, leafWrite, digest, KVStore.Put, tagBytes]
    · rw [if_neg hend, if_neg hend, ih]
      simp only [List.map_cons, List.length_cons, tagBytes_replicate_succ, List.sum_cons,
        List.reverse_cons, List.append_assoc, List.singleton_append, leafLink, leafWrite,
        digest, KVStore.Put, Nat.add_assoc]

theorem chunk_eq_take (bytes : Bytes) (seedId : Nat) :
    slice bytes seedId
        (if bytes.length < seedId + 256 * 1024 then bytes.length else seedId + 256 * 1024)
      = (bytes.drop seedId).take (256 * 1024) := by
  rw [slice, List.drop_take]
  by_cases h : bytes.length < seedId + 256 * 1024
  · rw [if_pos h, List.take_of_length_le (by rw [List.length_drop]),
      List.take_of_length_le (by rw [List.length_drop]; omega)]
  · rw [if_neg h]
    congr 1
    omega

/-- The chunks, put end to end, are the bytes from `seedId` on, up to `n` chunk sizes. -/
theorem chunks_flatten (bytes : Bytes) :
    ∀ (n seedId : Nat), (chunks bytes n seedId).flatten
      = (bytes.drop seedId).take (n * (256 * 1024)) := by
  intro n
  induction n with
  | zero => intro seedId; simp [chunks]
  | succ n ih =>
    intro seedId
    rw [chunks, List.flatten_cons, chunk_eq_take]
    have hsplit : (n + 1) * (256 * 1024) = 256 * 1024 + n * (256 * 1024) := by ring
    rw [hsplit, List.take_add]
    congr 1
    by_cases hend : seedId + 256 * 1024 ≥ bytes.length
    · rw [if_pos hend, List.flatten_nil, List.drop_drop,
        List.drop_of_length_le (by omega), List.take_nil]
    · rw [if_neg hend, ih, List.drop_drop]

theorem chunks_ne_nil (bytes : Bytes) (n seedId : Nat) : chunks bytes (n + 1) seedId ≠ [] := by
  rw [chunks]; exact List.cons_ne_nil _ _

theorem chunks_length_le (bytes : Bytes) : ∀ (n seedId : Nat), (chunks bytes n seedId).length ≤ n := by
  intro n
  induction n with
  | zero => intro seedId; simp [chunks]
  | succ n ih =>
    intro seedId
    rw [chunks, List.length_cons]
    split
    · simp
    · have := ih (seedId + 256 * 1024); omega

theorem sum_length_eq_flatten (ds : List Bytes) : (ds.map List.length).sum = ds.flatten.length := by
  exact (List.length_flatten ds).symm

/-- The closed form of `dfsForStoreFile` at `hight == 1`, on an offset from which more
than one chunk is left. -/
theorem dfsForStoreFile_one (E : Codec) (file : File) (s : KVStore) (seedId : Nat)
    (h : HashHandle) (hs : seedId + 256 * 1024 < file.Bytes.length) :
    dfsForStoreFile E 1 file s seedId h
      = .ok (leavesObject E (chunks file.Bytes 4096 seedId),
          ((file.Bytes.drop seedId).take (4096 * (256 * 1024))).length,
          ((digest E (leavesObject E (chunks file.Bytes 4096 seedId)),
              E.jsonMarshal (leavesObject E (chunks file.Bytes 4096 seedId)))
            :: ((chunks file.Bytes 4096 seedId).map (leafWrite E)).reverse) ++ s) := by
  rw [dfsForStoreFile, if_neg (by omega), blobLoop_chunks, sum_length_eq_flatten,
    chunks_flatten, Nat.zero_add]
  rfl

/-! ### The loop of `getFileByList` -/

/-- One iteration of the loop of `getFileByList` at a link whose tag slice is in range. -/
theorem listLoop_cons (E : Codec) (store : KVStore) (self : Object → Except Fault Bytes)
    (Data : Bytes) (l : Link) (rest : List Link) (index : Nat) (ans : Bytes)
    (hr : index + 4 ≤ Data.length) :
    listLoop E store self Data (l :: rest) index ans =
      if slice Data index (index + 4) = goBytes BLOB then
        listLoop E store self Data rest (index + 4) (ans ++ (store.Get l.Hash).getD [])
      else
        match self (binaryToObj E (store.Get l.Hash)) with
        | .error e => .error e
        | .ok tmp => listLoop E store self Data rest (index + 4) (ans ++ tmp) := by
  rw [listLoop]
  simp only [STEP]
  rw [slice_append_of_le _ _ _ _ hr]
  exact if_pos (by omega)

theorem tags_room (done : List String) (t : String) (rest : List String)
    (h4 : ∀ t ∈ done, (goBytes t).length = 4) (ht : (goBytes t).length = 4) :
    4 * done.length + 4 ≤ (tagBytes (done ++ t :: rest)).length := by
  rw [tagBytes_append, List.length_append, tagBytes_length done h4]
  have : tagBytes (t :: rest) = goBytes t ++ tagBytes rest := rfl
  rw [this, List.length_append, ht]
  omega

theorem snoc_tags (done : List String) (t : String)
    (h4 : ∀ t ∈ done, (goBytes t).length = 4) (ht : (goBytes t).length = 4) :
    ∀ u ∈ done ++ [t], (goBytes u).length = 4 := by
  intro u hu
  rcases List.mem_append.mp hu with h | h
  · exact h4 u h
  · rw [List.mem_singleton.mp h]; exact ht

/-- The loop over links that are all tagged `"blob"` and whose payloads the store holds
appends the payloads in order. -/
theorem listLoop_blobs (E : Codec) (store : KVStore) (self : Object → Except Fault Bytes) :
    ∀ (ds : List Bytes) (done : List String) (ans : Bytes),
      (∀ t ∈ done, (goBytes t).length = 4) →
      (∀ d ∈ ds, store.Get (digest E { Links := [], Data := d }) = some d) →
      listLoop E store self (tagBytes (done ++ List.replicate ds.length "blob"))
          (ds.map (leafLink E)) (4 * done.length) ans
        = .ok (ans ++ ds.flatten)
  | [], done, ans, _, _ => by simp [listLoop]
  | d :: ds, done, ans, h4, hget => by
    have hb : (goBytes "blob").length = 4 := by decide
    have hB : goBytes "blob" = goBytes BLOB := rfl
    have ih := listLoop_blobs E store self ds (done ++ ["blob"]) (ans ++ d)
      (snoc_tags done "blob" h4 hb) (fun d' hd' => hget d' (List.mem_cons_of_mem _ hd'))
    rw [List.length_cons, List.replicate_succ, List.map_cons,
      listLoop_cons E store self _ _ _ _ _ (tags_room done "blob" _ h4 hb),
      tagBytes_slice done "blob" _ h4 hb, if_pos hB]
    have hg : store.Get (leafLink E d).Hash = some d := hget d (List.mem_cons_self _ _)
    rw [hg, Option.getD_some]
    have e1 : done ++ "blob" :: List.replicate ds.length "blob"
        = (done ++ ["blob"]) ++ List.replicate ds.length "blob" := by simp
    have e2 : 4 * done.length + 4 = 4 * (done ++ ["blob"]).length := by
      rw [List.length_append, List.length_singleton]; omega
    rw [e1, e2, ih, List.flatten_cons, List.append_assoc]

/-- The loop over `n` copies of one link tagged other than `"blob"` appends `n` copies of
what the recursive call returns for the child. -/
theorem listLoop_same (E : Codec) (store : KVStore) (self : Object → Except Fault Bytes)
    (l : Link) (t : String) (ht : (goBytes t).length = 4) (hne : goBytes t ≠ goBytes BLOB)
    (piece : Bytes) (hself : self (binaryToObj E (store.Get l.Hash)) = .ok piece) :
    ∀ (n : Nat) (done : List String) (ans : Bytes),
      (∀ t ∈ done, (goBytes t).length = 4) →
      listLoop E store self (tagBytes (done ++ List.replicate n t))
          (List.replicate n l) (4 * done.length) ans
        = .ok (ans ++ (List.replicate n piece).flatten)
  | 0, done, ans, _ => by simp [listLoop]
  | n + 1, done, ans, h4 => by
    have ih := listLoop_same E store self l t ht hne piece hself n (done ++ [t]) (ans ++ piece)
      (snoc_tags done t h4 ht)
    rw [List.replicate_succ, List.replicate_succ,
      listLoop_cons E store self _ _ _ _ _ (tags_room done t _ h4 ht),
      tagBytes_slice done t _ h4 ht, if_neg hne, hself]
    have e1 : done ++ t :: List.replicate n t = (done ++ [t]) ++ List.replicate n t := by simp
    have e2 : 4 * done.length + 4 = 4 * (done ++ [t]).length := by
      rw [List.length_append, List.length_singleton]; omega
    simp only
    rw [e1, e2, ih, List.replicate_succ, List.flatten_cons, List.append_assoc]

/-- `getFileByList` on a composite of leaves the store holds returns the leaves end to
end. -/
theorem getFileByList_leaves (E : Codec) (store : KVStore) (ds : List Bytes) (fuel : Nat)
    (hget : ∀ d ∈ ds, store.Get (digest E { Links := [], Data := d }) = some d) :
    getFileByList E (fuel + 1) (leavesObject E ds) store = .ok ds.flatten := by
  have h := listLoop_blobs E store (fun curObj => getFileByList E fuel curObj store) ds [] []
    (by simp) hget
  rw [getFileByList]
  exact h

/-- `getFileByList` on a composite of `n` links to one child tagged `"link"`, the child
being in the store, returns `n` times what it returns on the child. -/
theorem getFileByList_copies (E : Codec) (hcodec : ∀ o, E.jsonUnmarshal (E.jsonMarshal o) = o)
    (store : KVStore) (child : Object) (lens n fuel : Nat) (piece : Bytes)
    (hget : store.Get (digest E child) = some (E.jsonMarshal child))
    (hchild : getFileByList E fuel child store = .ok piece) :
    getFileByList E (fuel + 1) (copiesObject E child lens n) store
      = .ok (List.replicate n piece).flatten := by
  have h := listLoop_same E store (fun curObj => getFileByList E fuel curObj store)
    { Name := "", Hash := digest E child, Size := lens } "link" (by decide) (by decide) piece
    (by
      show getFileByList E fuel (binaryToObj E (store.Get (digest E child))) store = .ok piece
      rw [hget, binaryToObj, Option.getD_some, hcodec, hchild]) n [] [] (by simp)
  rw [getFileByList]
  exact h

/-! ### Files of 4096 chunks and more: two levels -/

theorem heightLoop_two (n : Nat) (hlo : 4096 ≤ n) (hhi : n < 4096 * 4096) :
    heightLoop 0 n = 2 := by
  obtain ⟨k, hk1, hk, hlow, hhigh⟩ := heightLoop_spec n 0 (by omega)
  rw [Nat.zero_add] at hk
  rw [hk]
  match k, hk1, hlow, hhigh with
  | 1, _, _, hhigh => rw [pow_one] at hhigh; omega
  | 2, _, _, _ => rfl
  | j + 3, _, hlow, _ =>
    have h2 : 4096 ^ 2 ≤ 4096 ^ (j + 3 - 1) := Nat.pow_le_pow_right (by norm_num) (by omega)
    have h3 : (4096 : Nat) ^ 2 = 4096 * 4096 := by norm_num
    omega

theorem payloadLog_cons {E : Codec} {W : KVStore} (o : Object) (hW : PayloadLog E W) :
    PayloadLog E ((digest E o, payload E o) :: W) := by
  intro kv hkv
  rcases List.mem_cons.mp hkv with h | h
  · exact ⟨o, h⟩
  · exact hW kv h

theorem payloadLog_append {E : Codec} {W W' : KVStore} (hW : PayloadLog E W)
    (hW' : PayloadLog E W') : PayloadLog E (W ++ W') := by
  intro kv hkv
  rcases List.mem_append.mp hkv with h | h
  · exact hW kv h
  · exact hW' kv h

theorem payloadLog_replicate {E : Codec} {W : KVStore} (hW : PayloadLog E W) (n : Nat) :
    PayloadLog E (List.replicate n W).flatten := by
  intro kv hkv
  obtain ⟨l, hl, hkvl⟩ := List.mem_flatten.mp hkv
  rw [(List.mem_replicate.mp hl).2] at hkvl
  exact hW kv hkvl

theorem payloadLog_leaves (E : Codec) (ds : List Bytes) :
    PayloadLog E (ds.map (leafWrite E)).reverse := by
  intro kv hkv
  obtain ⟨d, -, rfl⟩ := List.mem_map.mp (List.mem_reverse.mp hkv)
  exact ⟨{ Links := [], Data := d }, by rw [payload_of_leaf E _ rfl]; rfl⟩

/-- Under a digest without collision a log that follows the persistence convention
writes no key with two values. -/
theorem NoClash_of_payloadLog {E : Codec} {W : KVStore} (hW : PayloadLog E W)
    (hinj : ∀ o₁ o₂ : Object, digest E o₁ = digest E o₂ → o₁ = o₂) : NoClash W := by
  intro k v₁ v₂ h₁ h₂
  obtain ⟨o₁, e₁⟩ := hW _ h₁
  obtain ⟨o₂, e₂⟩ := hW _ h₂
  obtain ⟨hk₁, hv₁⟩ := Prod.mk.inj e₁
  obtain ⟨hk₂, hv₂⟩ := Prod.mk.inj e₂
  rw [hv₁, hv₂, hinj o₁ o₂ (by rw [← hk₁, ← hk₂])]

/-- The closed form of `dfsForStoreFile` at `hight == 2` and offset 0 on a file of more
than one chunk: 4096 links to the composite over the first 4096 chunks. -/
theorem dfsForStoreFile_two (E : Codec) (file : File) (s : KVStore) (h : HashHandle)
    (hs : 256 * 1024 < file.Bytes.length) :
    dfsForStoreFile E 2 file s 0 h
      = .ok (copiesObject E (leavesObject E (chunks file.Bytes 4096 0))
            (file.Bytes.take (4096 * (256 * 1024))).length 4096,
          4096 * (file.Bytes.take (4096 * (256 * 1024))).length,
          ((digest E (copiesObject E (leavesObject E (chunks file.Bytes 4096 0))
                (file.Bytes.take (4096 * (256 * 1024))).length 4096),
              E.jsonMarshal (copiesObject E (leavesObject E (chunks file.Bytes 4096 0))
                (file.Bytes.take (4096 * (256 * 1024))).length 4096))
            :: (List.replicate 4096
                ((digest E (leavesObject E (chunks file.Bytes 4096 0)),
                    E.jsonMarshal (leavesObject E (chunks file.Bytes 4096 0)))
                  :: ((chunks file.Bytes 4096 0).map (leafWrite E)).reverse)).flatten) ++ s) := by
  have hone : ∀ s', dfsForStoreFile E 1 file s' 0 h = _ :=
    fun s' => dfsForStoreFile_one E file s' 0 h (by omega)
  have hloop := linkLoop_same_child_init E
    (fun store seedId => dfsForStoreFile E 1 file store seedId h)
    file.Bytes.length 0 (by omega) _ _ _ hone 4096 s
  have hne : (leavesObject E (chunks file.Bytes 4096 0)).Links ≠ [] := by
    intro h0
    exact chunks_ne_nil file.Bytes 4095 0 (List.map_eq_nil_iff.mp h0)
  have htag : (if (leavesObject E (chunks file.Bytes 4096 0)).Links.isEmpty then "blob"
      else "link") = "link" := by
    rw [if_neg]
    rw [List.isEmpty_iff]
    exact hne
  rw [htag] at hloop
  rw [dfsForStoreFile, hloop, map_ok, List.drop_zero]
  simp only [putLinks, KVStore.Put, copiesObject, tagBytes, List.map_replicate, digest]
  rfl


theorem flatten_replicate_length {α : Type} (x : List α) (n : Nat) :
    (List.replicate n x).flatten.length = n * x.length := by
  induction n with
  | zero => simp
  | succ n ih => rw [List.replicate_succ, List.flatten_cons, List.length_append, ih]; ring

/-- `StoreFile` on a file of at least 4096 and fewer than 4096 * 4096 chunks: the root has
4096 links, all to the composite over the first 4096 chunks, and, when no key of the run
is written with two values, `getFileByList` on the root returns the first 4096 chunks
4096 times over. -/
theorem StoreFile_two_levels (E : Codec) (hcodec : ∀ o, E.jsonUnmarshal (E.jsonMarshal o) = o)
    (file : File) (s : KVStore) (h : HashHandle)
    (hlo : 4096 * 262144 ≤ file.Bytes.length)
    (hhi : file.Bytes.length ≤ (4096 * 4096 - 1) * 262144) :
    ∃ W : KVStore,
      StoreFile E s file h
        = .ok (copiesObject E (leavesObject E (chunks file.Bytes 4096 0))
            (file.Bytes.take (4096 * (256 * 1024))).length 4096, W ++ s) ∧
      PayloadLog E W ∧
      (NoClash W → ∀ fuel : Nat,
        getFileByList E (fuel + 2)
            (copiesObject E (leavesObject E (chunks file.Bytes 4096 0))
              (file.Bytes.take (4096 * (256 * 1024))).length 4096) (W ++ s)
          = .ok (List.replicate 4096 (file.Bytes.take (4096 * (256 * 1024)))).flatten) := by
  have hne : (leavesObject E (chunks file.Bytes 4096 0)).Links ≠ [] := by
    intro h0
    exact chunks_ne_nil file.Bytes 4095 0 (List.map_eq_nil_iff.mp h0)
  have hcne : (copiesObject E (leavesObject E (chunks file.Bytes 4096 0))
      (file.Bytes.take (4096 * (256 * 1024))).length 4096).Links ≠ [] := by
    show List.replicate 4096 _ ≠ []
    rw [List.replicate_succ]
    exact List.cons_ne_nil _ _
  refine ⟨((digest E (copiesObject E (leavesObject E (chunks file.Bytes 4096 0))
        (file.Bytes.take (4096 * (256 * 1024))).length 4096),
      E.jsonMarshal (copiesObject E (leavesObject E (chunks file.Bytes 4096 0))
        (file.Bytes.take (4096 * (256 * 1024))).length 4096))
      :: (List.replicate 4096
          ((digest E (leavesObject E (chunks file.Bytes 4096 0)), E.jsonMarshal (leavesObject E (chunks file.Bytes 4096 0)))
            :: ((chunks file.Bytes 4096 0).map (leafWrite E)).reverse)).flatten), ?_, ?_, ?_⟩
  · unfold StoreFile
    rw [if_neg (by omega)]
    dsimp only
    rw [heightLoop_two _ (by omega) (by omega), dfsForStoreFile_two E file s h (by omega),
      map_ok]
  · have hleaf := payloadLog_leaves E (chunks file.Bytes 4096 0)
    have hchild : PayloadLog E
        ((digest E (leavesObject E (chunks file.Bytes 4096 0)),
            E.jsonMarshal (leavesObject E (chunks file.Bytes 4096 0)))
          :: ((chunks file.Bytes 4096 0).map (leafWrite E)).reverse) := by
      rw [← payload_of_links E _ hne]
      exact payloadLog_cons _ hleaf
    rw [← payload_of_links E _ hcne]
    exact payloadLog_cons _ (payloadLog_replicate hchild 4096)
  · intro hclash fuel
    have hmemchild : (digest E (leavesObject E (chunks file.Bytes 4096 0)),
        E.jsonMarshal (leavesObject E (chunks file.Bytes 4096 0)))
        ∈ (List.replicate 4096
            ((digest E (leavesObject E (chunks file.Bytes 4096 0)),
                E.jsonMarshal (leavesObject E (chunks file.Bytes 4096 0)))
              :: ((chunks file.Bytes 4096 0).map (leafWrite E)).reverse)).flatten := by
      rw [List.replicate_succ, List.flatten_cons]
      exact List.mem_append_left _ (List.mem_cons_self _ _)
    have hmemleaf : ∀ d ∈ chunks file.Bytes 4096 0, leafWrite E d
        ∈ (List.replicate 4096
            ((digest E (leavesObject E (chunks file.Bytes 4096 0)),
                E.jsonMarshal (leavesObject E (chunks file.Bytes 4096 0)))
              :: ((chunks file.Bytes 4096 0).map (leafWrite E)).reverse)).flatten := by
      intro d hd
      rw [List.replicate_succ, List.flatten_cons]
      exact List.mem_append_left _ (List.mem_cons_of_mem _
        (List.mem_reverse.mpr (List.mem_map_of_mem _ hd)))
    have hflat : (chunks file.Bytes 4096 0).flatten = file.Bytes.take (4096 * (256 * 1024)) := by
      rw [chunks_flatten, List.drop_zero]
    have hres := getFileByList_copies E hcodec _ _
      (file.Bytes.take (4096 * (256 * 1024))).length 4096 (fuel + 1) _
      (Get_of_mem _ s _ _ hclash (List.mem_cons_of_mem _ hmemchild))
      (getFileByList_leaves E _ _ fuel (fun d hd =>
        Get_of_mem _ s _ _ hclash (List.mem_cons_of_mem _ (hmemleaf d hd))))
    rw [hflat] at hres
    exact hres

/-- C1 (round-trip of a file tree), the failing input: for a file of exactly 4096 chunks
of zero bytes `StoreFile` returns a root with links, and `getFileByList` on that root and
the resulting store returns the content 4096 times over, which is not the content. -/
theorem StoreFile_roundtrip_fails :
    ∃ (root : Object) (store' : KVStore),
      StoreFile unaryCodec [] ⟨"big.bin", 4096 * 262144, zeroBytes (4096 * 262144)⟩ ⟨[]⟩
        = .ok (root, store') ∧
      root.Links ≠ [] ∧
      (∀ fuel : Nat, getFileByList unaryCodec (fuel + 2) root store'
        = .ok (List.replicate 4096 (zeroBytes (4096 * 262144))).flatten) ∧
      (List.replicate 4096 (zeroBytes (4096 * 262144))).flatten ≠ zeroBytes (4096 * 262144) := by
  have hlen : (⟨"big.bin", 4096 * 262144, zeroBytes (4096 * 262144)⟩ : File).Bytes.length
      = 4096 * 262144 := zeroBytes_length _
  obtain ⟨W, hrun, hlog, hget⟩ := StoreFile_two_levels unaryCodec unary_roundtrip
    ⟨"big.bin", 4096 * 262144, zeroBytes (4096 * 262144)⟩ [] ⟨[]⟩
    (by rw [hlen]) (by rw [hlen]; omega)
  have htake : (⟨"big.bin", 4096 * 262144, zeroBytes (4096 * 262144)⟩ : File).Bytes.take
      (4096 * (256 * 1024)) = zeroBytes (4096 * 262144) :=
    List.take_of_length_le (le_of_eq (by rw [hlen]))
  rw [htake] at hrun hget
  refine ⟨_, _, hrun, ?_, hget (NoClash_of_payloadLog hlog unary_digest_injective), ?_⟩
  · show List.replicate 4096 _ ≠ []
    rw [List.replicate_succ]
    exact List.cons_ne_nil _ _
  · intro heq
    have hl := congrArg List.length heq
    rw [flatten_replicate_length, zeroBytes_length] at hl
    omega

/-! ### The link scan of `getFileByDir` against the reference scan -/

theorem dirLoop_eq_referenceScan (E : Codec) (store : KVStore) (fuel : Nat)
    (self : Object → Except Fault (Option Bytes)) (Data : Bytes) (name : String) :
    ∀ (links : List Link) (index : Nat), index + STEP * links.length ≤ Data.length →
      dirLoop E store fuel self Data name links index
        = referenceScan E store fuel self name (tagged Data links index)
  | [], _, _ => rfl
  | l :: rest, index, hroom => by
    have hlen : STEP * (l :: rest).length = STEP * rest.length + STEP := by
      rw [List.length_cons]; ring
    rw [hlen] at hroom
    have ih := dirLoop_eq_referenceScan E store fuel self Data name rest (index + STEP)
      (by omega)
    have h4 : index + 4 ≤ Data.length := by rw [STEP] at hroom; omega
    rw [dirLoop_cons E store fuel self Data name l rest index h4, tagged, referenceScan]
    rw [STEP] at ih ⊢
    have hB : goBytes "blob" = goBytes BLOB := rfl
    have hL : goBytes "list" = goBytes LIST := rfl
    have hT : goBytes "tree" = goBytes TREE := rfl
    rw [hB, hL, hT]
    by_cases hn : l.Name ≠ name
    · rw [if_pos hn, if_pos hn, ih]
    · rw [if_neg hn, if_neg hn]
      by_cases hb : slice Data index (index + 4) = goBytes BLOB
      · have hnt : slice Data index (index + 4) ≠ goBytes TREE := by rw [hb]; decide
        rw [if_neg hnt, if_pos hb, if_pos hb]
      · by_cases hl : slice Data index (index + 4) = goBytes LIST
        · have hnt : slice Data index (index + 4) ≠ goBytes TREE := by rw [hl]; decide
          rw [if_neg hnt, if_neg hb, if_pos hl, if_neg hb, if_pos hl]
        · by_cases ht : slice Data index (index + 4) = goBytes TREE
          · rw [if_pos ht, if_neg hb, if_neg hl, if_pos ht, ih]
          · rw [if_neg ht, if_neg hb, if_neg hl, if_neg hb, if_neg hl, if_neg ht, ih]

/-- C13 (link scan semantics of `getFileByDir`): on every object with four bytes of
`Data` for each link, `getFileByDir` at an index inside the path returns what the
reference scan returns on the links paired with their tags, the recursion into a tree
child being `getFileByDir` at the next index; at an index past the end of the path it
returns nil. -/
theorem getFileByDir_eq_referenceScan (E : Codec) (fuel : Nat) (obj : Object)
    (pathArr : List String) (cur : Nat) (store : KVStore) (haligned : TagRoom obj) :
    (∀ hcur : cur < pathArr.length,
      getFileByDir E fuel obj pathArr cur store
        = referenceScan E store fuel
            (fun child => getFileByDir E fuel child pathArr (cur + 1) store)
            (pathArr.get ⟨cur, hcur⟩) (entriesOf obj)) ∧
    (pathArr.length ≤ cur → getFileByDir E fuel obj pathArr cur store = .ok none) := by
  refine ⟨fun hcur => ?_, getFileByDir_ge E fuel obj pathArr cur store⟩
  rw [getFileByDir_lt E fuel obj pathArr cur store hcur, entriesOf]
  exact dirLoop_eq_referenceScan E store fuel _ obj.Data _ obj.Links 0
    (by unfold TagRoom at haligned; omega)

theorem getFileByDir_eq_referenceScan_witness :
    TagRoom goodObject ∧
    getFileByDir unaryCodec 0 goodObject ["a"] 0 goodStore
      = referenceScan unaryCodec goodStore 0
          (fun child => getFileByDir unaryCodec 0 child ["a"] (0 + 1) goodStore)
          "a" (entriesOf goodObject) ∧
    getFileByDir unaryCodec 0 goodObject ["a"] 1 goodStore = .ok none :=
  ⟨by unfold TagRoom; decide,
    (getFileByDir_eq_referenceScan unaryCodec 0 goodObject ["a"] 0 goodStore
      (by unfold TagRoom; decide)).1 (by decide),
    (getFileByDir_eq_referenceScan unaryCodec 0 goodObject ["a"] 1 goodStore
      (by unfold TagRoom; decide)).2 (by decide)⟩

/-! ### Paths that name no entry -/

theorem dirLoop_no_match (E : Codec) (store : KVStore) (fuel : Nat)
    (self : Object → Except Fault (Option Bytes)) (Data : Bytes) (name : String) :
    ∀ (links : List Link) (index : Nat), index + STEP * links.length ≤ Data.length →
      (∀ l ∈ links, l.Name ≠ name) →
      dirLoop E store fuel self Data name links index = .ok none
  | [], _, _, _ => rfl
  | l :: rest, index, hroom, hn => by
    have hlen : STEP * (l :: rest).length = STEP * rest.length + STEP := by
      rw [List.length_cons]; ring
    rw [hlen] at hroom
    have ih := dirLoop_no_match E store fuel self Data name rest (index + STEP)
      (by omega) (fun l' hl' => hn l' (List.mem_cons_of_mem _ hl'))
    have h4 : index + 4 ≤ Data.length := by rw [STEP] at hroom; omega
    rw [STEP] at ih
    rw [dirLoop_cons E store fuel self Data name l rest index h4,
      if_pos (hn l (List.mem_cons_self _ _)), ih]

theorem dirObject_tagRoom (E : Codec) (kids : List Node) : TagRoom (dirObject E kids) := by
  have h := (dirObject_entries E kids).aligned.1
  unfold TagRoom
  rw [h, STEP]

/-- C12 (a non-existent path yields not-found), the failing input: the composite
`badObject` has one link, named `a`, and a nil `Data` (no tag bytes, capacity 0); the
component `b` equals the name of no link, and `getFileByDir` does not return nil: it ends
in a slice expression out of range, because the tag is sliced before the name is
compared. -/
theorem getFileByDir_no_match_out_of_range :
    badObject.Links ≠ [] ∧ (∀ l ∈ badObject.Links, l.Name ≠ "b") ∧
    (∀ (fuel : Nat) (store : KVStore),
      getFileByDir unaryCodec fuel badObject ["b"] 0 store = .error .outOfRange) ∧
    (∀ (fuel : Nat) (store : KVStore),
      getFileByDir unaryCodec fuel badObject ["b"] 0 store ≠ .ok none) := by
  have hrun : ∀ (fuel : Nat) (store : KVStore),
      getFileByDir unaryCodec fuel badObject ["b"] 0 store = .error .outOfRange := by
    intro fuel store
    rw [getFileByDir_lt unaryCodec fuel badObject ["b"] 0 store (by decide), badObject, dirLoop,
      if_neg (by decide)]
  refine ⟨by decide, by decide, hrun, fun fuel store => ?_⟩
  rw [hrun fuel store]
  exact fun h => by cases h

/-- Where a path that names no entry does yield not-found: `getFileByDir` returns nil on
every object when `cur` is past the end of the path array, and on every object with
four bytes of `Data` for each link when the component at `cur` equals the name of no
link; consequently `Hash2File`, on the address `Add` returned for a directory and the
store `Add` left, returns nil for every path whose second component names no entry of
the directory. -/
theorem getFileByDir_not_found (E : Codec)
    (hcodec : ∀ o, E.jsonUnmarshal (E.jsonMarshal o) = o) :
    (∀ (fuel : Nat) (obj : Object) (pathArr : List String) (cur : Nat) (store : KVStore),
      pathArr.length ≤ cur → getFileByDir E fuel obj pathArr cur store = .ok none) ∧
    (∀ (fuel : Nat) (obj : Object) (pathArr : List String) (cur : Nat) (store : KVStore)
      (hcur : cur < pathArr.length), TagRoom obj →
      (∀ l ∈ obj.Links, l.Name ≠ pathArr.get ⟨cur, hcur⟩) →
      getFileByDir E fuel obj pathArr cur store = .ok none) ∧
    (∀ (name : String) (size : Int) (kids : List Node) (s : KVStore) (h : HashHandle)
      (fuel : Nat) (path : String) (hp : HashPool),
      (∀ hlen : 1 < (stringsSplit path).length,
        ∀ kid ∈ kids, kid.Name ≠ (stringsSplit path).get ⟨1, hlen⟩) →
      ∃ (addr : Bytes) (store : KVStore),
        Add E s (.DIR name size kids) h = .ok (addr, store) ∧
        Hash2File E fuel store addr path hp = .ok none) := by
  have hmiss : ∀ (fuel : Nat) (obj : Object) (pathArr : List String) (cur : Nat)
      (store : KVStore) (hcur : cur < pathArr.length), TagRoom obj →
      (∀ l ∈ obj.Links, l.Name ≠ pathArr.get ⟨cur, hcur⟩) →
      getFileByDir E fuel obj pathArr cur store = .ok none := by
    intro fuel obj pathArr cur store hcur hroom hn
    rw [getFileByDir_lt E fuel obj pathArr cur store hcur]
    exact dirLoop_no_match E store fuel _ obj.Data _ obj.Links 0
      (by unfold TagRoom at hroom; omega) hn
  refine ⟨fun fuel obj pathArr cur store => getFileByDir_ge E fuel obj pathArr cur store,
    hmiss, ?_⟩
  intro name size kids s h fuel path hp hn
  refine ⟨_, _, Add_dir E name size kids s h, ?_⟩
  rw [Hash2File_built E hcodec name size kids s fuel path hp]
  by_cases hlen : 1 < (stringsSplit path).length
  · refine hmiss fuel _ _ 1 _ hlen (dirObject_tagRoom E kids) ?_
    intro l hl
    rw [dirObject] at hl
    obtain ⟨kid, hkid, rfl⟩ := List.mem_map.mp hl
    exact hn hlen kid hkid
  · exact getFileByDir_ge E fuel _ _ 1 _ (by omega)

theorem getFileByDir_not_found_witness :
    (∀ o, unaryCodec.jsonUnmarshal (unaryCodec.jsonMarshal o) = o) ∧
    getFileByDir unaryCodec 0 goodObject ["x", "b"] 1 goodStore = .ok none ∧
    getFileByDir unaryCodec 0 goodObject ["x", "b"] 2 goodStore = .ok none :=
  ⟨unary_roundtrip,
    (getFileByDir_not_found unaryCodec unary_roundtrip).2.1 0 goodObject ["x", "b"] 1
      goodStore (by decide) (by unfold TagRoom; decide) (by decide),
    (getFileByDir_not_found unaryCodec unary_roundtrip).1 0 goodObject ["x", "b"] 2
      goodStore (by decide)⟩

/-! ### Fetches that miss -/

theorem Get_cons_ne (k v key : Bytes) (s : KVStore) (h : k ≠ key) :
    KVStore.Get ((k, v) :: s) key = KVStore.Get s key := by
  rw [KVStore.Get, if_neg h]

theorem referenceScan_skip (E : Codec) (store : KVStore) (fuel : Nat)
    (descend : Object → Except Fault (Option Bytes)) (component : String)
    (rest : List (Link × Bytes)) :
    ∀ pre : List (Link × Bytes), (∀ e ∈ pre, e.1.Name ≠ component) →
      referenceScan E store fuel descend component (pre ++ rest)
        = referenceScan E store fuel descend component rest
  | [], _ => rfl
  | (l, t) :: pre, h => by
    rw [List.cons_append, referenceScan, if_pos (h (l, t) (List.mem_cons_self _ _))]
    exact referenceScan_skip E store fuel descend component rest pre
      (fun e he => h e (List.mem_cons_of_mem _ he))

theorem referenceScan_no_match (E : Codec) (store : KVStore) (fuel : Nat)
    (descend : Object → Except Fault (Option Bytes)) (component : String)
    (es : List (Link × Bytes)) (h : ∀ e ∈ es, e.1.Name ≠ component) :
    referenceScan E store fuel descend component es = .ok none := by
  have h1 := referenceScan_skip E store fuel descend component [] es h
  rw [List.append_nil] at h1
  rw [h1, referenceScan]

/-- At the first link that carries the component's name the walk does what the reference
scan does from that link on. -/
theorem getFileByDir_at_match (E : Codec) (fuel : Nat) (obj : Object)
    (pathArr : List String) (cur : Nat) (store : KVStore) (hcur : cur < pathArr.length)
    (hroom : TagRoom obj) (pre : List (Link × Bytes)) (l : Link) (tag : Bytes)
    (post : List (Link × Bytes)) (hent : entriesOf obj = pre ++ (l, tag) :: post)
    (hpre : ∀ e ∈ pre, e.1.Name ≠ pathArr.get ⟨cur, hcur⟩) :
    getFileByDir E fuel obj pathArr cur store
      = referenceScan E store fuel
          (fun child => getFileByDir E fuel child pathArr (cur + 1) store)
          (pathArr.get ⟨cur, hcur⟩) ((l, tag) :: post) := by
  rw [getFileByDir_lt E fuel obj pathArr cur store hcur,
    dirLoop_eq_referenceScan E store fuel _ obj.Data _ obj.Links 0
      (by unfold TagRoom at hroom; omega)]
  have h := referenceScan_skip E store fuel
    (fun child => getFileByDir E fuel child pathArr (cur + 1) store)
    (pathArr.get ⟨cur, hcur⟩) ((l, tag) :: post) pre hpre
  rw [← hent, entriesOf] at h
  exact h

theorem getFileByDir_zero (E : Codec) (fuel : Nat) (pathArr : List String) (cur : Nat)
    (store : KVStore) :
    getFileByDir E fuel { Links := [], Data := [] } pathArr cur store = .ok none := by
  by_cases h : cur < pathArr.length
  · rw [getFileByDir_lt E fuel _ pathArr cur store h]
    rfl
  · exact getFileByDir_ge E fuel _ pathArr cur store (by omega)

theorem getFileByList_zero (E : Codec) (fuel : Nat) (store : KVStore) :
    getFileByList E (fuel + 1) { Links := [], Data := [] } store = .ok [] := rfl

theorem Hash2File_root_miss (E : Codec) (fuel : Nat) (store : KVStore) (hash : Bytes)
    (path : String) (hp : HashPool) (hmiss : store.Get hash = none) :
    Hash2File E fuel store hash path hp = .ok none := by
  rw [Hash2File]
  dsimp only
  rw [KVStore.Has, hmiss]
  rfl

/-- C11 (a missing node yields not-found), amended: `Hash2File` returns nil when the
fetch of the root address misses; `getFileByDir`, on an object with four bytes of `Data`
for each link, returns nil when the first link that carries the component's name is
tagged `"blob"` and its fetch misses, and when that link is tagged `"tree"`, its fetch
misses and no later link carries the name; when that link is tagged `"list"` and its
fetch misses, the result is not nil: it is the empty byte sequence. -/
theorem miss_yields_not_found (E : Codec)
    (hnil : E.jsonUnmarshal [] = { Links := [], Data := [] }) :
    (∀ (fuel : Nat) (store : KVStore) (hash : Bytes) (path : String) (hp : HashPool),
      store.Get hash = none → Hash2File E fuel store hash path hp = .ok none) ∧
    (∀ (fuel : Nat) (obj : Object) (pathArr : List String) (cur : Nat) (store : KVStore)
      (hcur : cur < pathArr.length) (pre : List (Link × Bytes)) (l : Link) (tag : Bytes)
      (post : List (Link × Bytes)),
      TagRoom obj → entriesOf obj = pre ++ (l, tag) :: post →
      (∀ e ∈ pre, e.1.Name ≠ pathArr.get ⟨cur, hcur⟩) → l.Name = pathArr.get ⟨cur, hcur⟩ →
      store.Get l.Hash = none →
      (tag = goBytes "blob" → getFileByDir E fuel obj pathArr cur store = .ok none) ∧
      (tag = goBytes "tree" → (∀ e ∈ post, e.1.Name ≠ pathArr.get ⟨cur, hcur⟩) →
        getFileByDir E fuel obj pathArr cur store = .ok none) ∧
      (tag = goBytes "list" →
        getFileByDir E (fuel + 1) obj pathArr cur store = .ok (some []))) := by
  refine ⟨Hash2File_root_miss E, ?_⟩
  intro fuel obj pathArr cur store hcur pre l tag post hroom hent hpre hl hmiss
  have hzero : binaryToObj E (store.Get l.Hash) = { Links := [], Data := [] } := by
    rw [hmiss, binaryToObj, Option.getD_none, hnil]
  refine ⟨fun ht => ?_, fun ht hpost => ?_, fun ht => ?_⟩
  · rw [getFileByDir_at_match E fuel obj pathArr cur store hcur hroom pre l tag post hent hpre,
      referenceScan, if_neg (not_not.mpr hl), if_pos ht, hmiss]
  · have hb : tag ≠ goBytes "blob" := by rw [ht]; decide
    have hli : tag ≠ goBytes "list" := by rw [ht]; decide
    rw [getFileByDir_at_match E fuel obj pathArr cur store hcur hroom pre l tag post hent hpre,
      referenceScan, if_neg (not_not.mpr hl), if_neg hb, if_neg hli, if_pos ht, hzero, getFileByDir_zero]
    exact referenceScan_no_match E store fuel _ _ post hpost
  · have hb : tag ≠ goBytes "blob" := by rw [ht]; decide
    rw [getFileByDir_at_match E (fuel + 1) obj pathArr cur store hcur hroom pre l tag post hent
      hpre, referenceScan, if_neg (not_not.mpr hl), if_neg hb, if_pos ht, hzero,
      getFileByList_zero]
    rfl

theorem miss_yields_not_found_witness :
    unaryCodec.jsonUnmarshal [] = { Links := [], Data := [] } ∧
    Hash2File unaryCodec 0 [] (goBytes "r") "x" ⟨0⟩ = .ok none ∧
    getFileByDir unaryCodec 0 goodObject ["a"] 0 [] = .ok none :=
  ⟨unaryUnmarshal_nil,
    (miss_yields_not_found unaryCodec unaryUnmarshal_nil).1 0 [] (goBytes "r") "x" ⟨0⟩ rfl,
    ((miss_yields_not_found unaryCodec unaryUnmarshal_nil).2 0 goodObject ["a"] 0 []
      (by decide) [] ⟨"a", goBytes "x", 0⟩ (goBytes "blob") [] (by unfold TagRoom; decide)
      (by decide) (by simp) (by decide) rfl).1 rfl⟩

/-- A root with one link tagged `"list"`: `Hash2File` on a two-component path whose second
component is the link's name returns what `getFileByList` returns on the child, nil never. -/
theorem Hash2File_list_child (E : Codec) (hcodec : ∀ o, E.jsonUnmarshal (E.jsonMarshal o) = o)
    (store : KVStore) (r : Bytes) (root : Object) (l : Link) (first : String) (fuel : Nat)
    (hp : HashPool) (hget : store.Get r = some (E.jsonMarshal root))
    (hlinks : root.Links = [l]) (hdata : root.Data = goBytes LIST)
    (hfirst : Char.ofNat 92 ∉ first.data) (hname : Char.ofNat 92 ∉ l.Name.data) :
    Hash2File E fuel store r (joinPath [first, l.Name]) hp
      = (getFileByList E fuel (binaryToObj E (store.Get l.Hash)) store).map some := by
  have hsplit : stringsSplit (joinPath [first, l.Name]) = [first, l.Name] :=
    stringsSplit_joinPath _ (List.cons_ne_nil _ _) (by
      intro c hc
      rcases List.mem_cons.mp hc with rfl | hc
      · exact hfirst
      · rw [List.mem_singleton.mp hc]; exact hname)
  rw [Hash2File]
  dsimp only
  rw [KVStore.Has, hget, Option.isSome_some, if_pos rfl, binaryToObj, Option.getD_some, hcodec,
    hsplit, getFileByDir_lt E fuel root [first, l.Name] 1 store (by simp), hlinks, hdata,
    dirLoop_cons E store fuel _ (goBytes LIST) _ l [] 0 (by decide)]
  have hs : slice (goBytes LIST) 0 (0 + 4) = goBytes LIST := by decide
  have h1 : goBytes LIST ≠ goBytes TREE := by decide
  have h2 : goBytes LIST ≠ goBytes BLOB := by decide
  rw [hs, if_neg (not_not.mpr (by rfl)), if_neg h1, if_neg h2, if_pos rfl]

/-- A list of two chunks tagged `"blob"` of which the second is not in the store:
`getFileByList` returns the first chunk alone. -/
theorem getFileByList_missing_chunk (E : Codec) (store : KVStore) (obj : Object)
    (a b : Link) (d : Bytes) (fuel : Nat) (hlinks : obj.Links = [a, b])
    (hdata : obj.Data = goBytes "blobblob") (ha : store.Get a.Hash = some d)
    (hb : store.Get b.Hash = none) :
    getFileByList E (fuel + 1) obj store = .ok d := by
  have hs1 : slice (goBytes "blobblob") 0 (0 + 4) = goBytes BLOB := by decide
  have hs2 : slice (goBytes "blobblob") (0 + 4) (0 + 4 + 4) = goBytes BLOB := by decide
  rw [getFileByList, hlinks, hdata,
    listLoop_cons E store _ (goBytes "blobblob") a [b] 0 [] (by decide), hs1, if_pos rfl,
    listLoop_cons E store _ (goBytes "blobblob") b [] (0 + 4) _ (by decide), hs2, if_pos rfl,
    ha, hb, listLoop]
  simp

/-- C11 (a missing node yields not-found), the counterexample.  In `missStore` the root
under `r` has one link, named `a` and tagged `"list"`, whose key `l` is not in the store:
`Hash2File` returns the empty byte sequence, not nil.  In `partStore` the list under `l`
has two chunks of which the second, under `c2`, is not in the store: `Hash2File` returns
the first chunk alone, not nil. -/
theorem Hash2File_miss_not_nil :
    (missStore.Get (goBytes "l") = none ∧
      ∀ (fuel : Nat) (hp : HashPool),
        Hash2File unaryCodec (fuel + 1) missStore (goBytes "r") (joinPath ["x", "a"]) hp
          = .ok (some [])) ∧
    (partStore.Get (goBytes "c2") = none ∧
      ∀ (fuel : Nat) (hp : HashPool),
        Hash2File unaryCodec (fuel + 1) partStore (goBytes "r") (joinPath ["x", "a"]) hp
          = .ok (some (goBytes "hello"))) := by
  have hrl : goBytes "r" ≠ goBytes "l" := by decide
  have hrc1 : goBytes "r" ≠ goBytes "c1" := by decide
  have hrc2 : goBytes "r" ≠ goBytes "c2" := by decide
  have hlc1 : goBytes "l" ≠ goBytes "c1" := by decide
  have hlc2 : goBytes "l" ≠ goBytes "c2" := by decide
  have hc : goBytes "c1" ≠ goBytes "c2" := by decide
  have hm : missStore.Get (goBytes "l") = none := by
    rw [missStore, Get_cons_ne _ _ _ _ hrl]
    rfl
  have hp2 : partStore.Get (goBytes "c2") = none := by
    rw [partStore, Get_cons_ne _ _ _ _ hrc2, Get_cons_ne _ _ _ _ hlc2, Get_cons_ne _ _ _ _ hc]
    rfl
  have hp1 : partStore.Get (goBytes "c1") = some (goBytes "hello") := by
    rw [partStore, Get_cons_ne _ _ _ _ hrc1, Get_cons_ne _ _ _ _ hlc1, Get_cons_self]
  have hpl : partStore.Get (goBytes "l") = some (unaryCodec.jsonMarshal chunkList) := by
    rw [partStore, Get_cons_ne _ _ _ _ hrl, Get_cons_self]
  refine ⟨⟨hm, fun fuel hp => ?_⟩, hp2, fun fuel hp => ?_⟩
  · have h := Hash2File_list_child unaryCodec unary_roundtrip missStore (goBytes "r") listRoot
      ⟨"a", goBytes "l", 0⟩ "x" (fuel + 1) hp (Get_cons_self _ _ _) rfl rfl (by decide)
      (by decide)
    rw [hm, binaryToObj, Option.getD_none, unaryUnmarshal_nil, getFileByList_zero] at h
    exact h
  · have h := Hash2File_list_child unaryCodec unary_roundtrip partStore (goBytes "r") listRoot
      ⟨"a", goBytes "l", 0⟩ "x" (fuel + 1) hp (Get_cons_self _ _ _) rfl rfl (by decide)
      (by decide)
    rw [hpl, binaryToObj, Option.getD_some, unary_roundtrip,
      getFileByList_missing_chunk unaryCodec partStore chunkList ⟨"", goBytes "c1", 5⟩
        ⟨"", goBytes "c2", 5⟩ (goBytes "hello") fuel rfl rfl hp1 hp2] at h
    exact h

/-! ### The first path component -/

theorem stringsSplit_cons (x p : String) (hx : Char.ofNat 92 ∉ x.data) :
    stringsSplit (x ++ pathSep ++ p) = x :: stringsSplit p := by
  have e : (x ++ pathSep ++ p).data = x.data ++ Char.ofNat 92 :: p.data := by
    simp [pathSep, String.data_append]
  rw [stringsSplit, e, splitBackslash_append _ _ hx, List.map_cons, stringsSplit]

theorem stringsSplit_single (x : String) (hx : Char.ofNat 92 ∉ x.data) :
    stringsSplit x = [x] := by
  rw [stringsSplit, splitBackslash_no_sep _ hx]
  rfl

/-- From index 1 on, the walk does not read the component at index 0. -/
theorem getFileByDir_head (E : Codec) (fuel : Nat) (store : KVStore) (x y : String)
    (rest : List String) :
    ∀ (n cur : Nat) (obj : Object), rest.length - cur = n →
      getFileByDir E fuel obj (x :: rest) (cur + 1) store
        = getFileByDir E fuel obj (y :: rest) (cur + 1) store
  | 0, cur, obj, hn => by
    rw [getFileByDir_ge E fuel obj (x :: rest) (cur + 1) store
        (by rw [List.length_cons]; omega),
      getFileByDir_ge E fuel obj (y :: rest) (cur + 1) store
        (by rw [List.length_cons]; omega)]
  | n + 1, cur, obj, hn => by
    have hx : cur + 1 < (x :: rest).length := by rw [List.length_cons]; omega
    have hy : cur + 1 < (y :: rest).length := by rw [List.length_cons]; omega
    have hself : (fun objDir => getFileByDir E fuel objDir (x :: rest) (cur + 1 + 1) store)
        = (fun objDir => getFileByDir E fuel objDir (y :: rest) (cur + 1 + 1) store) :=
      funext fun o => getFileByDir_head E fuel store x y rest n (cur + 1) o (by omega)
    rw [getFileByDir_lt E fuel obj (x :: rest) (cur + 1) store hx,
      getFileByDir_lt E fuel obj (y :: rest) (cur + 1) store hy, hself]
    rfl

/-- C19 (`Hash2File` ignores the first path component): for strings `x`, `y` without a
backslash, `Hash2File` returns the same on `x\p` and on `y\p`, the walk of the root
object starting at index 1 of the split path; and on a path without a backslash, the
empty path included, `Hash2File` returns nil. -/
theorem Hash2File_first_component (E : Codec) (fuel : Nat) (store : KVStore) (root : Bytes)
    (p x y : String) (hp : HashPool) (hx : Char.ofNat 92 ∉ x.data)
    (hy : Char.ofNat 92 ∉ y.data) :
    Hash2File E fuel store root (x ++ pathSep ++ p) hp
      = Hash2File E fuel store root (y ++ pathSep ++ p) hp ∧
    (store.Has root = true →
      Hash2File E fuel store root (x ++ pathSep ++ p) hp
        = getFileByDir E fuel (binaryToObj E (store.Get root)) (x :: stringsSplit p) 1 store) ∧
    Hash2File E fuel store root x hp = .ok none ∧
    Hash2File E fuel store root "" hp = .ok none := by
  have hsingle : ∀ z : String, Char.ofNat 92 ∉ z.data →
      Hash2File E fuel store root z hp = .ok none := by
    intro z hz
    rw [Hash2File]
    dsimp only
    rw [stringsSplit_single z hz]
    by_cases hflag : store.Has root = true
    · rw [if_pos hflag]
      exact getFileByDir_ge E fuel _ [z] 1 store (by simp)
    · rw [if_neg hflag]
  refine ⟨?_, fun hflag => ?_, hsingle x hx, hsingle "" (by simp)⟩
  · rw [Hash2File, Hash2File]
    dsimp only
    rw [stringsSplit_cons x p hx, stringsSplit_cons y p hy]
    by_cases hflag : store.Has root = true
    · rw [if_pos hflag, if_pos hflag]
      exact getFileByDir_head E fuel store x y (stringsSplit p) _ 0 _ rfl
    · rw [if_neg hflag, if_neg hflag]
  · rw [Hash2File]
    dsimp only
    rw [stringsSplit_cons x p hx, if_pos hflag]

theorem Hash2File_first_component_witness :
    Char.ofNat 92 ∉ "x".data ∧ Char.ofNat 92 ∉ "y".data ∧
    Hash2File unaryCodec 1 goodStore (goBytes "r") ("x" ++ pathSep ++ "a") ⟨0⟩
      = Hash2File unaryCodec 1 goodStore (goBytes "r") ("y" ++ pathSep ++ "a") ⟨0⟩ ∧
    Hash2File unaryCodec 1 goodStore (goBytes "r") "x" ⟨0⟩ = .ok none :=
  ⟨by decide, by decide,
    (Hash2File_first_component unaryCodec 1 goodStore (goBytes "r") "a" "x" "y" ⟨0⟩
      (by decide) (by decide)).1,
    (Hash2File_first_component unaryCodec 1 goodStore (goBytes "r") "a" "x" "y" ⟨0⟩
      (by decide) (by decide)).2.2.1⟩

/-! ### The address `Add` returns -/

/-- C15 (`Add` returns the root's content address): for every file or directory node,
`StoreFile` / `StoreDir` returns a root object, `Add` returns the digest of that object's
serialization, and the store `Add` leaves has an entry under that address: the entry
written for the root, whose value is the raw `Data` of a root without links that came
from a file and the serialization of the root otherwise. -/
theorem Add_returns_root_address (E : Codec) (node : Node) (s : KVStore) (h : HashHandle) :
    ∃ (root : Object) (store : KVStore),
      (match node with
        | .FILE file => StoreFile E s file h = .ok (root, store)
        | .DIR _ _ it => StoreDir E s it h = .ok (root, store)) ∧
      Add E s node h = .ok (calculateHash E (E.jsonMarshal root), store) ∧
      store.Has (calculateHash E (E.jsonMarshal root)) = true ∧
      store.Get (calculateHash E (E.jsonMarshal root))
        = some (match node with
          | .FILE _ => if root.Links.isEmpty then root.Data else E.jsonMarshal root
          | .DIR _ _ _ => E.jsonMarshal root) := by
  cases node with
  | FILE file =>
    obtain ⟨o, W, hrun, -, -, -⟩ := StoreFile_ok E file
    have hget : KVStore.Get ((digest E o, payload E o) :: W ++ s)
        (calculateHash E (E.jsonMarshal o)) = some (payload E o) := Get_cons_self _ _ _
    refine ⟨o, (digest E o, payload E o) :: W ++ s, hrun s h, ?_, ?_, hget⟩
    · rw [Add, hrun s h, map_ok]
    · rw [KVStore.Has, hget]
      rfl
  | DIR name size kids =>
    have hrun := StoreDir_built E name size kids s h
    have hget : KVStore.Get (nodeWrites E (.DIR name size kids) ++ s)
        (calculateHash E (E.jsonMarshal (dirObject E kids)))
          = some (E.jsonMarshal (dirObject E kids)) := by
      rw [nodeWrites_dir]
      exact Get_cons_self _ _ _
    refine ⟨dirObject E kids, nodeWrites E (.DIR name size kids) ++ s, hrun, ?_, ?_, hget⟩
    · rw [Add, hrun, map_ok]
    · rw [KVStore.Has, hget]
      rfl

/-! ### The persistence convention -/

theorem shift_roundtrip (o : Object) :
    shiftCodec.jsonUnmarshal (shiftCodec.jsonMarshal o) = o :=
  unary_roundtrip o

/-- `Add` returns, whatever the store and the handle, the digest of the node's object and
puts the node's writes in front of the store. -/
theorem Add_built (E : Codec) (node : Node) (s : KVStore) (h : HashHandle) :
    Add E s node h = .ok (digest E (builtObject E node), nodeWrites E node ++ s) := by
  cases node with
  | FILE file =>
    obtain ⟨W, -, hrun, -⟩ := nodeWrites_file E file
    rw [Add, hrun s h, map_ok]
    rfl
  | DIR name size kids =>
    rw [Add_dir, builtObject_dir]

theorem entries_links_or_zero {P : Link → String → Prop} {o : Object} (ho : Entries P o) :
    o.Links ≠ [] ∨ o = { Links := [], Data := [] } := by
  obtain ⟨es, hl, hd, -⟩ := ho
  cases es with
  | nil =>
    right
    cases o
    simp only [List.map_nil, List.flatten_nil] at hl hd
    subst hl; subst hd; rfl
  | cons e es =>
    left
    rw [hl]
    exact List.cons_ne_nil _ _

/-- C16 (persistence convention), the counterexample: `Add` on a directory with no
children persists one object; its link table is empty, and the value stored under its
digest is its serialization, not its raw `Data`. -/
theorem empty_directory_stored_serialized :
    Add shiftCodec [] (.DIR "d" 0 []) ⟨[]⟩
      = .ok (shiftCodec.sha256 (shiftCodec.jsonMarshal { Links := [], Data := [] }),
          [(shiftCodec.sha256 (shiftCodec.jsonMarshal { Links := [], Data := [] }),
            shiftCodec.jsonMarshal { Links := [], Data := [] })]) ∧
    ({ Links := [], Data := [] } : Object).Links = [] ∧
    shiftCodec.jsonMarshal { Links := [], Data := [] }
      ≠ ({ Links := [], Data := [] } : Object).Data := by
  refine ⟨?_, rfl, List.cons_ne_nil _ _⟩
  rw [Add_dir, nodeWrites_dir]
  rfl

/-- C16 (persistence convention), amended: every entry `Add` writes for a file or
directory node has as key the digest of the serialization of an object, and as value
either the raw `Data` of that object, which then has no links, or the serialization of
that object, which then has links or is the object of a directory with no children.
When the digest has no collision on the objects that can be read off the writes, two
writes of the run under one key carry the same value, except under the digest of the
object without links and data, which an empty file writes raw and a directory with no
children writes serialized. -/
theorem Add_persistence_convention (E : Codec) (node : Node) (s : KVStore) (h : HashHandle) :
    Add E s node h = .ok (digest E (builtObject E node), nodeWrites E node ++ s) ∧
    (∀ kv ∈ nodeWrites E node, ∃ o : Object, kv.1 = calculateHash E (E.jsonMarshal o) ∧
      ((o.Links = [] ∧ kv.2 = o.Data) ∨
       ((o.Links ≠ [] ∨ o = { Links := [], Data := [] }) ∧ kv.2 = E.jsonMarshal o))) ∧
    ((∀ o₁ o₂ : Object, Written E (nodeWrites E node) o₁ → Written E (nodeWrites E node) o₂ →
        digest E o₁ = digest E o₂ → o₁ = o₂) →
      ∀ k v₁ v₂, (k, v₁) ∈ nodeWrites E node → (k, v₂) ∈ nodeWrites E node →
        v₁ = v₂ ∨ k = digest E { Links := [], Data := [] }) := by
  have hconv : ∀ kv ∈ nodeWrites E node, ∃ o : Object,
      kv.1 = calculateHash E (E.jsonMarshal o) ∧
      ((o.Links = [] ∧ kv.2 = o.Data) ∨
       ((o.Links ≠ [] ∨ o = { Links := [], Data := [] }) ∧ kv.2 = E.jsonMarshal o)) := by
    intro kv hkv
    obtain ⟨o, hk, hv | hv⟩ := nodeWrites_log E node kv hkv
    · exact ⟨o, hk, Or.inl hv⟩
    · exact ⟨o, hk, Or.inr ⟨entries_links_or_zero hv.1, hv.2⟩⟩
  refine ⟨Add_built E node s h, hconv, fun hinj k v₁ v₂ h₁ h₂ => ?_⟩
  obtain ⟨o₁, hk₁, hv₁⟩ := hconv _ h₁
  obtain ⟨o₂, hk₂, hv₂⟩ := hconv _ h₂
  have hk₁ : k = digest E o₁ := hk₁
  have hk₂ : k = digest E o₂ := hk₂
  have hv₁ : (o₁.Links = [] ∧ v₁ = o₁.Data) ∨
      ((o₁.Links ≠ [] ∨ o₁ = { Links := [], Data := [] }) ∧ v₁ = E.jsonMarshal o₁) := hv₁
  have hv₂ : (o₂.Links = [] ∧ v₂ = o₂.Data) ∨
      ((o₂.Links ≠ [] ∨ o₂ = { Links := [], Data := [] }) ∧ v₂ = E.jsonMarshal o₂) := hv₂
  have hw₁ : Written E (nodeWrites E node) o₁ := by
    rcases hv₁ with ⟨-, e⟩ | ⟨-, e⟩
    · exact Or.inl (by rw [← hk₁, ← e]; exact h₁)
    · exact Or.inr (by rw [← hk₁, ← e]; exact h₁)
  have hw₂ : Written E (nodeWrites E node) o₂ := by
    rcases hv₂ with ⟨-, e⟩ | ⟨-, e⟩
    · exact Or.inl (by rw [← hk₂, ← e]; exact h₂)
    · exact Or.inr (by rw [← hk₂, ← e]; exact h₂)
  have ho : o₁ = o₂ := hinj o₁ o₂ hw₁ hw₂ (by rw [← hk₁, ← hk₂])
  subst ho
  rcases hv₁ with ⟨hl₁, e₁⟩ | ⟨hl₁, e₁⟩ <;> rcases hv₂ with ⟨hl₂, e₂⟩ | ⟨hl₂, e₂⟩
  · exact Or.inl (by rw [e₁, e₂])
  · rcases hl₂ with hne | hz
    · exact absurd hl₁ hne
    · exact Or.inr (by rw [hk₁, hz])
  · rcases hl₁ with hne | hz
    · exact absurd hl₂ hne
    · exact Or.inr (by rw [hk₁, hz])
  · exact Or.inl (by rw [e₁, e₂])

theorem Add_persistence_convention_witness :
    ∃ k v, (k, v) ∈ nodeWrites unaryCodec (.DIR "root" 10 exampleDir) ∧
      ∀ v₂, (k, v₂) ∈ nodeWrites unaryCodec (.DIR "root" 10 exampleDir) →
        v = v₂ ∨ k = digest unaryCodec { Links := [], Data := [] } :=
  ⟨_, _, nodeWrites_head unaryCodec (.DIR "root" 10 exampleDir), fun v₂ h₂ =>
    (Add_persistence_convention unaryCodec (.DIR "root" 10 exampleDir) [] ⟨[]⟩).2.2
      (fun o₁ o₂ _ _ e => unary_digest_injective o₁ o₂ e) _ _ v₂
      (nodeWrites_head unaryCodec (.DIR "root" 10 exampleDir)) h₂⟩

/-! ### Order of the writes and bounds on what is written -/

theorem childrenFirst_leaf {E : Codec} {W : KVStore} (hW : ChildrenFirst E W) (d : Bytes) :
    ChildrenFirst E (leafWrite E d :: W) :=
  ⟨Or.inl ⟨d, rfl⟩, hW⟩

theorem childrenFirst_links {E : Codec} {W : KVStore} (hW : ChildrenFirst E W) (o : Object)
    (ho : ∀ l ∈ o.Links, ∃ v : Bytes, (l.Hash, v) ∈ W) :
    ChildrenFirst E ((digest E o, E.jsonMarshal o) :: W) :=
  ⟨Or.inr ⟨o, rfl, ho⟩, hW⟩

theorem childrenFirst_append {E : Codec} : ∀ {W W' : KVStore}, ChildrenFirst E W →
    ChildrenFirst E W' → ChildrenFirst E (W ++ W')
  | [], _, _, h' => h'
  | kv :: W, W', h, h' => by
    refine ⟨?_, childrenFirst_append h.2 h'⟩
    rcases h.1 with hl | ⟨o, e, ho⟩
    · exact Or.inl hl
    · refine Or.inr ⟨o, e, fun l hl => ?_⟩
      obtain ⟨v, hv⟩ := ho l hl
      exact ⟨v, List.mem_append_left _ hv⟩

theorem fanOutLog_nil (E : Codec) : FanOutLog E [] := by
  intro kv h; simp at h

theorem fanOutLog_leaf {E : Codec} {W : KVStore} (hW : FanOutLog E W) (d : Bytes)
    (hd : d.length ≤ 256 * 1024) : FanOutLog E (leafWrite E d :: W) := by
  intro kv hkv
  rcases List.mem_cons.mp hkv with h | h
  · exact Or.inl ⟨d, h, hd⟩
  · exact hW kv h

theorem fanOutLog_links {E : Codec} {W : KVStore} (hW : FanOutLog E W) (o : Object)
    (h1 : 1 ≤ o.Links.length) (h2 : o.Links.length ≤ 4096) :
    FanOutLog E ((digest E o, E.jsonMarshal o) :: W) := by
  intro kv hkv
  rcases List.mem_cons.mp hkv with h | h
  · exact Or.inr ⟨o, h, h1, h2⟩
  · exact hW kv h

theorem slice_length_le (b : Bytes) (lo hi : Nat) : (slice b lo hi).length ≤ hi - lo := by
  rw [slice, List.length_drop, List.length_take]
  omega

theorem blobLoop_state (E : Codec) (bytes : Bytes) :
    ∀ (n : Nat) (links : Object) (lenData : Nat) (W : KVStore) (seedId : Nat),
      LoopState E links W →
      LoopState E (blobLoop E bytes n links lenData W seedId).1
        (blobLoop E bytes n links lenData W seedId).2.2 ∧
      (blobLoop E bytes n links lenData W seedId).1.Links.length ≤ links.Links.length + n ∧
      (∀ kv ∈ W, kv ∈ (blobLoop E bytes n links lenData W seedId).2.2) := by
  intro n
  induction n with
  | zero =>
    intro links lenData W seedId hs
    exact ⟨hs, le_refl _, fun kv h => h⟩
  | succ n ih =>
    intro links lenData W seedId hs
    have hstep : ∀ data : Bytes, data.length ≤ 256 * 1024 →
        LoopState E
          { Links := links.Links ++ [{ Name := "", Hash := calculateHash E (E.jsonMarshal
              { Links := [], Data := data }), Size := data.length }],
            Data := links.Data ++ goBytes "blob" }
          (KVStore.Put W (calculateHash E (E.jsonMarshal { Links := [], Data := data })) data) := by
      intro data hd
      refine ⟨childrenFirst_leaf hs.1 data, fanOutLog_leaf hs.2.1 data hd, fun l hl => ?_⟩
      rcases List.mem_append.mp hl with h | h
      · obtain ⟨v, hv⟩ := hs.2.2 l h
        exact ⟨v, List.mem_cons_of_mem _ hv⟩
      · rw [List.mem_singleton.mp h]
        exact ⟨data, List.mem_cons_self _ _⟩
    have hlen : (slice bytes seedId (if bytes.length < seedId + 256 * 1024 then bytes.length
        else seedId + 256 * 1024)).length ≤ 256 * 1024 := by
      refine le_trans (slice_length_le bytes seedId _) ?_
      split <;> omega
    simp only [blobLoop]
    split
    · refine ⟨hstep _ hlen, ?_, fun kv h => List.mem_cons_of_mem _ h⟩
      simp
    · obtain ⟨h1, h2, h3⟩ := ih _ (lenData + (slice bytes seedId
        (if bytes.length < seedId + 256 * 1024 then bytes.length
          else seedId + 256 * 1024)).length) _ (seedId + 256 * 1024) (hstep _ hlen)
      refine ⟨h1, le_trans h2 ?_, fun kv h => h3 kv (List.mem_cons_of_mem _ h)⟩
      simp only [List.length_append, List.length_singleton]
      omega

theorem linkLoop_state (E : Codec)
    (child : KVStore → Nat → Except Fault (Object × Nat × KVStore)) (len seedId : Nat)
    (hchild : ∀ W r, child W seedId = .ok r → ChildrenFirst E W → FanOutLog E W →
      ChildrenFirst E r.2.2 ∧ FanOutLog E r.2.2 ∧ (∃ v : Bytes, (digest E r.1, v) ∈ r.2.2) ∧
      ∀ kv ∈ W, kv ∈ r.2.2) :
    ∀ (n : Nat) (links : Object) (lenData : Nat) (W : KVStore) (r : Object × Nat × KVStore),
      linkLoop E child len seedId n links lenData W = .ok r → LoopState E links W →
      LoopState E r.1 r.2.2 ∧ r.1.Links.length ≤ links.Links.length + n ∧
      (∀ kv ∈ W, kv ∈ r.2.2) := by
  intro n
  induction n with
  | zero =>
    intro links lenData W r hr hs
    simp only [linkLoop, Except.ok.injEq] at hr
    subst hr
    exact ⟨hs, le_refl _, fun kv h => h⟩
  | succ n ih =>
    intro links lenData W r hr hs
    simp only [linkLoop] at hr
    split at hr
    · simp only [Except.ok.injEq] at hr
      subst hr
      exact ⟨hs, Nat.le_add_right _ _, fun kv h => h⟩
    · cases hc : child W seedId with
      | error e => rw [hc] at hr; simp at hr
      | ok c =>
        obtain ⟨tmp, lens, W'⟩ := c
        rw [hc] at hr
        simp only at hr
        obtain ⟨c1, c2, ⟨v, hv⟩, c4⟩ := hchild W _ hc hs.1 hs.2.1
        obtain ⟨h1, h2, h3⟩ := ih _ _ _ r hr ⟨c1, c2, fun l hl => by
          rcases List.mem_append.mp hl with h | h
          · obtain ⟨v', hv'⟩ := hs.2.2 l h
            exact ⟨v', c4 _ hv'⟩
          · rw [List.mem_singleton.mp h]
            exact ⟨v, hv⟩⟩
        refine ⟨h1, le_trans h2 ?_, fun kv h => h3 kv (c4 kv h)⟩
        simp only [List.length_append, List.length_singleton]
        omega

/-- What `dfsForStoreFile` writes at `hight >= 1` and an offset inside the file keeps the
log in order and within bounds; the returned object is written under its digest and has
at most 4096 links. -/
theorem dfsForStoreFile_state (E : Codec) (file : File) :
    ∀ (hight : Nat) (W : KVStore) (seedId : Nat) (h : HashHandle) (r : Object × Nat × KVStore),
      dfsForStoreFile E hight file W seedId h = .ok r → 1 ≤ hight →
      seedId < file.Bytes.length → ChildrenFirst E W → FanOutLog E W →
      ChildrenFirst E r.2.2 ∧ FanOutLog E r.2.2 ∧ (∃ v : Bytes, (digest E r.1, v) ∈ r.2.2) ∧
      (∀ kv ∈ W, kv ∈ r.2.2) ∧ r.1.Links.length ≤ 4096 ∧
      (r.1.Links = [] → r.1.Data.length ≤ 256 * 1024) := by
  intro hight
  induction hight using Nat.strong_induction_on with
  | _ hight ih =>
    intro W seedId h r hr h1 hsd hW hF
    match hight with
    | 0 => omega
    | 1 =>
      simp only [dfsForStoreFile] at hr
      split at hr
      · rename_i hle
        split at hr
        · simp only [Except.ok.injEq] at hr
          subst hr
          have hd : (slice file.Bytes seedId file.Bytes.length).length ≤ 256 * 1024 :=
            le_trans (slice_length_le _ _ _) (by omega)
          exact ⟨childrenFirst_leaf hW _, fanOutLog_leaf hF _ hd, ⟨_, List.mem_cons_self _ _⟩,
            fun kv hkv => List.mem_cons_of_mem _ hkv, by simp, fun _ => hd⟩
        · simp at hr
      · simp only [Except.ok.injEq] at hr
        subst hr
        obtain ⟨hs, hlen, hsub⟩ := blobLoop_state E file.Bytes 4096 { Links := [], Data := [] } 0
          W seedId ⟨hW, hF, fun l hl => by simp at hl⟩
        have hpos := (blobLoop_links_length E file.Bytes 4096 { Links := [], Data := [] } 0
          W seedId).2 (by norm_num)
        have hlen' : (blobLoop E file.Bytes 4096 { Links := [], Data := [] } 0 W
            seedId).1.Links.length ≤ 4096 := by
          simpa using hlen
        have hpos' : 1 ≤ (blobLoop E file.Bytes 4096 { Links := [], Data := [] } 0 W
            seedId).1.Links.length := by
          simpa using hpos
        refine ⟨childrenFirst_links hs.1 _ hs.2.2, fanOutLog_links hs.2.1 _ hpos' hlen',
          ⟨_, List.mem_cons_self _ _⟩, fun kv hkv => List.mem_cons_of_mem _ (hsub kv hkv),
          hlen', fun h0 => ?_⟩
        rw [putLinks_fst] at h0
        rw [h0] at hpos'
        simp at hpos'
    | k + 2 =>
      simp only [dfsForStoreFile] at hr
      cases hl : linkLoop E (fun store seedId => dfsForStoreFile E (k + 1) file store seedId h)
          file.Bytes.length seedId 4096 { Links := [], Data := [] } 0 W with
      | error e => rw [hl] at hr; simp [map_error] at hr
      | ok q =>
        rw [hl, map_ok, Except.ok.injEq] at hr
        subst hr
        obtain ⟨hs, hlen, hsub⟩ := linkLoop_state E _ file.Bytes.length seedId
          (fun W' r' hc hW' hF' => by
            obtain ⟨a, b, c, d, -, -⟩ := ih (k + 1) (by omega) W' seedId h r' hc (by omega) hsd
              hW' hF'
            exact ⟨a, b, c, d⟩)
          4096 { Links := [], Data := [] } 0 W q hl ⟨hW, hF, fun l hl => by simp at hl⟩
        have hpos := (linkLoop_links_length E _ file.Bytes.length seedId 4096
          { Links := [], Data := [] } 0 W q hl).2 (by norm_num) hsd
        have hlen' : q.1.Links.length ≤ 4096 := by simpa using hlen
        have hpos' : 1 ≤ q.1.Links.length := by simpa using hpos
        refine ⟨childrenFirst_links hs.1 _ hs.2.2, fanOutLog_links hs.2.1 _ hpos' hlen',
          ⟨_, List.mem_cons_self _ _⟩, fun kv hkv => List.mem_cons_of_mem _ (hsub kv hkv),
          hlen', fun h0 => ?_⟩
        rw [putLinks_fst] at h0
        rw [h0] at hpos'
        simp at hpos'

/-- What `StoreFile` writes for a file is in order and within bounds, and the object it
returns is a leaf payload of at most 262144 bytes or has at most 4096 links. -/
theorem StoreFile_state (E : Codec) (file : File) :
    ChildrenFirst E (nodeWrites E (.FILE file)) ∧ FanOutLog E (nodeWrites E (.FILE file)) ∧
    (builtObject E (.FILE file)).Links.length ≤ 4096 ∧
    ((builtObject E (.FILE file)).Links = [] →
      (builtObject E (.FILE file)).Data.length ≤ 256 * 1024) := by
  by_cases hlen : file.Bytes.length ≤ 256 * 1024
  · have hw : nodeWrites E (.FILE file) = [leafWrite E file.Bytes] := by
      simp only [nodeWrites, StoreFile_leaf E [] file ⟨[]⟩ hlen]
      rfl
    have ho : builtObject E (.FILE file) = { Links := [], Data := file.Bytes } := by
      simp only [builtObject, StoreFile_leaf E [] file ⟨[]⟩ hlen]
    rw [hw, ho]
    exact ⟨childrenFirst_leaf (by trivial) _, fanOutLog_leaf (fanOutLog_nil E) _ hlen, by simp,
      fun _ => hlen⟩
  · obtain ⟨k, hk1, hk, -, -⟩ :=
      heightLoop_spec ((file.Bytes.length + (256 * 1024 - 1)) / (256 * 1024)) 0
        (Nat.div_pos (by omega) (by norm_num))
    rw [Nat.zero_add] at hk
    obtain ⟨r, hr⟩ := dfsForStoreFile_total E file k hk1 [] 0 ⟨[]⟩ (Nat.zero_le _)
    have hrun : StoreFile E [] file ⟨[]⟩ = .ok (r.1, r.2.2) := by
      unfold StoreFile
      rw [if_neg hlen]
      dsimp only
      rw [hk, hr, map_ok]
    have hw : nodeWrites E (.FILE file) = r.2.2 := by
      simp only [nodeWrites, hrun]
    have ho : builtObject E (.FILE file) = r.1 := by
      simp only [builtObject, hrun]
    obtain ⟨h1, h2, -, -, h5, h6⟩ := dfsForStoreFile_state E file k [] 0 ⟨[]⟩ r hr hk1
      (by omega) (by trivial) (fanOutLog_nil E)
    rw [hw, ho]
    exact ⟨h1, h2, h5, h6⟩

mutual
/-- What the builder writes for a node is in order: children before parents. -/
theorem nodeWrites_childrenFirst (E : Codec) : ∀ n : Node, ChildrenFirst E (nodeWrites E n)
  | .FILE file => (StoreFile_state E file).1
  | .DIR name size it => by
    rw [nodeWrites_dir]
    refine childrenFirst_links (loopWrites_childrenFirst E it) _ (fun l hl => ?_)
    rw [dirObject] at hl
    obtain ⟨kid, hkid, rfl⟩ := List.mem_map.mp hl
    exact ⟨nodeValue E kid, mem_loopWrites E it kid hkid _ (nodeWrites_head E kid)⟩
theorem loopWrites_childrenFirst (E : Codec) :
    ∀ kids : List Node, ChildrenFirst E (loopWrites E kids)
  | [] => by trivial
  | k :: rest => childrenFirst_append (loopWrites_childrenFirst E rest) (nodeWrites_childrenFirst E k)
end

theorem Has_of_mem : ∀ (store : KVStore) (k v : Bytes), (k, v) ∈ store → store.Has k = true
  | [], _, _, h => by simp at h
  | (k', v') :: rest, k, v, h => by
    rw [KVStore.Has, KVStore.Get]
    by_cases hk : k' = k
    · rw [if_pos hk]; rfl
    · rw [if_neg hk]
      rcases List.mem_cons.mp h with e | m
      · exact absurd (congrArg Prod.fst e).symm hk
      · exact Has_of_mem rest k v m

theorem childrenFirst_linksPresent {E : Codec} (s : KVStore) :
    ∀ (W pre : KVStore), ChildrenFirst E W → LinksPresent E W (pre ++ W ++ s)
  | [], _, _ => by intro kv h; simp at h
  | kv :: older, pre, hW => by
    intro kv' hkv'
    rcases List.mem_cons.mp hkv' with e | m
    · rcases hW.1 with hl | ⟨o, ho, hlinks⟩
      · exact Or.inl (by rw [e]; exact hl)
      · refine Or.inr ⟨o, by rw [e]; exact ho, fun l hl => ?_⟩
        obtain ⟨v, hv⟩ := hlinks l hl
        exact Has_of_mem _ l.Hash v
          (List.mem_append_left _ (List.mem_append_right _ (List.mem_cons_of_mem _ hv)))
    · have h := childrenFirst_linksPresent s older (pre ++ [kv]) hW.2 kv' m
      rw [List.append_assoc pre [kv] older] at h
      exact h

/-! ### Children before parents, chunk and fan-out bounds -/

/-- C14 (children before parents): `Add` on a file or directory node returns and puts the
node's writes in front of the store; in these writes every write of a serialized object
comes after (above) a write under the `Hash` of each of its links; hence every link of an
object written by the run carries a key the store has after `Add`. -/
theorem Add_children_first (E : Codec) (node : Node) (s : KVStore) (h : HashHandle) :
    Add E s node h = .ok (digest E (builtObject E node), nodeWrites E node ++ s) ∧
    ChildrenFirst E (nodeWrites E node) ∧
    LinksPresent E (nodeWrites E node) (nodeWrites E node ++ s) := by
  refine ⟨Add_built E node s h, nodeWrites_childrenFirst E node, ?_⟩
  have hp := childrenFirst_linksPresent s (nodeWrites E node) [] (nodeWrites_childrenFirst E node)
  rw [List.nil_append] at hp
  exact hp

/-- C18 (chunk and fan-out bounds): for every file, `StoreFile` returns and every write
it performs is that of a leaf payload of at most 262144 bytes or that of a serialized
object with at least 1 and at most 4096 links, and so is the object it returns; the same
holds of every call of `dfsForStoreFile` at `hight >= 1` and an offset inside the file. -/
theorem StoreFile_fan_out (E : Codec) (file : File) (s : KVStore) (h : HashHandle) :
    StoreFile E s file h
      = .ok (builtObject E (.FILE file), nodeWrites E (.FILE file) ++ s) ∧
    FanOutLog E (nodeWrites E (.FILE file)) ∧
    (((builtObject E (.FILE file)).Links = [] ∧
        (builtObject E (.FILE file)).Data.length ≤ 262144) ∨
      (1 ≤ (builtObject E (.FILE file)).Links.length ∧
        (builtObject E (.FILE file)).Links.length ≤ 4096)) ∧
    (∀ (hight seedId : Nat), 1 ≤ hight → seedId < file.Bytes.length →
      ∃ r : Object × Nat × KVStore, dfsForStoreFile E hight file [] seedId h = .ok r ∧
        FanOutLog E r.2.2 ∧
        ((r.1.Links = [] ∧ r.1.Data.length ≤ 262144) ∨
          (1 ≤ r.1.Links.length ∧ r.1.Links.length ≤ 4096))) := by
  have hshape : ∀ o : Object, o.Links.length ≤ 4096 → (o.Links = [] → o.Data.length ≤ 256 * 1024) →
      (o.Links = [] ∧ o.Data.length ≤ 262144) ∨ (1 ≤ o.Links.length ∧ o.Links.length ≤ 4096) := by
    intro o h1 h2
    by_cases h0 : o.Links = []
    · exact Or.inl ⟨h0, h2 h0⟩
    · exact Or.inr ⟨Nat.pos_of_ne_zero (fun hz => h0 (List.length_eq_zero.mp hz)), h1⟩
  obtain ⟨W, -, hrun, -⟩ := nodeWrites_file E file
  obtain ⟨-, hF, h3, h4⟩ := StoreFile_state E file
  refine ⟨hrun s h, hF, hshape _ h3 h4, fun hight seedId h1 hsd => ?_⟩
  obtain ⟨r, hr⟩ := dfsForStoreFile_total E file hight h1 [] seedId h (le_of_lt hsd)
  obtain ⟨-, hF', -, -, h5, h6⟩ := dfsForStoreFile_state E file hight [] seedId h r hr h1 hsd
    (by trivial) (fanOutLog_nil E)
  exact ⟨r, hr, hF', hshape _ h5 h6⟩

/-! ### The byte count of a tree of two levels -/

theorem copiesObject_sizes (E : Codec) (child : Object) (lens : Nat) :
    ∀ n : Nat, ((copiesObject E child lens n).Links.map Link.Size).sum = ((n * lens : Nat) : Int)
  | 0 => by simp [copiesObject]
  | n + 1 => by
    have ih := copiesObject_sizes E child lens n
    simp only [copiesObject] at ih ⊢
    rw [List.replicate_succ, List.map_cons, List.sum_cons, ih]
    push_cast
    ring

theorem bigFile_length : bigFile.Bytes.length = 4096 * 262144 := zeroBytes_length _

/-- C17 (sizes cover the file exactly), the failing input: for the file of exactly 4096
chunks `StoreFile` computes the height 2, and the top-level call of `dfsForStoreFile`
returns a root of 4096 links that all carry the same `Hash`, that of the composite over
the bytes from offset 0, and the same `Size`, the file length; the byte count returned,
which is the sum of the `Size` fields, is 4096 times the file length, not the file
length. -/
theorem dfsForStoreFile_count_exceeds_length (E : Codec) (s : KVStore) (h : HashHandle) :
    ∃ (child : Object) (count : Nat) (store' : KVStore),
      heightLoop 0 ((bigFile.Bytes.length + (256 * 1024 - 1)) / (256 * 1024)) = 2 ∧
      dfsForStoreFile E
          (heightLoop 0 ((bigFile.Bytes.length + (256 * 1024 - 1)) / (256 * 1024)))
          bigFile s 0 h
        = .ok (copiesObject E child bigFile.Bytes.length 4096, count, store') ∧
      ((copiesObject E child bigFile.Bytes.length 4096).Links.map Link.Size).sum
        = (count : Int) ∧
      count = 4096 * bigFile.Bytes.length ∧
      count ≠ bigFile.Bytes.length := by
  have hlen := bigFile_length
  have hh : heightLoop 0 ((bigFile.Bytes.length + (256 * 1024 - 1)) / (256 * 1024)) = 2 :=
    heightLoop_two _ (by omega) (by omega)
  have htake : (bigFile.Bytes.take (4096 * (256 * 1024))).length = bigFile.Bytes.length := by
    rw [List.length_take]
    omega
  have hrun := dfsForStoreFile_two E bigFile s h (by omega)
  rw [htake] at hrun
  rw [hh]
  exact ⟨leavesObject E (chunks bigFile.Bytes 4096 0), 4096 * bigFile.Bytes.length, _, rfl, hrun,
    copiesObject_sizes E _ _ 4096, rfl, by omega⟩

/-! ### Files of fewer than 4096 chunks: one level -/

theorem heightLoop_one (n : Nat) (hn : n < 4096) : heightLoop 0 n = 1 := by
  rw [heightLoop, dif_pos (Nat.div_eq_of_lt hn)]

theorem chunks_length (bytes : Bytes) :
    ∀ (n seedId : Nat), seedId < bytes.length →
      (chunks bytes n seedId).length
        = min n ((bytes.length - seedId + (256 * 1024 - 1)) / (256 * 1024)) := by
  intro n
  induction n with
  | zero => intro seedId _; simp [chunks]
  | succ n ih =>
    intro seedId hs
    rw [chunks, List.length_cons]
    by_cases hend : seedId + 256 * 1024 ≥ bytes.length
    · rw [if_pos hend, List.length_nil]
      omega
    · rw [if_neg hend, ih (seedId + 256 * 1024) (by omega)]
      omega

theorem chunks_get (bytes : Bytes) :
    ∀ (n seedId i : Nat) (hi : i < (chunks bytes n seedId).length),
      (chunks bytes n seedId).get ⟨i, hi⟩
        = slice bytes (seedId + 262144 * i) (min (seedId + 262144 * (i + 1)) bytes.length) := by
  intro n
  induction n with
  | zero => intro seedId i hi; simp [chunks] at hi
  | succ n ih =>
    intro seedId i hi
    have hc : chunks bytes (n + 1) seedId
        = slice bytes seedId
            (if bytes.length < seedId + 256 * 1024 then bytes.length else seedId + 256 * 1024)
          :: (if seedId + 256 * 1024 ≥ bytes.length then []
              else chunks bytes n (seedId + 256 * 1024)) := by
      rw [chunks]
    cases i with
    | zero =>
      simp only [hc, List.get_eq_getElem, List.getElem_cons_zero]
      have e1 : seedId + 262144 * 0 = seedId := by omega
      have e2 : (if bytes.length < seedId + 256 * 1024 then bytes.length
          else seedId + 256 * 1024) = min (seedId + 262144 * (0 + 1)) bytes.length := by
        split <;> omega
      rw [e1, e2]
    | succ i =>
      by_cases hend : seedId + 256 * 1024 ≥ bytes.length
      · rw [hc, if_pos hend] at hi
        simp at hi
      · have hi' : i < (chunks bytes n (seedId + 256 * 1024)).length := by
          rw [hc, if_neg hend, List.length_cons] at hi
          omega
        have h := ih (seedId + 256 * 1024) i hi'
        simp only [List.get_eq_getElem] at h ⊢
        simp only [hc, if_neg hend, List.getElem_cons_succ]
        rw [h]
        have e1 : seedId + 256 * 1024 + 262144 * i = seedId + 262144 * (i + 1) := by omega
        have e2 : seedId + 256 * 1024 + 262144 * (i + 1) = seedId + 262144 * (i + 1 + 1) := by
          omega
        rw [e1, e2]

theorem slice_length (b : Bytes) (lo hi : Nat) (h : hi ≤ b.length) :
    (slice b lo hi).length = hi - lo := by
  rw [slice, List.length_drop, List.length_take]
  omega

/-- `StoreFile` on a file of more than one and fewer than 4096 chunks: the root is the
composite over the chunks, written on top of the leaf payloads. -/
theorem StoreFile_one_level (E : Codec) (file : File) (s : KVStore) (h : HashHandle)
    (hlo : 262144 < file.Bytes.length) (hhi : file.Bytes.length ≤ 4095 * 262144) :
    StoreFile E s file h
      = .ok (leavesObject E (chunks file.Bytes 4096 0),
          ((digest E (leavesObject E (chunks file.Bytes 4096 0)),
              E.jsonMarshal (leavesObject E (chunks file.Bytes 4096 0)))
            :: ((chunks file.Bytes 4096 0).map (leafWrite E)).reverse) ++ s) := by
  unfold StoreFile
  rw [if_neg (by omega)]
  dsimp only
  rw [heightLoop_one _ (by omega), dfsForStoreFile_one E file s 0 h (by omega), map_ok]

theorem builtObject_one_level (E : Codec) (file : File)
    (hlo : 262144 < file.Bytes.length) (hhi : file.Bytes.length ≤ 4095 * 262144) :
    builtObject E (.FILE file) = leavesObject E (chunks file.Bytes 4096 0) := by
  simp only [builtObject, StoreFile_one_level E file [] ⟨[]⟩ hlo hhi]

theorem nodeWrites_one_level (E : Codec) (file : File)
    (hlo : 262144 < file.Bytes.length) (hhi : file.Bytes.length ≤ 4095 * 262144) :
    nodeWrites E (.FILE file)
      = (digest E (leavesObject E (chunks file.Bytes 4096 0)),
            E.jsonMarshal (leavesObject E (chunks file.Bytes 4096 0)))
          :: ((chunks file.Bytes 4096 0).map (leafWrite E)).reverse := by
  simp only [nodeWrites, StoreFile_one_level E file [] ⟨[]⟩ hlo hhi, List.append_nil]

theorem nodeWrites_one_level_payloadLog (E : Codec) (file : File)
    (hlo : 262144 < file.Bytes.length) (hhi : file.Bytes.length ≤ 4095 * 262144) :
    PayloadLog E (nodeWrites E (.FILE file)) := by
  have hne : (leavesObject E (chunks file.Bytes 4096 0)).Links ≠ [] := by
    intro h0
    exact chunks_ne_nil file.Bytes 4095 0 (List.map_eq_nil_iff.mp h0)
  rw [nodeWrites_one_level E file hlo hhi, ← payload_of_links E _ hne]
  exact payloadLog_cons _ (payloadLog_leaves E _)

theorem leavesObject_tagAt (E : Codec) (ds : List Bytes) (i : Nat) (hi : i < ds.length) :
    tagAt (leavesObject E ds) i = goBytes "blob" := by
  have h := replicate_tags_slice "blob" (by decide) ds.length i hi
  rw [tagAt, STEP, leavesObject, tagBytes, List.map_replicate]
  exact h

/-- C20 (round-trip for files of fewer than 4096 chunks): for a file of more than 262144
and at most `4095 * 262144` bytes `StoreFile` returns a root with links, exactly
`ceil(len / 262144)` of them, all tagged `"blob"`; link `i` carries the digest of the leaf
over the bytes from `262144 * i` to `min (262144 * (i + 1)) len` and that chunk's length
as `Size`; and, when no key of the run is written with two values, `getFileByList` on the
root and the resulting store returns the bytes of the file. -/
theorem StoreFile_roundtrip_one_level (E : Codec) (file : File) (s : KVStore) (h : HashHandle)
    (hlo : 262144 < file.Bytes.length) (hhi : file.Bytes.length ≤ 4095 * 262144)
    (hclash : NoClash (nodeWrites E (.FILE file))) :
    StoreFile E s file h
      = .ok (builtObject E (.FILE file), nodeWrites E (.FILE file) ++ s) ∧
    (builtObject E (.FILE file)).Links ≠ [] ∧
    (builtObject E (.FILE file)).Links.length = (file.Bytes.length + 262143) / 262144 ∧
    (∀ (i : Nat) (hi : i < (builtObject E (.FILE file)).Links.length),
      tagAt (builtObject E (.FILE file)) i = goBytes "blob" ∧
      ((builtObject E (.FILE file)).Links.get ⟨i, hi⟩).Hash
        = E.sha256 (E.jsonMarshal
            { Links := [],
              Data := slice file.Bytes (262144 * i)
                (min (262144 * (i + 1)) file.Bytes.length) }) ∧
      ((builtObject E (.FILE file)).Links.get ⟨i, hi⟩).Size
        = ((slice file.Bytes (262144 * i)
            (min (262144 * (i + 1)) file.Bytes.length)).length : Int) ∧
      (slice file.Bytes (262144 * i) (min (262144 * (i + 1)) file.Bytes.length)).length
        = min (262144 * (i + 1)) file.Bytes.length - 262144 * i) ∧
    (∀ fuel : Nat,
      getFileByList E (fuel + 1) (builtObject E (.FILE file)) (nodeWrites E (.FILE file) ++ s)
        = .ok file.Bytes) := by
  have hroot := builtObject_one_level E file hlo hhi
  have hW := nodeWrites_one_level E file hlo hhi
  have hrun := StoreFile_one_level E file s h hlo hhi
  rw [← hW, ← hroot] at hrun
  have hlen : (builtObject E (.FILE file)).Links.length = (chunks file.Bytes 4096 0).length := by
    rw [hroot, leavesObject, List.length_map]
  have hcount : (chunks file.Bytes 4096 0).length = (file.Bytes.length + 262143) / 262144 := by
    rw [chunks_length file.Bytes 4096 0 (by omega)]
    omega
  refine ⟨hrun, ?_, by rw [hlen, hcount], fun i hi => ?_, fun fuel => ?_⟩
  · rw [hroot]
    intro h0
    exact chunks_ne_nil file.Bytes 4095 0 (List.map_eq_nil_iff.mp h0)
  · have hi' : i < (chunks file.Bytes 4096 0).length := by rw [← hlen]; exact hi
    have hget : (builtObject E (.FILE file)).Links.get ⟨i, hi⟩
        = leafLink E (slice file.Bytes (262144 * i)
            (min (262144 * (i + 1)) file.Bytes.length)) := by
      have hc := chunks_get file.Bytes 4096 0 i hi'
      rw [Nat.zero_add, Nat.zero_add] at hc
      rw [← hc]
      simp only [hroot, leavesObject, List.get_eq_getElem, List.getElem_map]
    refine ⟨?_, by rw [hget]; rfl, by rw [hget]; rfl, ?_⟩
    · rw [hroot]
      exact leavesObject_tagAt E _ i hi'
    · exact slice_length _ _ _ (Nat.min_le_right _ _)
  · rw [hroot]
    have hflat : (chunks file.Bytes 4096 0).flatten = file.Bytes := by
      rw [chunks_flatten, List.drop_zero]
      exact List.take_of_length_le (by omega)
    have hres := getFileByList_leaves E (nodeWrites E (.FILE file) ++ s)
      (chunks file.Bytes 4096 0) fuel (fun d hd =>
        Get_of_mem _ s _ _ hclash (by
          rw [hW]
          exact List.mem_cons_of_mem _ (List.mem_reverse.mpr (List.mem_map_of_mem _ hd))))
    rw [hflat] at hres
    exact hres

theorem StoreFile_roundtrip_one_level_witness :
    262144 < (⟨"two.bin", 262145, zeroBytes 262145⟩ : File).Bytes.length ∧
    (⟨"two.bin", 262145, zeroBytes 262145⟩ : File).Bytes.length ≤ 4095 * 262144 ∧
    NoClash (nodeWrites unaryCodec (.FILE ⟨"two.bin", 262145, zeroBytes 262145⟩)) ∧
    (builtObject unaryCodec (.FILE ⟨"two.bin", 262145, zeroBytes 262145⟩)).Links.length
      = ((⟨"two.bin", 262145, zeroBytes 262145⟩ : File).Bytes.length + 262143) / 262144 ∧
    ∀ fuel : Nat,
      getFileByList unaryCodec (fuel + 1)
          (builtObject unaryCodec (.FILE ⟨"two.bin", 262145, zeroBytes 262145⟩))
          (nodeWrites unaryCodec (.FILE ⟨"two.bin", 262145, zeroBytes 262145⟩) ++ [])
        = .ok (⟨"two.bin", 262145, zeroBytes 262145⟩ : File).Bytes :=
  have hlo : 262144 < (⟨"two.bin", 262145, zeroBytes 262145⟩ : File).Bytes.length := by
    rw [zeroBytes_length]; omega
  have hhi : (⟨"two.bin", 262145, zeroBytes 262145⟩ : File).Bytes.length ≤ 4095 * 262144 := by
    rw [zeroBytes_length]; omega
  have hclash : NoClash (nodeWrites unaryCodec (.FILE ⟨"two.bin", 262145, zeroBytes 262145⟩)) :=
    NoClash_of_payloadLog (nodeWrites_one_level_payloadLog unaryCodec _ hlo hhi)
      unary_digest_injective
  ⟨hlo, hhi, hclash,
    (StoreFile_roundtrip_one_level unaryCodec ⟨"two.bin", 262145, zeroBytes 262145⟩ [] ⟨[]⟩
      hlo hhi hclash).2.2.1,
    (StoreFile_roundtrip_one_level unaryCodec ⟨"two.bin", 262145, zeroBytes 262145⟩ [] ⟨[]⟩
      hlo hhi hclash).2.2.2.2⟩

/-! ### Path resolution through `Add` and `Hash2File` -/

/-- Every write the builder adds for a node is a leaf payload, the serialization of an
object with links, or the serialization of the object of a directory in the node. -/
theorem nodeWrites_split (E : Codec) (n : Node) : ∀ kv ∈ nodeWrites E n,
    ((∃ d : Bytes, kv = leafWrite E d) ∨
      (∃ o : Object, kv = (digest E o, E.jsonMarshal o) ∧ o.Links ≠ [])) ∨
    ∃ (name : String) (size : Int) (kids sub : List Node),
      n = .DIR name size kids ∧ DirIn sub kids ∧
      kv = (digest E (dirObject E sub), E.jsonMarshal (dirObject E sub)) :=
  nodeWrites_cases E _ (fun file kv hkv => by
    rcases (StoreFile_state E file).2.1 kv hkv with ⟨d, hd, -⟩ | ⟨o, ho, h1, -⟩
    · exact Or.inl ⟨d, hd⟩
    · refine Or.inr ⟨o, ho, fun h0 => ?_⟩
      rw [h0] at h1
      simp at h1) n

/-- A key written with one value only is read with that value. -/
theorem Get_unique (W s : KVStore) (k v : Bytes) (hmem : (k, v) ∈ W)
    (huniq : ∀ v', (k, v') ∈ W → v' = v) : (W ++ s).Get k = some v := by
  obtain ⟨v', hv', hget⟩ := Get_append_of_mem W s k v hmem
  rw [hget, huniq v' hv']

/-- Under a digest without collision on the objects written, the key of a written object
with links is written with the serialization of that object only. -/
theorem serialized_unique (E : Codec) (n : Node) (o : Object) (ho : o.Links ≠ [])
    (hmem : (digest E o, E.jsonMarshal o) ∈ nodeWrites E n)
    (hinj : ∀ o₁ o₂ : Object, Written E (nodeWrites E n) o₁ → Written E (nodeWrites E n) o₂ →
      digest E o₁ = digest E o₂ → o₁ = o₂) :
    ∀ v', (digest E o, v') ∈ nodeWrites E n → v' = E.jsonMarshal o := by
  intro v' hv'
  have hwo : Written E (nodeWrites E n) o := Or.inr hmem
  rcases nodeWrites_split E n _ hv' with (⟨d, hd⟩ | ⟨p, hp, -⟩) | ⟨_, _, _, sub, -, -, hp⟩
  · obtain ⟨hk, hv⟩ := Prod.mk.inj hd
    have hw : Written E (nodeWrites E n) { Links := [], Data := d } := by
      left
      show (digest E { Links := [], Data := d }, d) ∈ nodeWrites E n
      rw [← hk, ← hv]
      exact hv'
    have e := hinj o _ hwo hw hk
    rw [e] at ho
    exact absurd rfl ho
  · obtain ⟨hk, hv⟩ := Prod.mk.inj hp
    have hw : Written E (nodeWrites E n) p := by
      right
      rw [← hk, ← hv]
      exact hv'
    rw [hv, hinj o p hwo hw hk]
  · obtain ⟨hk, hv⟩ := Prod.mk.inj hp
    have hw : Written E (nodeWrites E n) (dirObject E sub) := by
      right
      rw [← hk, ← hv]
      exact hv'
    rw [hv, hinj o _ hwo hw hk]

/-- Under a digest without collision on the objects written, the key of a written leaf
payload is written with that payload only, when the payload is not empty or the node
holds no directory without children. -/
theorem leaf_unique (E : Codec) (name : String) (size : Int) (kids : List Node) (c : Bytes)
    (hmem : leafWrite E c ∈ nodeWrites E (.DIR name size kids))
    (hinj : ∀ o₁ o₂ : Object, Written E (nodeWrites E (.DIR name size kids)) o₁ →
      Written E (nodeWrites E (.DIR name size kids)) o₂ → digest E o₁ = digest E o₂ → o₁ = o₂)
    (hc0 : c ≠ [] ∨ ∀ sub : List Node, DirIn sub kids → sub ≠ []) :
    ∀ v', (digest E { Links := [], Data := c }, v') ∈ nodeWrites E (.DIR name size kids) →
      v' = c := by
  intro v' hv'
  have hwo : Written E (nodeWrites E (.DIR name size kids)) { Links := [], Data := c } :=
    Or.inl hmem
  rcases nodeWrites_split E _ _ hv' with (⟨d, hd⟩ | ⟨p, hp, hne⟩) | ⟨nm, sz, it, sub, hn, hin, hp⟩
  · obtain ⟨hk, hv⟩ := Prod.mk.inj hd
    have hw : Written E (nodeWrites E (.DIR name size kids)) { Links := [], Data := d } := by
      left
      show (digest E { Links := [], Data := d }, d) ∈ nodeWrites E (.DIR name size kids)
      rw [← hk, ← hv]
      exact hv'
    have e := hinj _ _ hwo hw hk
    rw [hv]
    exact (congrArg Object.Data e).symm
  · obtain ⟨hk, hv⟩ := Prod.mk.inj hp
    have hw : Written E (nodeWrites E (.DIR name size kids)) p := by
      right
      rw [← hk, ← hv]
      exact hv'
    have e := hinj _ _ hwo hw hk
    rw [← e] at hne
    exact absurd rfl hne
  · obtain ⟨hk, hv⟩ := Prod.mk.inj hp
    have hw : Written E (nodeWrites E (.DIR name size kids)) (dirObject E sub) := by
      right
      rw [← hk, ← hv]
      exact hv'
    have e := hinj _ _ hwo hw hk
    injection hn with h1 h2 h3
    rw [← h3] at hin
    have hsub : sub = [] := by
      have hl := congrArg Object.Links e
      exact List.map_eq_nil_iff.mp hl.symm
    have hcnil : c = [] := by
      have hd := congrArg Object.Data e
      rw [hsub] at hd
      exact hd
    rcases hc0 with h | h
    · exact absurd hcnil h
    · exact absurd hsub (h sub hin)

/-- The walk of `Hash2File` on the address of a directory just added, for a path of three
components that names a file of at most 262144 bytes in a subdirectory, given the values
the store holds under the digests of the subdirectory and of the file. -/
theorem Hash2File_walk (E : Codec) (hcodec : ∀ o, E.jsonUnmarshal (E.jsonMarshal o) = o)
    (store : KVStore) (hp : HashPool) (fuel : Nat)
    (rootName : String) (rootSize : Int) (kids : List Node)
    (subSize bSize : Int) (c : Bytes) (subKids : List Node) (x : String) (v : Option Bytes)
    (hsub : Node.DIR "sub" subSize subKids ∈ kids)
    (hb : Node.FILE ⟨"b.txt", bSize, c⟩ ∈ subKids)
    (hc : c.length ≤ 262144)
    (hkids : (kids.map Node.Name).Nodup) (hsubKids : (subKids.map Node.Name).Nodup)
    (hx : Char.ofNat 92 ∉ x.data)
    (hgsub : (nodeWrites E (.DIR rootName rootSize kids) ++ store).Get
      (digest E (dirObject E subKids)) = some (E.jsonMarshal (dirObject E subKids)))
    (hgb : (nodeWrites E (.DIR rootName rootSize kids) ++ store).Get
      (digest E { Links := [], Data := c }) = v) :
    Hash2File E fuel (nodeWrites E (.DIR rootName rootSize kids) ++ store)
      (digest E (dirObject E kids)) (joinPath [x, "sub", "b.txt"]) hp = .ok v := by
  have hpath : stringsSplit (joinPath [x, "sub", "b.txt"]) = [x, "sub", "b.txt"] :=
    stringsSplit_joinPath _ (List.cons_ne_nil _ _) (by
      intro s hs
      simp only [List.mem_cons, List.mem_singleton, List.not_mem_nil, or_false] at hs
      rcases hs with rfl | rfl | rfl
      · exact hx
      · decide
      · decide)
  rw [Hash2File_built E hcodec, hpath, getFileByDir_lt E fuel _ [x, "sub", "b.txt"] 1 _ (by simp)]
  have hscan := dirLoop_child E (nodeWrites E (.DIR rootName rootSize kids) ++ store) fuel
    (fun objDir => getFileByDir E fuel objDir [x, "sub", "b.txt"] (1 + 1)
      (nodeWrites E (.DIR rootName rootSize kids) ++ store))
    kids (.DIR "sub" subSize subKids) hsub hkids
  have hscan2 := dirLoop_child E (nodeWrites E (.DIR rootName rootSize kids) ++ store) fuel
    (fun objDir => getFileByDir E fuel objDir [x, "sub", "b.txt"] (2 + 1)
      (nodeWrites E (.DIR rootName rootSize kids) ++ store))
    subKids (.FILE ⟨"b.txt", bSize, c⟩) hb hsubKids
  rw [nodeTag_file_small E ⟨"b.txt", bSize, c⟩ hc, if_neg (by decide), if_pos (by decide),
    builtObject_file_small E ⟨"b.txt", bSize, c⟩ hc, hgb] at hscan2
  have hinner : getFileByDir E fuel (dirObject E subKids) [x, "sub", "b.txt"] (1 + 1)
      (nodeWrites E (.DIR rootName rootSize kids) ++ store) = .ok v := by
    rw [getFileByDir_lt E fuel _ [x, "sub", "b.txt"] 2 _ (by simp)]
    exact hscan2
  have htree : goBytes (nodeTag E (.DIR "sub" subSize subKids)) = goBytes TREE := rfl
  rw [if_pos htree, builtObject_dir, hgsub, binaryToObj, Option.getD_some, hcodec] at hscan
  beta_reduce at hscan
  rw [hinner] at hscan
  cases v with
  | none => exact hscan
  | some w => exact hscan

/-- C2 as amended: for a directory whose entries have pairwise distinct names, with a
file `a.txt` and a subdirectory `sub`, itself with pairwise distinct names and a file
`b.txt` of at most 262144 bytes with content `c`; when the digest has no collision on the
objects `Add` writes, and `c` is not empty or the directory tree holds no directory
without children, `Hash2File` with the address `Add` returned and a path of three
components, any first component without backslash, then `sub`, then `b.txt`, returns
`c`. -/
theorem Hash2File_resolves_sub_b (E : Codec)
    (hcodec : ∀ o, E.jsonUnmarshal (E.jsonMarshal o) = o)
    (store : KVStore) (h : HashHandle) (hp : HashPool) (fuel : Nat)
    (rootName : String) (rootSize : Int) (kids : List Node)
    (aSize subSize bSize : Int) (a c : Bytes) (subKids : List Node) (x : String)
    (_ha : Node.FILE ⟨"a.txt", aSize, a⟩ ∈ kids)
    (hsub : Node.DIR "sub" subSize subKids ∈ kids)
    (hb : Node.FILE ⟨"b.txt", bSize, c⟩ ∈ subKids)
    (hc : c.length ≤ 262144)
    (hkids : (kids.map Node.Name).Nodup) (hsubKids : (subKids.map Node.Name).Nodup)
    (hx : Char.ofNat 92 ∉ x.data)
    (hinj : ∀ o₁ o₂ : Object, Written E (nodeWrites E (.DIR rootName rootSize kids)) o₁ →
      Written E (nodeWrites E (.DIR rootName rootSize kids)) o₂ →
      digest E o₁ = digest E o₂ → o₁ = o₂)
    (hc0 : c ≠ [] ∨ ∀ sub : List Node, DirIn sub kids → sub ≠ []) :
    ∃ (addr : Bytes) (store' : KVStore),
      Add E store (.DIR rootName rootSize kids) h = .ok (addr, store') ∧
      Hash2File E fuel store' addr (joinPath [x, "sub", "b.txt"]) hp = .ok (some c) := by
  refine ⟨_, _, Add_dir E rootName rootSize kids store h, ?_⟩
  have hsubmem : (digest E (dirObject E subKids), E.jsonMarshal (dirObject E subKids))
      ∈ nodeWrites E (.DIR rootName rootSize kids) := by
    have hm := mem_nodeWrites_of_child E rootName rootSize kids _ hsub _
      (nodeWrites_head E (.DIR "sub" subSize subKids))
    rw [nodeValue, builtObject_dir] at hm
    exact hm
  have hbmem : leafWrite E c ∈ nodeWrites E (.DIR rootName rootSize kids) := by
    have hm := mem_nodeWrites_of_child E rootName rootSize kids _ hsub _
      (mem_nodeWrites_of_child E "sub" subSize subKids _ hb _
        (nodeWrites_head E (.FILE ⟨"b.txt", bSize, c⟩)))
    rw [nodeValue_file_small E ⟨"b.txt", bSize, c⟩ hc,
      builtObject_file_small E ⟨"b.txt", bSize, c⟩ hc] at hm
    exact hm
  have hsubne : (dirObject E subKids).Links ≠ [] := by
    intro h0
    have hnil : subKids = [] := List.map_eq_nil_iff.mp h0
    rw [hnil] at hb
    simp at hb
  exact Hash2File_walk E hcodec store hp fuel rootName rootSize kids subSize bSize c subKids x
    (some c) hsub hb hc hkids hsubKids hx
    (Get_unique _ store _ _ hsubmem
      (serialized_unique E _ _ hsubne hsubmem hinj))
    (Get_unique _ store _ _ hbmem
      (leaf_unique E rootName rootSize kids c hbmem hinj hc0))

theorem Hash2File_resolves_sub_b_witness :
    (∀ o₁ o₂ : Object, digest unaryCodec o₁ = digest unaryCodec o₂ → o₁ = o₂) ∧
    goBytes "world" ≠ [] ∧
    ∃ (addr : Bytes) (store' : KVStore),
      Add unaryCodec [(goBytes "k", goBytes "v")] (.DIR "root" 0 exampleDir) ⟨[]⟩
        = .ok (addr, store') ∧
      Hash2File unaryCodec 0 store' addr (joinPath ["root", "sub", "b.txt"]) ⟨0⟩
        = .ok (some (goBytes "world")) :=
  ⟨unary_digest_injective, by decide,
    Hash2File_resolves_sub_b unaryCodec unary_roundtrip [(goBytes "k", goBytes "v")] ⟨[]⟩ ⟨0⟩ 0
      "root" 0 exampleDir 5 5 5 (goBytes "hello") (goBytes "world")
      [.FILE ⟨"b.txt", 5, goBytes "world"⟩] "root"
      (by simp [exampleDir]) (by simp [exampleDir]) (by simp) (by decide)
      (by decide) (by decide) (by decide)
      (fun o₁ o₂ _ _ e => unary_digest_injective o₁ o₂ e) (Or.inl (by decide))⟩

theorem shift_digest_injective (o₁ o₂ : Object)
    (h : digest shiftCodec o₁ = digest shiftCodec o₂) : o₁ = o₂ := by
  have h' : shiftCodec.jsonMarshal o₁ = shiftCodec.jsonMarshal o₂ := h
  rw [← shift_roundtrip o₁, ← shift_roundtrip o₂, h']

/-- The writes of `Add` on `clashDir`: the root, the directory without children, the
subdirectory, the empty leaf payload of `b.txt` and the leaf payload of `a.txt`. -/
theorem clashDir_writes (E : Codec) :
    nodeWrites E (.DIR "root" 0 clashDir)
      = [(digest E (dirObject E clashDir), E.jsonMarshal (dirObject E clashDir)),
         (digest E (dirObject E []), E.jsonMarshal (dirObject E [])),
         (digest E (dirObject E [.FILE ⟨"b.txt", 0, []⟩]),
            E.jsonMarshal (dirObject E [.FILE ⟨"b.txt", 0, []⟩])),
         (digest E { Links := [], Data := [] }, []),
         (digest E { Links := [], Data := goBytes "hello" }, goBytes "hello")] := by
  rw [nodeWrites_dir]
  simp only [clashDir, loopWrites, nodeWrites_dir, List.nil_append, List.cons_append,
    nodeWrites_file_small E ⟨"a.txt", 5, goBytes "hello"⟩ (by decide),
    nodeWrites_file_small E ⟨"b.txt", 0, []⟩ (by decide)]

/-- On `clashDir` the empty file `b.txt` and the directory without children are written
under one key, the directory last: `Hash2File` on the path to `b.txt` returns the
serialization of the object without links and data. -/
theorem Hash2File_clash (E : Codec) (hcodec : ∀ o, E.jsonUnmarshal (E.jsonMarshal o) = o)
    (hinj : ∀ o₁ o₂ : Object, digest E o₁ = digest E o₂ → o₁ = o₂)
    (store : KVStore) (fuel : Nat) (hp : HashPool) (x : String) (hx : Char.ofNat 92 ∉ x.data) :
    Hash2File E fuel (nodeWrites E (.DIR "root" 0 clashDir) ++ store)
        (digest E (dirObject E clashDir)) (joinPath [x, "sub", "b.txt"]) hp
      = .ok (some (E.jsonMarshal { Links := [], Data := [] })) := by
  have hzero : dirObject E [] = { Links := [], Data := [] } := rfl
  have hlen : ∀ kids : List Node, (dirObject E kids).Links.length = kids.length := by
    intro kids
    rw [dirObject, List.length_map]
  have hne : ∀ kids₁ kids₂ : List Node, kids₁.length ≠ kids₂.length →
      digest E (dirObject E kids₁) ≠ digest E (dirObject E kids₂) := by
    intro kids₁ kids₂ hk e
    have := congrArg (fun o => o.Links.length) (hinj _ _ e)
    simp only [hlen] at this
    exact hk this
  have h1 : digest E (dirObject E clashDir) ≠ digest E (dirObject E [.FILE ⟨"b.txt", 0, []⟩]) :=
    hne _ _ (by decide)
  have h2 : digest E (dirObject E []) ≠ digest E (dirObject E [.FILE ⟨"b.txt", 0, []⟩]) :=
    hne _ _ (by decide)
  have h3 : digest E (dirObject E clashDir) ≠ digest E (dirObject E []) :=
    hne _ _ (by decide)
  refine Hash2File_walk E hcodec store hp fuel "root" 0 clashDir 0 0 [] [.FILE ⟨"b.txt", 0, []⟩] x
    _ (by simp [clashDir]) (by simp) (by decide) (by decide) (by decide) hx ?_ ?_
  · rw [clashDir_writes]
    simp only [List.cons_append, List.nil_append]
    rw [Get_cons_ne _ _ _ _ h1, Get_cons_ne _ _ _ _ h2, Get_cons_self]
  · rw [clashDir_writes]
    simp only [List.cons_append, List.nil_append]
    rw [Get_cons_ne _ _ _ _ (by rw [← hzero]; exact h3), hzero, Get_cons_self]

/-- C2 (path resolution), the counterexample, in two parts.  After `Add` on the
directory of the example, `Hash2File` with the returned address and the path `sub` +
backslash + `b.txt` returns nil, not `world`: the walk starts at the component at index
1, `b.txt`, which names no entry of the root.  And on a directory that holds, after the
subdirectory `sub` with an empty file `b.txt`, a directory without children, under a
digest that has no collision at all, `Hash2File` with the returned address and a path of
three components ending in `sub`, `b.txt` returns the serialization of the object without
links and data, which is not the empty content of `b.txt`: the directory without children
is stored, serialized, under the key of the empty leaf payload. -/
theorem Hash2File_sub_b_not_found :
    (∃ (addr : Bytes) (store' : KVStore),
      Add unaryCodec [] (.DIR "root" 0 exampleDir) ⟨[]⟩ = .ok (addr, store') ∧
      ∀ (fuel : Nat) (hp : HashPool),
        Hash2File unaryCodec fuel store' addr (joinPath ["sub", "b.txt"]) hp = .ok none) ∧
    ((∀ o₁ o₂ : Object, digest shiftCodec o₁ = digest shiftCodec o₂ → o₁ = o₂) ∧
      shiftCodec.jsonMarshal { Links := [], Data := [] } ≠ [] ∧
      ∃ (addr : Bytes) (store' : KVStore),
        Add shiftCodec [] (.DIR "root" 0 clashDir) ⟨[]⟩ = .ok (addr, store') ∧
        ∀ (fuel : Nat) (hp : HashPool),
          Hash2File shiftCodec fuel store' addr (joinPath ["x", "sub", "b.txt"]) hp
            = .ok (some (shiftCodec.jsonMarshal { Links := [], Data := [] }))) := by
  refine ⟨⟨_, _, Add_dir unaryCodec "root" 0 exampleDir [] ⟨[]⟩, ?_⟩,
    shift_digest_injective, List.cons_ne_nil _ _,
    _, _, Add_dir shiftCodec "root" 0 clashDir [] ⟨[]⟩, ?_⟩
  · intro fuel hp
    rw [Hash2File_built unaryCodec unary_roundtrip, exampleDir_path,
      getFileByDir_lt unaryCodec fuel _ ["sub", "b.txt"] 1 _ (by decide)]
    exact dirLoop_absent unaryCodec _ fuel _ "b.txt" exampleDir (by decide)
  · intro fuel hp
    exact Hash2File_clash shiftCodec shift_roundtrip shift_digest_injective [] fuel hp "x"
      (by decide)

/-! ### Determinism -/

/-- In its second branch `StoreFileRaw` is `StoreFile` on the bytes of the file. -/
theorem StoreFileRaw_big (E : RawCodec) (s : KVStore) (file : RawFile) (h : HashHandle)
    (hlen : ¬ (file.Bytes.getD []).length ≤ 256 * 1024) :
    StoreFileRaw E s file h
      = (StoreFile E.plain s ⟨file.Name, file.Size, file.Bytes.getD []⟩ h).map
          (fun r => ({ Links := r.1.Links, Data := some r.1.Data }, r.2)) := by
  unfold StoreFileRaw StoreFile
  rw [if_neg hlen, if_neg hlen]
  dsimp only
  rw [map_map]

/-- Two slices with the same bytes that are both nil or both non-nil when they are empty
are the same slice. -/
theorem slice_eq_of_bytes (b1 b2 : Option Bytes) (hb : b1.getD [] = b2.getD [])
    (hnil : b1.getD [] = [] → (b1 = none ↔ b2 = none)) : b1 = b2 := by
  cases b1 with
  | none =>
    cases b2 with
    | none => rfl
    | some y => exact ((hnil rfl).mp rfl).symm
  | some x =>
    cases b2 with
    | none =>
      have hx : x = [] := hb
      exact (hnil hx).mpr rfl
    | some y =>
      have hxy : x = y := hb
      rw [hxy]

/-- C7 (determinism), amended: two files with the same bytes, whose `Bytes()` are both
nil or both non-nil when the content is empty, whatever their names, the stores they are
added to and the hash handles passed, make `StoreFile` return the same root object and
add the same writes, and `Add` return the same root address. -/
theorem StoreFile_deterministic (E : RawCodec) (f1 f2 : RawFile) (s1 s2 : KVStore)
    (h1 h2 : HashHandle) (hb : f1.Bytes.getD [] = f2.Bytes.getD [])
    (hnil : f1.Bytes.getD [] = [] → (f1.Bytes = none ↔ f2.Bytes = none)) :
    ∃ (root : RawObject) (W : KVStore),
      StoreFileRaw E s1 f1 h1 = .ok (root, W ++ s1) ∧
      StoreFileRaw E s2 f2 h2 = .ok (root, W ++ s2) ∧
      AddRaw E s1 f1 h1 = .ok (E.sha256 (E.jsonMarshal root), W ++ s1) ∧
      AddRaw E s2 f2 h2 = .ok (E.sha256 (E.jsonMarshal root), W ++ s2) := by
  have heq : f1.Bytes = f2.Bytes := slice_eq_of_bytes _ _ hb hnil
  have hadd : ∀ (s : KVStore) (f : RawFile) (h : HashHandle) (root : RawObject) (s' : KVStore),
      StoreFileRaw E s f h = .ok (root, s') →
      AddRaw E s f h = .ok (E.sha256 (E.jsonMarshal root), s') := by
    intro s f h root s' hr
    rw [AddRaw, hr, map_ok]
  by_cases hlen : (f1.Bytes.getD []).length ≤ 256 * 1024
  · have hlen2 : (f2.Bytes.getD []).length ≤ 256 * 1024 := by rw [← hb]; exact hlen
    have r1 : StoreFileRaw E s1 f1 h1 = .ok ({ Links := [], Data := f1.Bytes },
        [(E.sha256 (E.jsonMarshal { Links := [], Data := f1.Bytes }), f1.Bytes.getD [])]
          ++ s1) := by
      unfold StoreFileRaw
      rw [if_pos hlen]
      rfl
    have r2 : StoreFileRaw E s2 f2 h2 = .ok ({ Links := [], Data := f1.Bytes },
        [(E.sha256 (E.jsonMarshal { Links := [], Data := f1.Bytes }), f1.Bytes.getD [])]
          ++ s2) := by
      unfold StoreFileRaw
      rw [if_pos hlen2, heq]
      rfl
    exact ⟨_, _, r1, r2, hadd _ _ _ _ _ r1, hadd _ _ _ _ _ r2⟩
  · have hlen2 : ¬ (f2.Bytes.getD []).length ≤ 256 * 1024 := by rw [← hb]; exact hlen
    obtain ⟨o, W, hrun, -, -, -⟩ :=
      StoreFile_ok E.plain ⟨f1.Name, f1.Size, f1.Bytes.getD []⟩
    have e2 : StoreFile E.plain s2 ⟨f2.Name, f2.Size, f2.Bytes.getD []⟩ h2
        = .ok (o, (digest E.plain o, payload E.plain o) :: W ++ s2) := by
      rw [← StoreFile_congr E.plain ⟨f1.Name, f1.Size, f1.Bytes.getD []⟩
        ⟨f2.Name, f2.Size, f2.Bytes.getD []⟩ hb s2 h2 h2]
      exact hrun s2 h2
    have r1 : StoreFileRaw E s1 f1 h1 = .ok ({ Links := o.Links, Data := some o.Data },
        ((digest E.plain o, payload E.plain o) :: W) ++ s1) := by
      rw [StoreFileRaw_big E s1 f1 h1 hlen, hrun s1 h1, map_ok]
    have r2 : StoreFileRaw E s2 f2 h2 = .ok ({ Links := o.Links, Data := some o.Data },
        ((digest E.plain o, payload E.plain o) :: W) ++ s2) := by
      rw [StoreFileRaw_big E s2 f2 h2 hlen2, e2, map_ok]
    exact ⟨_, _, r1, r2, hadd _ _ _ _ _ r1, hadd _ _ _ _ _ r2⟩

theorem StoreFile_deterministic_witness :
    (⟨"a.txt", 5, some (goBytes "hello")⟩ : RawFile).Bytes.getD []
      = (⟨"copy.bin", 7, some (goBytes "hello")⟩ : RawFile).Bytes.getD [] ∧
    ∃ (root : RawObject) (W : KVStore),
      StoreFileRaw nullCodec [] ⟨"a.txt", 5, some (goBytes "hello")⟩ ⟨[]⟩ = .ok (root, W ++ []) ∧
      StoreFileRaw nullCodec [(goBytes "k", goBytes "v")]
          ⟨"copy.bin", 7, some (goBytes "hello")⟩ ⟨[1]⟩
        = .ok (root, W ++ [(goBytes "k", goBytes "v")]) ∧
      AddRaw nullCodec [] ⟨"a.txt", 5, some (goBytes "hello")⟩ ⟨[]⟩
        = .ok (nullCodec.sha256 (nullCodec.jsonMarshal root), W ++ []) ∧
      AddRaw nullCodec [(goBytes "k", goBytes "v")] ⟨"copy.bin", 7, some (goBytes "hello")⟩ ⟨[1]⟩
        = .ok (nullCodec.sha256 (nullCodec.jsonMarshal root),
            W ++ [(goBytes "k", goBytes "v")]) :=
  ⟨rfl, StoreFile_deterministic nullCodec ⟨"a.txt", 5, some (goBytes "hello")⟩
    ⟨"copy.bin", 7, some (goBytes "hello")⟩ [] [(goBytes "k", goBytes "v")] ⟨[]⟩ ⟨[1]⟩ rfl
    (fun h => absurd h (by decide))⟩

/-- C7 (determinism), the counterexample: two files without bytes, of which the first
returns a nil slice from `Bytes()` and the second an empty non-nil slice, have the same
byte content; `StoreFile` returns two different root objects for them (a nil `Data`
against an empty `Data`) and `Add` two different root addresses. -/
theorem StoreFile_nil_empty_differ :
    (⟨"f1", 0, none⟩ : RawFile).Bytes.getD [] = (⟨"f2", 0, some []⟩ : RawFile).Bytes.getD [] ∧
    ∃ (root1 root2 : RawObject) (s1 s2 : KVStore) (a1 a2 : Bytes),
      StoreFileRaw nullCodec [] ⟨"f1", 0, none⟩ ⟨[]⟩ = .ok (root1, s1) ∧
      StoreFileRaw nullCodec [] ⟨"f2", 0, some []⟩ ⟨[]⟩ = .ok (root2, s2) ∧
      AddRaw nullCodec [] ⟨"f1", 0, none⟩ ⟨[]⟩ = .ok (a1, s1) ∧
      AddRaw nullCodec [] ⟨"f2", 0, some []⟩ ⟨[]⟩ = .ok (a2, s2) ∧
      root1 ≠ root2 ∧ a1 ≠ a2 := by
  have r1 : StoreFileRaw nullCodec [] ⟨"f1", 0, none⟩ ⟨[]⟩
      = .ok ({ Links := [], Data := none },
          [(nullCodec.sha256 (nullCodec.jsonMarshal { Links := [], Data := none }), [])]) := by
    unfold StoreFileRaw
    rw [if_pos (by decide)]
    rfl
  have r2 : StoreFileRaw nullCodec [] ⟨"f2", 0, some []⟩ ⟨[]⟩
      = .ok ({ Links := [], Data := some [] },
          [(nullCodec.sha256 (nullCodec.jsonMarshal { Links := [], Data := some [] }), [])]) := by
    unfold StoreFileRaw
    rw [if_pos (by decide)]
    rfl
  refine ⟨rfl, _, _, _, _, _, _, r1, r2, by rw [AddRaw, r1, map_ok],
    by rw [AddRaw, r2, map_ok], by decide, ?_⟩
  intro e
  have h := (List.cons.inj e).1
  exact absurd h (by decide)

end MerkleDag
